import Mathlib

/-!
# Verification of the `rust-btree` B-tree implementation

A shallow embedding of `src/btree.rs` (a B-tree with minimum degree
`t = BTREE_MIN_DEGREE = 20`), together with proofs and refutations of the
specification's claims about it.

Modelling conventions:
* Rust fixed-size arrays `[Option<K>, ..N]` become Lean `List (Option K)`
  of length `N`; `array[i]` becomes `List.getD i none`, `array[i] = x`
  becomes `List.set`, and `slice::swap`/`util::swap` become `swapIdx` /
  element-wise reads and writes on both lists.
* The `fail!(..)` macro (a fatal invariant violation) is modelled by
  returning `none` from an `Option`-valued function, so "no fatal branch
  executes" is exactly "the function returns `some`".
* The recursive descent of `find` and `insert_non_full` is bounded by an
  explicit fuel argument so that the definitions compute by kernel
  reduction; the public wrappers pass `sizeB t + 1` fuel, which is proved
  sufficient for every well-formed tree (the descent depth is the height).
-/

/-- `BTREE_MIN_DEGREE` from `src/btree.rs` (the mature constant `t = 20`). -/
def BTREE_MIN_DEGREE : Nat := 20

/-- `BTREE_KEYS_LBOUND = BTREE_MIN_DEGREE - 1`. -/
def BTREE_KEYS_LBOUND : Nat := BTREE_MIN_DEGREE - 1

/-- `BTREE_KEYS_UBOUND = 2 * BTREE_MIN_DEGREE - 1`. -/
def BTREE_KEYS_UBOUND : Nat := 2 * BTREE_MIN_DEGREE - 1

mutual
/-- The `BTree<K, V>` struct: `used`, a `keys` array of `BTREE_KEYS_UBOUND`
optional keys and a `nodes` array of `BTREE_KEYS_UBOUND + 1` optional slots. -/
inductive BTree (K : Type) (V : Type) where
  | mk (used : Nat) (keys : List (Option K)) (nodes : List (Option (TreeItem K V)))

/-- The `TreeItem<K, V>` enum: a slot holds either a child subtree
(`TreeNode`) or a stored value (`TreeLeaf`). -/
inductive TreeItem (K : Type) (V : Type) where
  | TreeNode (value : BTree K V)
  | TreeLeaf (value : V)
end

variable {K V : Type}

def BTree.used : BTree K V → Nat
  | .mk u _ _ => u

def BTree.keys : BTree K V → List (Option K)
  | .mk _ ks _ => ks

def BTree.nodes : BTree K V → List (Option (TreeItem K V))
  | .mk _ _ ns => ns

@[simp] theorem BTree.used_mk (u : Nat) (ks : List (Option K))
    (ns : List (Option (TreeItem K V))) : (BTree.mk u ks ns).used = u := rfl

@[simp] theorem BTree.keys_mk (u : Nat) (ks : List (Option K))
    (ns : List (Option (TreeItem K V))) : (BTree.mk u ks ns).keys = ks := rfl

@[simp] theorem BTree.nodes_mk (u : Nat) (ks : List (Option K))
    (ns : List (Option (TreeItem K V))) : (BTree.mk u ks ns).nodes = ns := rfl

/-- `BTree::new()`: an empty node, `used = 0`, all keys and slots `None`. -/
def BTree.new : BTree K V :=
  .mk 0 (List.replicate BTREE_KEYS_UBOUND none)
    (List.replicate (BTREE_KEYS_UBOUND + 1) none)

/-- `BTree::capacity()`. -/
def BTree.capacity (_ : BTree K V) : Nat := BTREE_KEYS_UBOUND

/-- `Container::len` for `BTree`: the root's `used` count. -/
def BTree.len (t : BTree K V) : Nat := t.used

/-- `Container::is_empty` for `BTree`: `self.nodes.head().is_none()`. -/
def BTree.is_empty (t : BTree K V) : Bool := (t.nodes.getD 0 none).isNone

/-- `Mutable::clear` for `BTree`: set every key and slot of the root to
`None` (the two `for` loops) and reset `used` to 0. -/
def BTree.clear (t : BTree K V) : BTree K V :=
  .mk 0 (t.keys.map fun _ => none) (t.nodes.map fun _ => none)

/-- Swap of two positions inside one list (Rust `slice::swap`). -/
def swapIdx {α : Type} (l : List (Option α)) (i j : Nat) : List (Option α) :=
  (l.set i (l.getD j none)).set j (l.getD i none)

/-- The descending shift loops: `shiftUp l pos n` performs the adjacent
swaps `l.swap(pos+m-1, pos+m)` for `m = n, n-1, ..., 1`, i.e. the Rust
pattern `while i > pos { l.swap(i-1, i); i -= 1 }` started at `i = pos+n`. -/
def shiftUp {α : Type} (l : List (Option α)) (pos : Nat) : Nat → List (Option α)
  | 0 => l
  | n + 1 => shiftUp (swapIdx l (pos + n) (pos + n + 1)) pos n

/-- The ascending cross-array swap loops of `split_child` and of the root
pre-split in `insert`: `swapAcrossLoop a b offB i n` performs
`util::swap(&mut a[i+m], &mut b[i+m+offB])` for `m = 0, ..., n-1`. -/
def swapAcrossLoop {α : Type} :
    List (Option α) → List (Option α) → Nat → Nat → Nat →
      List (Option α) × List (Option α)
  | a, b, _, _, 0 => (a, b)
  | a, b, offB, i, n + 1 =>
      swapAcrossLoop (a.set i (b.getD (i + offB) none))
        (b.set (i + offB) (a.getD i none)) offB (i + 1) n

/-- The linear scan of `find_node_pos` over the `keys` array, carrying the
running index `i`: `Some k` compares `key <= k`, `None` aborts with
`tree.used`, and a completed scan also returns `tree.used`. -/
def findPosAux [LinearOrder K] (key : K) :
    List (Option K) → Nat → Nat → Nat
  | [], _, used => used
  | some k :: rest, i, used =>
      if key ≤ k then i else findPosAux key rest (i + 1) used
  | none :: _, _, used => used

/-- `find_node_pos(tree, key)` (the linear-search version that is live in
the source; the commented-out binary search is dead code). -/
def find_node_pos [LinearOrder K] (t : BTree K V) (key : K) : Nat :=
  findPosAux key t.keys 0 t.used

mutual
/-- Structural size of a tree, used as termination fuel for the recursive
descents (`find`, `insert_non_full`). -/
def sizeB : BTree K V → Nat
  | .mk _ _ ns => 1 + sizeL ns

def sizeL : List (Option (TreeItem K V)) → Nat
  | [] => 0
  | none :: rest => sizeL rest
  | some (.TreeLeaf _) :: rest => 1 + sizeL rest
  | some (.TreeNode c) :: rest => 1 + sizeB c + sizeL rest
end

/-- Case analysis on a slot, the three arms of the Rust
`match tree.nodes[pos] { Some(TreeNode ..) | Some(TreeLeaf ..) | None }`. -/
def slotCase {α : Type} (s : Option (TreeItem K V)) (fNode : BTree K V → α)
    (fLeaf : V → α) (fNone : α) : α :=
  match s with
  | some (.TreeNode c) => fNode c
  | some (.TreeLeaf v) => fLeaf v
  | none => fNone

@[simp] theorem slotCase_node {α : Type} (c : BTree K V)
    (fNode : BTree K V → α) (fLeaf : V → α) (fNone : α) :
    slotCase (some (.TreeNode c)) fNode fLeaf fNone = fNode c := rfl

@[simp] theorem slotCase_leaf {α : Type} (v : V) (fNode : BTree K V → α)
    (fLeaf : V → α) (fNone : α) :
    slotCase (some (.TreeLeaf v)) fNode fLeaf fNone = fLeaf v := rfl

@[simp] theorem slotCase_none {α : Type} (fNode : BTree K V → α)
    (fLeaf : V → α) (fNone : α) :
    slotCase (none : Option (TreeItem K V)) fNode fLeaf fNone = fNone := rfl

/-- `is_leaf(tree)`: inspect `tree.nodes[0]`. -/
def is_leaf (t : BTree K V) : Bool :=
  slotCase (t.nodes.getD 0 none) (fun _ => false) (fun _ => true) false

/-- The loop body of `BTree::find`, with explicit fuel. Out-of-fuel
returns `none`; the wrapper `BTree.find` always passes enough fuel.
The Rust short-circuit `pos == current.used || current.keys[pos] == key`
is preserved (`keys.getD pos none = some key` models the successful
`get_ref` comparison). -/
def findF [LinearOrder K] : Nat → BTree K V → K → Option V
  | 0, _, _ => none
  | fuel + 1, t, key =>
    if (t.nodes.getD 0 none).isNone then none
    else
      let pos := find_node_pos t key
      slotCase (t.nodes.getD pos none)
        (fun tree => findF fuel tree key)
        (fun value =>
          if pos = t.used ∨ t.keys.getD pos none = some key then some value
          else none)
        none

/-- `BTree::find(key)`. -/
def BTree.find [LinearOrder K] (t : BTree K V) (key : K) : Option V :=
  findF (sizeB t + 1) t key

/-- `split_child(tree, pos)`. Returns `none` exactly when the
`fail!("unreachable path: tree.nodes[pos] should be a TreeNode")` branch
would run. The interleaved `nodes.swap(i, i+1)` / `keys.swap(i-1, i)`
loop acts on two distinct arrays, so it equals the two `shiftUp` loops. -/
def split_child [LinearOrder K] (tree : BTree K V) (pos : Nat) :
    Option (BTree K V) :=
  let t := BTREE_MIN_DEGREE
  let nodes1 := shiftUp tree.nodes (pos + 1) (tree.used - pos)
  let keys1 := shiftUp tree.keys pos (tree.used - pos)
  slotCase (nodes1.getD pos none)
    (fun left =>
      let right : BTree K V := BTree.new
      let swappedK := swapAcrossLoop right.keys left.keys t 0 (t - 1)
      let swappedN := swapAcrossLoop right.nodes left.nodes t 0 t
      let keys2 := keys1.set pos (swappedK.2.getD (t - 1) none)
      let leftKeys2 := swappedK.2.set (t - 1) (keys1.getD pos none)
      let leftFinal : BTree K V := .mk (t - 1) leftKeys2 swappedN.2
      let rightFinal : BTree K V := .mk (t - 1) swappedK.1 swappedN.1
      some (.mk (tree.used + 1) keys2
        ((nodes1.set pos (some (.TreeNode leftFinal))).set (pos + 1)
          (some (.TreeNode rightFinal)))))
    (fun _ => none)
    none

/-- The `new_key` computation of the leaf branch of `insert_non_full`:
`tree.keys[pos].is_none() || tree.keys[pos].get_ref() != &key`. -/
def isNewKey [DecidableEq K] (cell : Option K) (key : K) : Bool :=
  match cell with
  | none => true
  | some k => decide (k ≠ key)

@[simp] theorem isNewKey_none [DecidableEq K] (key : K) :
    isNewKey (none : Option K) key = true := rfl

@[simp] theorem isNewKey_some [DecidableEq K] (k key : K) :
    isNewKey (some k) key = decide (k ≠ key) := rfl

/-- The post-split position adjustment of `insert_non_full`:
`match tree.keys[pos] { Some(k) => if key > k { pos + 1 }, None => () }`. -/
def adjustPos [LinearOrder K] (cell : Option K) (key : K) (pos : Nat) : Nat :=
  match cell with
  | some k => if key > k then pos + 1 else pos
  | none => pos

@[simp] theorem adjustPos_some [LinearOrder K] (k key : K) (pos : Nat) :
    adjustPos (some k) key pos = if key > k then pos + 1 else pos := rfl

@[simp] theorem adjustPos_none [LinearOrder K] (key : K) (pos : Nat) :
    adjustPos (none : Option K) key pos = pos := rfl

/-- `insert_non_full(tree, key, value)`, with explicit fuel. `none` models
both `fail!` branches (`unreachable path: leaf has same depth as a node`
and the `todo` on an empty slot); the wrapper always passes enough fuel. -/
def insert_non_fullF [LinearOrder K] :
    Nat → BTree K V → K → V → Option (BTree K V × Bool)
  | 0, _, _, _ => none
  | fuel + 1, tree, key, value =>
    if tree.used = 0 ∨ is_leaf tree then
      let pos := find_node_pos tree key
      let new_key := isNewKey (tree.keys.getD pos none) key
      let shifted :=
        if new_key then
          if tree.used > 0 then
            (shiftUp tree.keys pos (tree.used - pos),
             shiftUp tree.nodes pos (tree.used + 1 - pos), tree.used + 1)
          else (tree.keys, tree.nodes, tree.used + 1)
        else (tree.keys, tree.nodes, tree.used)
      some (.mk shifted.2.2 (shifted.1.set pos (some key))
        (shifted.2.1.set pos (some (.TreeLeaf value))), new_key)
    else
      let pos := find_node_pos tree key
      slotCase (tree.nodes.getD pos none)
        (fun tpos =>
          let doSplit := tpos.used = BTREE_KEYS_UBOUND
          (if doSplit then split_child tree pos else some tree).bind fun tree1 =>
            let pos1 :=
              if doSplit then adjustPos (tree1.keys.getD pos none) key pos
              else pos
            slotCase (tree1.nodes.getD pos1 none)
              (fun child =>
                (insert_non_fullF fuel child key value).map fun r =>
                  (.mk tree1.used tree1.keys
                    (tree1.nodes.set pos1 (some (.TreeNode r.1))), r.2))
              (fun _ => none)
              none)
        (fun _ => none)
        none

/-- `BTree::insert(key, value)`: the root pre-split (move the whole root
content into a brand-new child via the two full-array swap loops — note
the source never updates `child.used`, which stays 0 — then `split_child`
at position 0) followed by `insert_non_full`. -/
def BTree.insert [LinearOrder K] (self : BTree K V) (key : K) (value : V) :
    Option (BTree K V × Bool) :=
  let pre : Option (BTree K V) :=
    if self.used = self.capacity then
      let child0 : BTree K V := BTree.new
      let swappedNodes :=
        swapAcrossLoop self.nodes child0.nodes 0 0 (BTREE_KEYS_UBOUND + 1)
      let swappedKeys :=
        swapAcrossLoop self.keys child0.keys 0 0 BTREE_KEYS_UBOUND
      let child : BTree K V := .mk child0.used swappedKeys.2 swappedNodes.2
      let self1 : BTree K V :=
        .mk 0 swappedKeys.1 (swappedNodes.1.set 0 (some (.TreeNode child)))
      split_child self1 0
    else some self
  pre.bind fun t1 => insert_non_fullF (sizeB t1 + 1) t1 key value

/-- One externally-visible mutation: an `insert` (keeping the resulting
tree when it succeeds) or a `clear`. -/
inductive Op (K V : Type) where
  | ins (k : K) (v : V)
  | clr

/-- Apply one operation to a tree. -/
def applyOp [LinearOrder K] (t : BTree K V) : Op K V → Option (BTree K V)
  | .ins k v => (t.insert k v).map Prod.fst
  | .clr => some t.clear

/-- Apply a sequence of operations starting from a given tree. -/
def applyOps [LinearOrder K] (t : BTree K V) (ops : List (Op K V)) :
    Option (BTree K V) :=
  ops.foldlM applyOp t

/-- A tree is reachable when some sequence of `insert`/`clear` operations
produces it from `BTree::new()`. -/
def Reachable [LinearOrder K] (t : BTree K V) : Prop :=
  ∃ ops : List (Op K V), applyOps BTree.new ops = some t

/-- Build a tree by inserting a list of key-value pairs in order into a
newly constructed tree. -/
def buildTree [LinearOrder K] (l : List (K × V)) : Option (BTree K V) :=
  l.foldlM (fun t p => (t.insert p.1 p.2).map Prod.fst) BTree.new

/-- Total version of `buildTree` for stating concrete examples. -/
def buildT [LinearOrder K] (l : List (K × V)) : BTree K V :=
  (buildTree l).getD BTree.new

/-! ## List toolkit

Small positional lemmas about `List.set`, `List.getD`, `swapIdx`,
`shiftUp` and `swapAcrossLoop`, used to characterize the array loops of
the source. -/

theorem bt_getD_append_len {α : Type} (A : List (Option α)) (x : Option α)
    (B : List (Option α)) (d : Option α) : (A ++ x :: B).getD A.length d = x := by
  induction A with
  | nil => rfl
  | cons a A ih => simpa using ih

theorem bt_getD_append_lt {α : Type} (A B : List (Option α)) (n : Nat)
    (d : Option α) (h : n < A.length) : (A ++ B).getD n d = A.getD n d := by
  induction A generalizing n with
  | nil => simp at h
  | cons a A ih =>
    cases n with
    | zero => rfl
    | succ n => simpa using ih n (by simpa using h)

theorem bt_set_append_len {α : Type} (A : List (Option α)) (x : Option α)
    (B : List (Option α)) (a : Option α) :
    (A ++ x :: B).set A.length a = A ++ a :: B := by
  induction A with
  | nil => rfl
  | cons y A ih => simpa using ih

theorem bt_set_append_lt {α : Type} (A B : List (Option α)) (n : Nat)
    (a : Option α) (h : n < A.length) : (A ++ B).set n a = A.set n a ++ B := by
  induction A generalizing n with
  | nil => simp at h
  | cons y A ih =>
    cases n with
    | zero => rfl
    | succ n => simpa using ih n (by simpa using h)

theorem bt_swapIdx_adjacent {α : Type} (A : List (Option α)) (x y : Option α)
    (B : List (Option α)) :
    swapIdx (A ++ x :: y :: B) A.length (A.length + 1) = A ++ y :: x :: B := by
  unfold swapIdx
  have h1 : (A ++ x :: y :: B).getD (A.length + 1) none = y := by
    have := bt_getD_append_len (A ++ [x]) y B none
    simpa using this
  have h2 : (A ++ x :: y :: B).getD A.length none = x :=
    bt_getD_append_len A x (y :: B) none
  rw [h1, h2, bt_set_append_len A x (y :: B) y]
  have := bt_set_append_len (A ++ [y]) y B x
  simpa using this

theorem bt_shiftUp_spec {α : Type} (n : Nat) (A B : List (Option α))
    (c : Option α) (C : List (Option α)) (hB : B.length = n) :
    shiftUp (A ++ B ++ c :: C) A.length n = A ++ c :: (B ++ C) := by
  induction n generalizing B C with
  | zero =>
    have : B = [] := List.eq_nil_of_length_eq_zero hB
    subst this
    simp [shiftUp]
  | succ n ih =>
    obtain ⟨B', b, rfl⟩ : ∃ B' b, B = B' ++ [b] := by
      rcases List.eq_nil_or_concat B with h | ⟨B', b, h⟩
      · rw [h] at hB; simp at hB
      · exact ⟨B', b, by simpa [List.concat_eq_append] using h⟩
    have hB' : B'.length = n := by
      have := hB; simp at this; omega
    show shiftUp
      (swapIdx (A ++ (B' ++ [b]) ++ c :: C) (A.length + n) (A.length + n + 1))
        A.length n = _
    have hswap :
        swapIdx (A ++ (B' ++ [b]) ++ c :: C) (A.length + n) (A.length + n + 1)
          = A ++ B' ++ c :: (b :: C) := by
      have hlen : (A ++ B').length = A.length + n := by simp [hB']
      have := bt_swapIdx_adjacent (A ++ B') b c C
      rw [hlen] at this
      calc swapIdx (A ++ (B' ++ [b]) ++ c :: C) (A.length + n) (A.length + n + 1)
          = swapIdx ((A ++ B') ++ b :: c :: C) (A.length + n) (A.length + n + 1) := by
            simp
        _ = (A ++ B') ++ c :: b :: C := this
        _ = A ++ B' ++ c :: (b :: C) := by simp
    rw [hswap]
    have := ih B' (b :: C) hB'
    simpa using this

theorem bt_swapAcrossLoop_spec {α : Type} (n : Nat)
    (A1 A2 A3 B1 B2 B3 : List (Option α)) (offB : Nat)
    (hA2 : A2.length = n)
    (hB1 : B1.length = A1.length + offB) (hB2 : B2.length = n) :
    swapAcrossLoop (A1 ++ A2 ++ A3) (B1 ++ B2 ++ B3) offB A1.length n
      = (A1 ++ B2 ++ A3, B1 ++ A2 ++ B3) := by
  induction n generalizing A1 A2 B1 B2 with
  | zero =>
    have : A2 = [] := List.eq_nil_of_length_eq_zero hA2
    have hb : B2 = [] := List.eq_nil_of_length_eq_zero hB2
    subst this; subst hb
    rfl
  | succ n ih =>
    obtain ⟨x, A2', rfl⟩ : ∃ x A2', A2 = x :: A2' := by
      cases A2 with
      | nil => simp at hA2
      | cons x A2' => exact ⟨x, A2', rfl⟩
    obtain ⟨y, B2', rfl⟩ : ∃ y B2', B2 = y :: B2' := by
      cases B2 with
      | nil => simp at hB2
      | cons y B2' => exact ⟨y, B2', rfl⟩
    show swapAcrossLoop
        ((A1 ++ x :: A2' ++ A3).set A1.length
          ((B1 ++ y :: B2' ++ B3).getD (A1.length + offB) none))
        ((B1 ++ y :: B2' ++ B3).set (A1.length + offB)
          ((A1 ++ x :: A2' ++ A3).getD A1.length none))
        offB (A1.length + 1) n = _
    have hgB : (B1 ++ y :: B2' ++ B3).getD (A1.length + offB) none = y := by
      rw [← hB1]; simpa using bt_getD_append_len B1 y (B2' ++ B3) none
    have hgA : (A1 ++ x :: A2' ++ A3).getD A1.length none = x := by
      simpa using bt_getD_append_len A1 x (A2' ++ A3) none
    have hsA : (A1 ++ x :: A2' ++ A3).set A1.length y = A1 ++ y :: A2' ++ A3 := by
      simpa using bt_set_append_len A1 x (A2' ++ A3) y
    have hsB : (B1 ++ y :: B2' ++ B3).set (A1.length + offB) x
        = B1 ++ x :: B2' ++ B3 := by
      rw [← hB1]; simpa using bt_set_append_len B1 y (B2' ++ B3) x
    rw [hgB, hgA, hsA, hsB]
    have h1 : A1 ++ y :: A2' ++ A3 = (A1 ++ [y]) ++ A2' ++ A3 := by simp
    have h2 : B1 ++ x :: B2' ++ B3 = (B1 ++ [x]) ++ B2' ++ B3 := by simp
    have hlen1 : (A1 ++ [y]).length = A1.length + 1 := by simp
    have hlen2 : (B1 ++ [x]).length = (A1 ++ [y]).length + offB := by
      simp [hB1]; omega
    have hA2' : A2'.length = n := by simp at hA2; omega
    have hB2' : B2'.length = n := by simp at hB2; omega
    rw [h1, h2, ← hlen1]
    have := ih (A1 ++ [y]) A2' (B1 ++ [x]) B2' hA2' hlen2 hB2'
    rw [this]
    simp

/-! ## Search-position characterization -/

/-- Index of the first element of `ks` that is `≥ key` (length of `ks` when
none is). This is the abstract value computed by `find_node_pos` on a node
whose keys array is `ks.map some` followed by `None` padding. -/
def firstGE [LinearOrder K] (key : K) : List K → Nat
  | [] => 0
  | k :: ks => if key ≤ k then 0 else firstGE key ks + 1

theorem firstGE_le_length [LinearOrder K] (key : K) (ks : List K) :
    firstGE key ks ≤ ks.length := by
  induction ks with
  | nil => simp [firstGE]
  | cons k ks ih =>
    simp only [firstGE]
    split
    · simp
    · simpa using ih

theorem firstGE_take_lt [LinearOrder K] (key : K) (ks : List K) :
    ∀ x ∈ ks.take (firstGE key ks), x < key := by
  induction ks with
  | nil => simp
  | cons k ks ih =>
    simp only [firstGE]
    by_cases hk : key ≤ k
    · simp [hk]
    · simp only [hk, if_false, List.take_succ_cons, List.mem_cons]
      rintro x (rfl | hx)
      · exact lt_of_not_le hk
      · exact ih x hx

theorem firstGE_get [LinearOrder K] (key : K) (ks : List K)
    (h : firstGE key ks < ks.length) :
    ∀ x, ks.get? (firstGE key ks) = some x → key ≤ x := by
  induction ks with
  | nil => simp at h
  | cons k ks ih =>
    by_cases hk : key ≤ k
    · simp only [firstGE, hk, if_true]
      intro x hx
      simp at hx
      subst hx
      assumption
    · simp only [firstGE, hk, if_false] at h ⊢
      intro x hx
      simp at h
      exact ih (by omega) x (by simpa using hx)

theorem bt_findPosAux_spec [LinearOrder K] (key : K) (ks : List K)
    (m i u : Nat) :
    findPosAux key (ks.map some ++ List.replicate m none) i u
      = if firstGE key ks < ks.length then i + firstGE key ks else u := by
  induction ks generalizing i with
  | nil =>
    cases m with
    | zero => simp [findPosAux, firstGE]
    | succ m => simp [findPosAux, firstGE, List.replicate_succ]
  | cons k ks ih =>
    simp only [List.map_cons, List.cons_append, findPosAux, firstGE]
    by_cases hk : key ≤ k
    · simp [hk]
    · simp only [hk, if_false]
      have := ih (i + 1)
      simp only [List.append_eq] at this ⊢
      rw [this]
      by_cases h : firstGE key ks < ks.length
      · simp [h]
        omega
      · have h2 : ¬ firstGE key ks + 1 < (k :: ks).length := by
          simp
          omega
        simp [h, h2]

/-! ## Node-shape helpers -/

/-- The padded keys array of a node storing the explicit key list `ks`. -/
def padKeys (ks : List (Option K)) : List (Option K) :=
  ks ++ List.replicate (BTREE_KEYS_UBOUND - ks.length) none

/-- The slot stored for a leaf entry. -/
def leafSlot (p : K × V) : Option (TreeItem K V) := some (.TreeLeaf p.2)

/-- The slot stored for a child subtree. -/
def childSlot (c : BTree K V) : Option (TreeItem K V) := some (.TreeNode c)

/-- The key cell stored for a leaf entry. -/
def someFst (p : K × V) : Option K := some p.1

/-! ## `split_child` characterization

`split_child` on a parent holding explicit keys `ks₁ ++ ks₂` and children
`cs₁ ++ c :: cs₂` (split position `|ks₁|`), where the full child `c` holds
39 keys `cksL ++ m :: cksR` and 40 slots `cnsL ++ cnsR`, inserts the
median `m` at the split position and replaces `c` by the two half nodes. -/

theorem split_child_spec [LinearOrder K]
    (ks₁ ks₂ : List K) (cs₁ cs₂ : List (BTree K V)) (c : BTree K V)
    (cksL cksR : List K) (m : K) (cnsL cnsR : List (Option (TreeItem K V)))
    (hck : c.keys = (cksL ++ m :: cksR).map some)
    (hcn : c.nodes = cnsL ++ cnsR)
    (hkL : cksL.length = 19) (hkR : cksR.length = 19)
    (hnL : cnsL.length = 20) (hnR : cnsR.length = 20)
    (hcs1 : cs₁.length = ks₁.length) (hcs2 : cs₂.length = ks₂.length)
    (hu : ks₁.length + ks₂.length ≤ 38) :
    split_child
      (BTree.mk (ks₁.length + ks₂.length)
        ((ks₁ ++ ks₂).map some
          ++ List.replicate (39 - (ks₁.length + ks₂.length)) none)
        ((cs₁ ++ c :: cs₂).map childSlot
          ++ List.replicate (39 - (ks₁.length + ks₂.length)) none))
      ks₁.length
      = some (BTree.mk (ks₁.length + ks₂.length + 1)
          ((ks₁ ++ m :: ks₂).map some
            ++ List.replicate (38 - (ks₁.length + ks₂.length)) none)
          ((cs₁
              ++ BTree.mk 19 (cksL.map some ++ List.replicate 20 none)
                  (cnsL ++ List.replicate 20 none)
              :: BTree.mk 19 (cksR.map some ++ List.replicate 20 none)
                  (cnsR ++ List.replicate 20 none)
              :: cs₂).map childSlot
            ++ List.replicate (38 - (ks₁.length + ks₂.length)) none)) := by
  have h39 : (39 : Nat) - (ks₁.length + ks₂.length)
      = (38 - (ks₁.length + ks₂.length)) + 1 := by omega
  have hkeys : (ks₁ ++ ks₂).map some
        ++ List.replicate (39 - (ks₁.length + ks₂.length)) none
      = ks₁.map some ++ ks₂.map some
        ++ ((none : Option K)
          :: List.replicate (38 - (ks₁.length + ks₂.length)) none) := by
    rw [h39, List.replicate_succ]
    simp
  have hnodes : (cs₁ ++ c :: cs₂).map childSlot
        ++ List.replicate (39 - (ks₁.length + ks₂.length)) none
      = (cs₁.map childSlot ++ [childSlot c]) ++ cs₂.map childSlot
        ++ ((none : Option (TreeItem K V))
          :: List.replicate (38 - (ks₁.length + ks₂.length)) none) := by
    rw [h39, List.replicate_succ]
    simp
  have hshiftK : shiftUp
        ((ks₁ ++ ks₂).map some
          ++ List.replicate (39 - (ks₁.length + ks₂.length)) none)
        ks₁.length ((ks₁.length + ks₂.length) - ks₁.length)
      = ks₁.map some ++ none
        :: (ks₂.map some
          ++ List.replicate (38 - (ks₁.length + ks₂.length)) none) := by
    rw [hkeys]
    have := bt_shiftUp_spec ((ks₁.length + ks₂.length) - ks₁.length)
      (ks₁.map some) (ks₂.map some) none
      (List.replicate (38 - (ks₁.length + ks₂.length)) none)
      (by simp; try omega)
    simpa using this
  have hshiftN : shiftUp
        ((cs₁ ++ c :: cs₂).map childSlot
          ++ List.replicate (39 - (ks₁.length + ks₂.length)) none)
        (ks₁.length + 1) ((ks₁.length + ks₂.length) - ks₁.length)
      = (cs₁.map childSlot ++ [childSlot c]) ++ none
        :: (cs₂.map childSlot
          ++ List.replicate (38 - (ks₁.length + ks₂.length)) none) := by
    rw [hnodes]
    have := bt_shiftUp_spec ((ks₁.length + ks₂.length) - ks₁.length)
      (cs₁.map childSlot ++ [childSlot c]) (cs₂.map childSlot) none
      (List.replicate (38 - (ks₁.length + ks₂.length)) none)
      (by simp [hcs2]; try omega)
    have hlen : (cs₁.map childSlot ++ [childSlot c]).length = ks₁.length + 1 := by
      simp [hcs1]
    rw [hlen] at this
    simpa using this
  have hget : ((cs₁.map childSlot ++ [childSlot c]) ++ none
        :: (cs₂.map childSlot
          ++ List.replicate (38 - (ks₁.length + ks₂.length)) none)).getD
        ks₁.length none = childSlot c := by
    have := bt_getD_append_len (cs₁.map childSlot) (childSlot c)
      (none :: (cs₂.map childSlot
        ++ List.replicate (38 - (ks₁.length + ks₂.length)) none)) none
    rw [List.length_map, hcs1] at this
    simpa using this
  simp only [split_child, BTree.used_mk, BTree.keys_mk, BTree.nodes_mk]
  rw [hshiftN, hshiftK, hget]
  show slotCase (some (.TreeNode c)) _ _ _ = _
  rw [slotCase_node]
  have hnew1 : (BTree.new : BTree K V).keys = List.replicate 39 none := rfl
  have hnew2 : (BTree.new : BTree K V).nodes = List.replicate 40 none := rfl
  have hswapK : swapAcrossLoop (List.replicate 39 (none : Option K)) c.keys
        20 0 19
      = (cksR.map some ++ List.replicate 20 none,
         cksL.map some ++ some m :: List.replicate 19 none) := by
    have hrep : List.replicate 39 (none : Option K)
        = ([] : List (Option K)) ++ List.replicate 19 none
          ++ List.replicate 20 none := by
      simp [← List.replicate_add]
    have hcksplit : c.keys = (cksL.map some ++ [some m]) ++ cksR.map some ++ [] := by
      rw [hck]; simp
    rw [hrep, hcksplit]
    have := bt_swapAcrossLoop_spec 19 ([] : List (Option K))
      (List.replicate 19 none) (List.replicate 20 none)
      (cksL.map some ++ [some m]) (cksR.map some) [] 20
      (by simp) (by simp [hkL]) (by simp [hkR])
    simpa using this
  have hswapN : swapAcrossLoop (List.replicate 40 (none : Option (TreeItem K V)))
        c.nodes 20 0 20
      = (cnsR ++ List.replicate 20 none, cnsL ++ List.replicate 20 none) := by
    have hrep : List.replicate 40 (none : Option (TreeItem K V))
        = ([] : List (Option (TreeItem K V))) ++ List.replicate 20 none
          ++ List.replicate 20 none := by
      simp [← List.replicate_add]
    have hcnsplit : c.nodes = cnsL ++ cnsR ++ [] := by rw [hcn]; simp
    rw [hrep, hcnsplit]
    have := bt_swapAcrossLoop_spec 20 ([] : List (Option (TreeItem K V)))
      (List.replicate 20 none) (List.replicate 20 none)
      cnsL cnsR [] 20 (by simp) (by simp [hnL]) (by simp [hnR])
    simpa using this
  simp only [hnew1, hnew2, show (BTREE_MIN_DEGREE : Nat) = 20 from rfl,
    show ((20 : Nat) - 1) = 19 from rfl]
  rw [hswapK, hswapN]
  simp only [Prod.fst, Prod.snd]
  have hgetm : (cksL.map some ++ some m :: List.replicate 19 none).getD
      19 none = some m := by
    have := bt_getD_append_len (cksL.map some) (some m)
      (List.replicate 19 none) none
    rw [List.length_map, hkL] at this
    exact this
  have hgetp : (ks₁.map some ++ none
        :: (ks₂.map some
          ++ List.replicate (38 - (ks₁.length + ks₂.length)) none)).getD
      ks₁.length none = none := by
    have := bt_getD_append_len (ks₁.map some) none
      (ks₂.map some ++ List.replicate (38 - (ks₁.length + ks₂.length)) none) none
    rw [List.length_map] at this
    exact this
  rw [hgetm, hgetp]
  have hsetl : (cksL.map some ++ some m :: List.replicate 19 none).set
      19 none
      = cksL.map some ++ List.replicate 20 none := by
    have := bt_set_append_len (cksL.map some) (some m)
      (List.replicate 19 none) none
    rw [List.length_map, hkL] at this
    have hrep20 : List.replicate 20 (none : Option K)
        = none :: List.replicate 19 none := rfl
    rw [this, hrep20]
  rw [hsetl]
  have hsetk : (ks₁.map some ++ none
        :: (ks₂.map some
          ++ List.replicate (38 - (ks₁.length + ks₂.length)) none)).set
      ks₁.length (some m)
      = (ks₁ ++ m :: ks₂).map some
        ++ List.replicate (38 - (ks₁.length + ks₂.length)) none := by
    have := bt_set_append_len (ks₁.map some) none
      (ks₂.map some ++ List.replicate (38 - (ks₁.length + ks₂.length)) none)
      (some m)
    rw [List.length_map] at this
    rw [this]
    simp
  have hsetn1 : ((cs₁.map childSlot ++ [childSlot c]) ++ none
        :: (cs₂.map childSlot
          ++ List.replicate (38 - (ks₁.length + ks₂.length)) none)).set
      ks₁.length
      (some (.TreeNode (BTree.mk 19 (cksL.map some ++ List.replicate 20 none)
        (cnsL ++ List.replicate 20 none))))
      = (cs₁.map childSlot
          ++ [childSlot (BTree.mk 19 (cksL.map some ++ List.replicate 20 none)
            (cnsL ++ List.replicate 20 none))]) ++ none
        :: (cs₂.map childSlot
          ++ List.replicate (38 - (ks₁.length + ks₂.length)) none) := by
    have := bt_set_append_len (cs₁.map childSlot) (childSlot c)
      (none :: (cs₂.map childSlot
        ++ List.replicate (38 - (ks₁.length + ks₂.length)) none))
      (some (.TreeNode (BTree.mk 19 (cksL.map some ++ List.replicate 20 none)
        (cnsL ++ List.replicate 20 none))))
    rw [List.length_map, hcs1] at this
    simp only [List.append_assoc, List.cons_append, List.singleton_append]
      at this ⊢
    exact this
  have hsetn2 : ((cs₁.map childSlot
          ++ [childSlot (BTree.mk 19 (cksL.map some ++ List.replicate 20 none)
            (cnsL ++ List.replicate 20 none))]) ++ none
        :: (cs₂.map childSlot
          ++ List.replicate (38 - (ks₁.length + ks₂.length)) none)).set
      (ks₁.length + 1)
      (some (.TreeNode (BTree.mk 19 (cksR.map some ++ List.replicate 20 none)
        (cnsR ++ List.replicate 20 none))))
      = (cs₁
          ++ BTree.mk 19 (cksL.map some ++ List.replicate 20 none)
              (cnsL ++ List.replicate 20 none)
          :: BTree.mk 19 (cksR.map some ++ List.replicate 20 none)
              (cnsR ++ List.replicate 20 none)
          :: cs₂).map childSlot
        ++ List.replicate (38 - (ks₁.length + ks₂.length)) none := by
    have := bt_set_append_len
      (cs₁.map childSlot
        ++ [childSlot (BTree.mk 19 (cksL.map some ++ List.replicate 20 none)
          (cnsL ++ List.replicate 20 none))]) none
      (cs₂.map childSlot
        ++ List.replicate (38 - (ks₁.length + ks₂.length)) none)
      (some (.TreeNode (BTree.mk 19 (cksR.map some ++ List.replicate 20 none)
        (cnsR ++ List.replicate 20 none))))
    have hlen : (cs₁.map childSlot
        ++ [childSlot (BTree.mk 19 (cksL.map some ++ List.replicate 20 none)
          (cnsL ++ List.replicate 20 none))]).length = ks₁.length + 1 := by
      simp [hcs1]
    rw [hlen] at this
    rw [this]
    simp [childSlot]
  rw [hsetn1, hsetn2, hsetk]

/-! ## `insert_non_full` leaf-branch characterization -/

/-- `find_node_pos` on a node whose keys array stores the explicit list `L`
followed by `None` padding returns the first index with `L[i] ≥ key`
(`L.length` when there is none). -/
theorem find_node_pos_shape [LinearOrder K] (key : K) (L : List K)
    (mpad used : Nat) (ns : List (Option (TreeItem K V)))
    (hused : used = L.length) :
    find_node_pos (BTree.mk used (L.map some ++ List.replicate mpad none) ns)
      key = firstGE key L := by
  unfold find_node_pos
  rw [BTree.keys_mk, BTree.used_mk, bt_findPosAux_spec]
  by_cases h : firstGE key L < L.length
  · simp [h]
  · have := firstGE_le_length key L
    simp [h]
    omega

/-- Inserting a key that is not explicitly present into a leaf-shaped node
with at least one entry: the entry is placed at the search position, the
tail slot directly after the entries (the overflow slot, when occupied)
shifts one place right, and the call returns `true`. -/
theorem leaf_insert_new [LinearOrder K] (fuel : Nat) (key : K) (value : V)
    (ps₁ ps₂ : List (K × V)) (T₀ : Option (TreeItem K V))
    (Trest : List (Option (TreeItem K V)))
    (hfirst : firstGE key ((ps₁ ++ ps₂).map Prod.fst) = ps₁.length)
    (hhead : ∀ p, ps₂.head? = some p → p.1 ≠ key)
    (hne0 : ps₁ ++ ps₂ ≠ [])
    (hu : (ps₁ ++ ps₂).length ≤ 38) :
    insert_non_fullF (fuel + 1)
      (BTree.mk (ps₁ ++ ps₂).length
        ((ps₁ ++ ps₂).map someFst
          ++ List.replicate (39 - (ps₁ ++ ps₂).length) none)
        ((ps₁ ++ ps₂).map leafSlot ++ T₀ :: none :: Trest))
      key value
    = some (BTree.mk ((ps₁ ++ ps₂).length + 1)
        ((ps₁ ++ (key, value) :: ps₂).map someFst
          ++ List.replicate (38 - (ps₁ ++ ps₂).length) none)
        ((ps₁ ++ (key, value) :: ps₂).map leafSlot ++ T₀ :: Trest), true) := by
  have hleaf : is_leaf (BTree.mk (ps₁ ++ ps₂).length
      ((ps₁ ++ ps₂).map someFst
        ++ List.replicate (39 - (ps₁ ++ ps₂).length) none)
      ((ps₁ ++ ps₂).map leafSlot ++ T₀ :: none :: Trest)) = true := by
    obtain ⟨p, ps', hps⟩ := List.exists_cons_of_ne_nil hne0
    rw [is_leaf, BTree.nodes_mk, hps]
    simp [leafSlot]
  have hpos : find_node_pos (BTree.mk (ps₁ ++ ps₂).length
      ((ps₁ ++ ps₂).map someFst
        ++ List.replicate (39 - (ps₁ ++ ps₂).length) none)
      ((ps₁ ++ ps₂).map leafSlot ++ T₀ :: none :: Trest)) key = ps₁.length := by
    have : (ps₁ ++ ps₂).map someFst = ((ps₁ ++ ps₂).map Prod.fst).map some := by
      rw [List.map_map]; rfl
    rw [this, find_node_pos_shape key ((ps₁ ++ ps₂).map Prod.fst) _ _ _
      (by simp), hfirst]
  have hnk : isNewKey (((ps₁ ++ ps₂).map someFst
      ++ List.replicate (39 - (ps₁ ++ ps₂).length) none).getD ps₁.length none)
      key = true := by
    cases hps₂ : ps₂ with
    | nil =>
      subst hps₂
      simp only [List.append_nil] at hu ⊢
      have h39 : 39 - ps₁.length = (38 - ps₁.length) + 1 := by omega
      rw [h39, List.replicate_succ]
      have hgd := bt_getD_append_len (ps₁.map someFst) none
        (List.replicate (38 - ps₁.length) none) none
      rw [List.length_map] at hgd
      rw [hgd]
      rfl
    | cons p rest =>
      have hre : (ps₁ ++ p :: rest).map someFst
            ++ List.replicate (39 - (ps₁ ++ p :: rest).length) none
          = ps₁.map someFst ++ someFst p
            :: (rest.map someFst
              ++ List.replicate (39 - (ps₁ ++ p :: rest).length) none) := by
        simp
      rw [hre]
      have hget := bt_getD_append_len (ps₁.map someFst) (someFst p)
        (rest.map someFst
          ++ List.replicate (39 - (ps₁ ++ p :: rest).length) none) none
      rw [List.length_map] at hget
      rw [hget]
      have hpk : p.1 ≠ key := hhead p (by rw [hps₂]; rfl)
      simp [someFst, isNewKey, hpk]
  have hshiftK : shiftUp
      ((ps₁ ++ ps₂).map someFst
        ++ List.replicate (39 - (ps₁ ++ ps₂).length) none)
      ps₁.length ((ps₁ ++ ps₂).length - ps₁.length)
      = ps₁.map someFst ++ none
        :: (ps₂.map someFst
          ++ List.replicate (38 - (ps₁ ++ ps₂).length) none) := by
    have h39 : 39 - (ps₁ ++ ps₂).length
        = (38 - (ps₁ ++ ps₂).length) + 1 := by omega
    have hre : (ps₁ ++ ps₂).map someFst
          ++ List.replicate (39 - (ps₁ ++ ps₂).length) none
        = ps₁.map someFst ++ ps₂.map someFst
          ++ ((none : Option K)
            :: List.replicate (38 - (ps₁ ++ ps₂).length) none) := by
      rw [h39, List.replicate_succ]; simp
    rw [hre]
    have := bt_shiftUp_spec ((ps₁ ++ ps₂).length - ps₁.length)
      (ps₁.map someFst) (ps₂.map someFst) none
      (List.replicate (38 - (ps₁ ++ ps₂).length) none) (by simp)
    simpa using this
  have hshiftN : shiftUp
      ((ps₁ ++ ps₂).map leafSlot ++ T₀ :: none :: Trest)
      ps₁.length ((ps₁ ++ ps₂).length + 1 - ps₁.length)
      = ps₁.map leafSlot ++ none
        :: ((ps₂.map leafSlot ++ [T₀]) ++ Trest) := by
    have hre : (ps₁ ++ ps₂).map leafSlot ++ T₀ :: none :: Trest
        = ps₁.map leafSlot ++ (ps₂.map leafSlot ++ [T₀])
          ++ ((none : Option (TreeItem K V)) :: Trest) := by
      simp
    rw [hre]
    have := bt_shiftUp_spec ((ps₁ ++ ps₂).length + 1 - ps₁.length)
      (ps₁.map leafSlot) (ps₂.map leafSlot ++ [T₀]) none Trest
      (by simp; omega)
    simpa using this
  have hne0' : 0 < (ps₁ ++ ps₂).length := List.length_pos.mpr hne0
  simp only [insert_non_fullF, BTree.used_mk, BTree.keys_mk, BTree.nodes_mk,
    hleaf, hpos, hnk, hshiftK, hshiftN, or_true, if_true]
  have hsetK : (ps₁.map someFst ++ none
        :: (ps₂.map someFst
          ++ List.replicate (38 - (ps₁ ++ ps₂).length) none)).set
      ps₁.length (some key)
      = (ps₁ ++ (key, value) :: ps₂).map someFst
        ++ List.replicate (38 - (ps₁ ++ ps₂).length) none := by
    have := bt_set_append_len (ps₁.map someFst) none
      (ps₂.map someFst ++ List.replicate (38 - (ps₁ ++ ps₂).length) none)
      (some key)
    rw [List.length_map] at this
    rw [this]
    simp [someFst]
  have hsetN : (ps₁.map leafSlot ++ none
        :: ((ps₂.map leafSlot ++ [T₀]) ++ Trest)).set
      ps₁.length (some (.TreeLeaf value))
      = (ps₁ ++ (key, value) :: ps₂).map leafSlot ++ T₀ :: Trest := by
    have := bt_set_append_len (ps₁.map leafSlot) none
      ((ps₂.map leafSlot ++ [T₀]) ++ Trest) (some (.TreeLeaf value))
    rw [List.length_map] at this
    rw [this]
    simp [leafSlot]
  have hcond : 0 < ps₁.length ∨ 0 < ps₂.length := by
    rw [List.length_append] at hne0'
    omega
  simp only [List.length_append] at hsetK hsetN
  simp [hcond, hsetK, hsetN]
  rfl

/-- Re-inserting a key that is explicitly present in a leaf-shaped node:
the stored value is overwritten in place and the call returns `false`. -/
theorem leaf_insert_update [LinearOrder K] (fuel : Nat) (key : K)
    (value vold : V) (ps₁ ps₂ : List (K × V))
    (T : List (Option (TreeItem K V)))
    (hfirst : firstGE key ((ps₁ ++ (key, vold) :: ps₂).map Prod.fst)
      = ps₁.length) :
    insert_non_fullF (fuel + 1)
      (BTree.mk (ps₁ ++ (key, vold) :: ps₂).length
        ((ps₁ ++ (key, vold) :: ps₂).map someFst
          ++ List.replicate (39 - (ps₁ ++ (key, vold) :: ps₂).length) none)
        ((ps₁ ++ (key, vold) :: ps₂).map leafSlot ++ T))
      key value
    = some (BTree.mk (ps₁ ++ (key, vold) :: ps₂).length
        ((ps₁ ++ (key, value) :: ps₂).map someFst
          ++ List.replicate (39 - (ps₁ ++ (key, vold) :: ps₂).length) none)
        ((ps₁ ++ (key, value) :: ps₂).map leafSlot ++ T), false) := by
  have hne0 : ps₁ ++ (key, vold) :: ps₂ ≠ [] := by simp
  have hleaf : is_leaf (BTree.mk (ps₁ ++ (key, vold) :: ps₂).length
      ((ps₁ ++ (key, vold) :: ps₂).map someFst
        ++ List.replicate (39 - (ps₁ ++ (key, vold) :: ps₂).length) none)
      ((ps₁ ++ (key, vold) :: ps₂).map leafSlot ++ T)) = true := by
    obtain ⟨p, ps', hps⟩ := List.exists_cons_of_ne_nil hne0
    rw [is_leaf, BTree.nodes_mk, hps]
    simp [leafSlot]
  have hpos : find_node_pos (BTree.mk (ps₁ ++ (key, vold) :: ps₂).length
      ((ps₁ ++ (key, vold) :: ps₂).map someFst
        ++ List.replicate (39 - (ps₁ ++ (key, vold) :: ps₂).length) none)
      ((ps₁ ++ (key, vold) :: ps₂).map leafSlot ++ T)) key = ps₁.length := by
    have hcomp : (ps₁ ++ (key, vold) :: ps₂).map someFst
        = ((ps₁ ++ (key, vold) :: ps₂).map Prod.fst).map some := by
      rw [List.map_map]; rfl
    rw [hcomp, find_node_pos_shape key ((ps₁ ++ (key, vold) :: ps₂).map Prod.fst)
      _ _ _ (by simp), hfirst]
  have hre : (ps₁ ++ (key, vold) :: ps₂).map someFst
        ++ List.replicate (39 - (ps₁ ++ (key, vold) :: ps₂).length) none
      = ps₁.map someFst ++ some key
        :: (ps₂.map someFst
          ++ List.replicate (39 - (ps₁ ++ (key, vold) :: ps₂).length) none) := by
    simp [someFst]
  have hget : ((ps₁ ++ (key, vold) :: ps₂).map someFst
      ++ List.replicate (39 - (ps₁ ++ (key, vold) :: ps₂).length) none).getD
      ps₁.length none = some key := by
    rw [hre]
    have := bt_getD_append_len (ps₁.map someFst) (some key)
      (ps₂.map someFst
        ++ List.replicate (39 - (ps₁ ++ (key, vold) :: ps₂).length) none) none
    rw [List.length_map] at this
    exact this
  have hnk : isNewKey (((ps₁ ++ (key, vold) :: ps₂).map someFst
      ++ List.replicate (39 - (ps₁ ++ (key, vold) :: ps₂).length) none).getD
      ps₁.length none) key = false := by
    rw [hget]
    simp [isNewKey]
  have hsetK : ((ps₁ ++ (key, vold) :: ps₂).map someFst
        ++ List.replicate (39 - (ps₁ ++ (key, vold) :: ps₂).length) none).set
      ps₁.length (some key)
      = (ps₁ ++ (key, value) :: ps₂).map someFst
        ++ List.replicate (39 - (ps₁ ++ (key, vold) :: ps₂).length) none := by
    rw [hre]
    have := bt_set_append_len (ps₁.map someFst) (some key)
      (ps₂.map someFst
        ++ List.replicate (39 - (ps₁ ++ (key, vold) :: ps₂).length) none)
      (some key)
    rw [List.length_map] at this
    rw [this]
    simp [someFst]
  have hsetN : ((ps₁ ++ (key, vold) :: ps₂).map leafSlot ++ T).set
      ps₁.length (some (.TreeLeaf value))
      = (ps₁ ++ (key, value) :: ps₂).map leafSlot ++ T := by
    have hre2 : (ps₁ ++ (key, vold) :: ps₂).map leafSlot ++ T
        = ps₁.map leafSlot ++ leafSlot (key, vold) :: (ps₂.map leafSlot ++ T) := by
      simp
    rw [hre2]
    have := bt_set_append_len (ps₁.map leafSlot) (leafSlot (key, vold))
      (ps₂.map leafSlot ++ T) (some (.TreeLeaf value))
    rw [List.length_map] at this
    rw [this]
    simp [leafSlot]
  simp only [insert_non_fullF, BTree.used_mk, BTree.keys_mk, BTree.nodes_mk,
    hleaf, hpos, hnk, or_true, if_true]
  simp [hsetK, hsetN]
  exact ⟨rfl, rfl⟩

/-- Inserting into an empty node (`used = 0`, as produced by `new`/`clear`):
the entry lands in position 0 and the call returns `true`. -/
theorem leaf_insert_empty [LinearOrder K] (fuel : Nat) (key : K) (value : V)
    (N0 : Option (TreeItem K V)) (Nrest : List (Option (TreeItem K V))) :
    insert_non_fullF (fuel + 1)
      (BTree.mk 0 (List.replicate 39 none) (N0 :: Nrest)) key value
    = some (BTree.mk 1 (some key :: List.replicate 38 none)
        (some (.TreeLeaf value) :: Nrest), true) := rfl

/-- `BTree::insert` on a root that is not full goes directly to
`insert_non_full`. -/
theorem insert_not_full [LinearOrder K] (t : BTree K V) (key : K) (value : V)
    (h : ¬ t.used = BTREE_KEYS_UBOUND) :
    t.insert key value = insert_non_fullF (sizeB t + 1) t key value := by
  rw [BTree.insert]
  rw [if_neg (by simpa [BTree.capacity] using h)]
  rfl

theorem one_le_sizeB (t : BTree K V) : 1 ≤ sizeB t := by
  cases t with
  | mk u ks ns => rw [sizeB]; omega

/-- Descent step of `insert_non_full` on an internal node whose selected
child is not full: the child is updated in place and the result bit is
propagated. -/
theorem internal_insert_nosplit [LinearOrder K] (fuel : Nat) (key : K)
    (value : V) (ks : List K) (cs₁ cs₂ : List (BTree K V)) (c c' : BTree K V)
    (b : Bool)
    (hne : ks ≠ [])
    (hfirst : firstGE key ks = cs₁.length)
    (hfull : ¬ c.used = BTREE_KEYS_UBOUND)
    (hrec : insert_non_fullF fuel c key value = some (c', b)) :
    insert_non_fullF (fuel + 1)
      (BTree.mk ks.length (ks.map some ++ List.replicate (39 - ks.length) none)
        ((cs₁ ++ c :: cs₂).map childSlot
          ++ List.replicate (39 - ks.length) none))
      key value
    = some (BTree.mk ks.length
        (ks.map some ++ List.replicate (39 - ks.length) none)
        ((cs₁ ++ c' :: cs₂).map childSlot
          ++ List.replicate (39 - ks.length) none), b) := by
  have hused : ks.length ≠ 0 := by
    intro h
    exact hne (List.eq_nil_of_length_eq_zero h)
  have hleaf : is_leaf (BTree.mk ks.length
      (ks.map some ++ List.replicate (39 - ks.length) none)
      ((cs₁ ++ c :: cs₂).map childSlot
        ++ List.replicate (39 - ks.length) none)) = false := by
    cases cs₁ with
    | nil => rw [is_leaf]; simp [childSlot]
    | cons d cs₁ => rw [is_leaf]; simp [childSlot]
  have hpos : find_node_pos (BTree.mk ks.length
      (ks.map some ++ List.replicate (39 - ks.length) none)
      ((cs₁ ++ c :: cs₂).map childSlot
        ++ List.replicate (39 - ks.length) none)) key = cs₁.length := by
    rw [find_node_pos_shape key ks _ _ _ rfl, hfirst]
  have hre : (cs₁ ++ c :: cs₂).map childSlot
        ++ List.replicate (39 - ks.length) none
      = cs₁.map childSlot ++ childSlot c
        :: (cs₂.map childSlot ++ List.replicate (39 - ks.length) none) := by
    simp
  have hget : ((cs₁ ++ c :: cs₂).map childSlot
      ++ List.replicate (39 - ks.length) none).getD cs₁.length none
      = childSlot c := by
    rw [hre]
    have := bt_getD_append_len (cs₁.map childSlot) (childSlot c)
      (cs₂.map childSlot ++ List.replicate (39 - ks.length) none) none
    rw [List.length_map] at this
    exact this
  have hsetN : ((cs₁ ++ c :: cs₂).map childSlot
        ++ List.replicate (39 - ks.length) none).set cs₁.length
      (some (.TreeNode c'))
      = (cs₁ ++ c' :: cs₂).map childSlot
        ++ List.replicate (39 - ks.length) none := by
    rw [hre]
    have := bt_set_append_len (cs₁.map childSlot) (childSlot c)
      (cs₂.map childSlot ++ List.replicate (39 - ks.length) none)
      (some (.TreeNode c'))
    rw [List.length_map] at this
    rw [this]
    simp [childSlot]
  simp only [insert_non_fullF, BTree.used_mk, BTree.keys_mk, BTree.nodes_mk,
    hleaf, hpos, hget, hused, Bool.false_eq_true, or_false, if_false,
    slotCase_node]
  simp only [childSlot] at hget hsetN ⊢
  simp only [slotCase_node]
  rw [if_neg hfull]
  simp only [Option.some_bind, BTree.used_mk, BTree.keys_mk, BTree.nodes_mk]
  simp only [if_neg hfull]
  rw [hget]
  simp only [slotCase_node]
  rw [hrec]
  simp [hsetN]
  rfl

/-- Descent step of `insert_non_full` on an internal node whose selected
child is full and the key goes to the left half after the split. -/
theorem internal_insert_split_left [LinearOrder K] (fuel : Nat) (key : K)
    (value : V) (ks₁ ks₂ : List K) (cs₁ cs₂ : List (BTree K V))
    (c c' : BTree K V) (b : Bool) (cksL cksR : List K) (m : K)
    (cnsL cnsR : List (Option (TreeItem K V)))
    (hne : ¬ ks₁.length + ks₂.length = 0)
    (hfirst : firstGE key (ks₁ ++ ks₂) = ks₁.length)
    (hcs1 : cs₁.length = ks₁.length) (hcs2 : cs₂.length = ks₂.length)
    (hcfull : c.used = BTREE_KEYS_UBOUND)
    (hck : c.keys = (cksL ++ m :: cksR).map some)
    (hcn : c.nodes = cnsL ++ cnsR)
    (hkL : cksL.length = 19) (hkR : cksR.length = 19)
    (hnL : cnsL.length = 20) (hnR : cnsR.length = 20)
    (hu : ks₁.length + ks₂.length ≤ 38)
    (hkm : ¬ key > m)
    (hrec : insert_non_fullF fuel
      (BTree.mk 19 (cksL.map some ++ List.replicate 20 none)
        (cnsL ++ List.replicate 20 none)) key value = some (c', b)) :
    insert_non_fullF (fuel + 1)
      (BTree.mk (ks₁.length + ks₂.length)
        ((ks₁ ++ ks₂).map some
          ++ List.replicate (39 - (ks₁.length + ks₂.length)) none)
        ((cs₁ ++ c :: cs₂).map childSlot
          ++ List.replicate (39 - (ks₁.length + ks₂.length)) none))
      key value
    = some (BTree.mk (ks₁.length + ks₂.length + 1)
        ((ks₁ ++ m :: ks₂).map some
          ++ List.replicate (38 - (ks₁.length + ks₂.length)) none)
        ((cs₁ ++ c'
            :: BTree.mk 19 (cksR.map some ++ List.replicate 20 none)
              (cnsR ++ List.replicate 20 none)
            :: cs₂).map childSlot
          ++ List.replicate (38 - (ks₁.length + ks₂.length)) none), b) := by
  have hleaf : is_leaf (BTree.mk (ks₁.length + ks₂.length)
      ((ks₁ ++ ks₂).map some
        ++ List.replicate (39 - (ks₁.length + ks₂.length)) none)
      ((cs₁ ++ c :: cs₂).map childSlot
        ++ List.replicate (39 - (ks₁.length + ks₂.length)) none)) = false := by
    cases cs₁ with
    | nil => rw [is_leaf]; simp [childSlot]
    | cons d cs₁ => rw [is_leaf]; simp [childSlot]
  have hpos : find_node_pos (BTree.mk (ks₁.length + ks₂.length)
      ((ks₁ ++ ks₂).map some
        ++ List.replicate (39 - (ks₁.length + ks₂.length)) none)
      ((cs₁ ++ c :: cs₂).map childSlot
        ++ List.replicate (39 - (ks₁.length + ks₂.length)) none)) key
      = ks₁.length := by
    rw [find_node_pos_shape key (ks₁ ++ ks₂) _ _ _ (by simp), hfirst]
  have hget : ((cs₁ ++ c :: cs₂).map childSlot
      ++ List.replicate (39 - (ks₁.length + ks₂.length)) none).getD
      ks₁.length none = some (.TreeNode c) := by
    have hre : (cs₁ ++ c :: cs₂).map childSlot
          ++ List.replicate (39 - (ks₁.length + ks₂.length)) none
        = cs₁.map childSlot ++ childSlot c
          :: (cs₂.map childSlot
            ++ List.replicate (39 - (ks₁.length + ks₂.length)) none) := by
      simp
    rw [hre]
    have := bt_getD_append_len (cs₁.map childSlot) (childSlot c)
      (cs₂.map childSlot
        ++ List.replicate (39 - (ks₁.length + ks₂.length)) none) none
    rw [List.length_map, hcs1] at this
    exact this
  have hsplit := split_child_spec ks₁ ks₂ cs₁ cs₂ c cksL cksR m cnsL cnsR
    hck hcn hkL hkR hnL hnR hcs1 hcs2 hu
  have hgetm : ((ks₁ ++ m :: ks₂).map some
      ++ List.replicate (38 - (ks₁.length + ks₂.length)) none).getD
      ks₁.length none = some m := by
    have hre : (ks₁ ++ m :: ks₂).map some
          ++ List.replicate (38 - (ks₁.length + ks₂.length)) none
        = ks₁.map some ++ (some m)
          :: (ks₂.map some
            ++ List.replicate (38 - (ks₁.length + ks₂.length)) none) := by
      simp
    rw [hre]
    have := bt_getD_append_len (ks₁.map some) (some m)
      (ks₂.map some ++ List.replicate (38 - (ks₁.length + ks₂.length)) none)
      none
    rw [List.length_map] at this
    exact this
  have hgetl : ((cs₁
        ++ BTree.mk 19 (cksL.map some ++ List.replicate 20 none)
            (cnsL ++ List.replicate 20 none)
        :: BTree.mk 19 (cksR.map some ++ List.replicate 20 none)
            (cnsR ++ List.replicate 20 none)
        :: cs₂).map childSlot
      ++ List.replicate (38 - (ks₁.length + ks₂.length)) none).getD
      ks₁.length none
      = some (.TreeNode (BTree.mk 19 (cksL.map some ++ List.replicate 20 none)
          (cnsL ++ List.replicate 20 none))) := by
    have hre : (cs₁
          ++ BTree.mk 19 (cksL.map some ++ List.replicate 20 none)
              (cnsL ++ List.replicate 20 none)
          :: BTree.mk 19 (cksR.map some ++ List.replicate 20 none)
              (cnsR ++ List.replicate 20 none)
          :: cs₂).map childSlot
        ++ List.replicate (38 - (ks₁.length + ks₂.length)) none
        = cs₁.map childSlot
          ++ childSlot (BTree.mk 19 (cksL.map some ++ List.replicate 20 none)
            (cnsL ++ List.replicate 20 none))
          :: ((BTree.mk 19 (cksR.map some ++ List.replicate 20 none)
              (cnsR ++ List.replicate 20 none) :: cs₂).map childSlot
            ++ List.replicate (38 - (ks₁.length + ks₂.length)) none) := by
      simp
    rw [hre]
    have := bt_getD_append_len (cs₁.map childSlot)
      (childSlot (BTree.mk 19 (cksL.map some ++ List.replicate 20 none)
        (cnsL ++ List.replicate 20 none)))
      ((BTree.mk 19 (cksR.map some ++ List.replicate 20 none)
          (cnsR ++ List.replicate 20 none) :: cs₂).map childSlot
        ++ List.replicate (38 - (ks₁.length + ks₂.length)) none) none
    rw [List.length_map, hcs1] at this
    exact this
  have hsetl : ((cs₁
        ++ BTree.mk 19 (cksL.map some ++ List.replicate 20 none)
            (cnsL ++ List.replicate 20 none)
        :: BTree.mk 19 (cksR.map some ++ List.replicate 20 none)
            (cnsR ++ List.replicate 20 none)
        :: cs₂).map childSlot
      ++ List.replicate (38 - (ks₁.length + ks₂.length)) none).set
      ks₁.length (some (.TreeNode c'))
      = (cs₁ ++ c'
          :: BTree.mk 19 (cksR.map some ++ List.replicate 20 none)
            (cnsR ++ List.replicate 20 none)
          :: cs₂).map childSlot
        ++ List.replicate (38 - (ks₁.length + ks₂.length)) none := by
    have hre : (cs₁
          ++ BTree.mk 19 (cksL.map some ++ List.replicate 20 none)
              (cnsL ++ List.replicate 20 none)
          :: BTree.mk 19 (cksR.map some ++ List.replicate 20 none)
              (cnsR ++ List.replicate 20 none)
          :: cs₂).map childSlot
        ++ List.replicate (38 - (ks₁.length + ks₂.length)) none
        = cs₁.map childSlot
          ++ childSlot (BTree.mk 19 (cksL.map some ++ List.replicate 20 none)
            (cnsL ++ List.replicate 20 none))
          :: ((BTree.mk 19 (cksR.map some ++ List.replicate 20 none)
              (cnsR ++ List.replicate 20 none) :: cs₂).map childSlot
            ++ List.replicate (38 - (ks₁.length + ks₂.length)) none) := by
      simp
    rw [hre]
    have := bt_set_append_len (cs₁.map childSlot)
      (childSlot (BTree.mk 19 (cksL.map some ++ List.replicate 20 none)
        (cnsL ++ List.replicate 20 none)))
      ((BTree.mk 19 (cksR.map some ++ List.replicate 20 none)
          (cnsR ++ List.replicate 20 none) :: cs₂).map childSlot
        ++ List.replicate (38 - (ks₁.length + ks₂.length)) none)
      (some (.TreeNode c'))
    rw [List.length_map, hcs1] at this
    rw [this]
    simp [childSlot]
  simp only [insert_non_fullF, BTree.used_mk, BTree.keys_mk, BTree.nodes_mk,
    hleaf, hpos, hget, hne, Bool.false_eq_true, or_false, if_false,
    slotCase_node]
  simp only [if_pos hcfull, hsplit, Option.some_bind, BTree.used_mk,
    BTree.keys_mk, BTree.nodes_mk, hgetm, adjustPos_some, if_neg hkm, hgetl,
    slotCase_node, hrec, Option.map_some']
  rw [hsetl]

/-- Descent step of `insert_non_full` on an internal node whose selected
child is full and the key goes to the new right sibling after the split. -/
theorem internal_insert_split_right [LinearOrder K] (fuel : Nat) (key : K)
    (value : V) (ks₁ ks₂ : List K) (cs₁ cs₂ : List (BTree K V))
    (c c' : BTree K V) (b : Bool) (cksL cksR : List K) (m : K)
    (cnsL cnsR : List (Option (TreeItem K V)))
    (hne : ¬ ks₁.length + ks₂.length = 0)
    (hfirst : firstGE key (ks₁ ++ ks₂) = ks₁.length)
    (hcs1 : cs₁.length = ks₁.length) (hcs2 : cs₂.length = ks₂.length)
    (hcfull : c.used = BTREE_KEYS_UBOUND)
    (hck : c.keys = (cksL ++ m :: cksR).map some)
    (hcn : c.nodes = cnsL ++ cnsR)
    (hkL : cksL.length = 19) (hkR : cksR.length = 19)
    (hnL : cnsL.length = 20) (hnR : cnsR.length = 20)
    (hu : ks₁.length + ks₂.length ≤ 38)
    (hkm : key > m)
    (hrec : insert_non_fullF fuel
      (BTree.mk 19 (cksR.map some ++ List.replicate 20 none)
        (cnsR ++ List.replicate 20 none)) key value = some (c', b)) :
    insert_non_fullF (fuel + 1)
      (BTree.mk (ks₁.length + ks₂.length)
        ((ks₁ ++ ks₂).map some
          ++ List.replicate (39 - (ks₁.length + ks₂.length)) none)
        ((cs₁ ++ c :: cs₂).map childSlot
          ++ List.replicate (39 - (ks₁.length + ks₂.length)) none))
      key value
    = some (BTree.mk (ks₁.length + ks₂.length + 1)
        ((ks₁ ++ m :: ks₂).map some
          ++ List.replicate (38 - (ks₁.length + ks₂.length)) none)
        ((cs₁ ++ BTree.mk 19 (cksL.map some ++ List.replicate 20 none)
              (cnsL ++ List.replicate 20 none)
            :: c' :: cs₂).map childSlot
          ++ List.replicate (38 - (ks₁.length + ks₂.length)) none), b) := by
  have hleaf : is_leaf (BTree.mk (ks₁.length + ks₂.length)
      ((ks₁ ++ ks₂).map some
        ++ List.replicate (39 - (ks₁.length + ks₂.length)) none)
      ((cs₁ ++ c :: cs₂).map childSlot
        ++ List.replicate (39 - (ks₁.length + ks₂.length)) none)) = false := by
    cases cs₁ with
    | nil => rw [is_leaf]; simp [childSlot]
    | cons d cs₁ => rw [is_leaf]; simp [childSlot]
  have hpos : find_node_pos (BTree.mk (ks₁.length + ks₂.length)
      ((ks₁ ++ ks₂).map some
        ++ List.replicate (39 - (ks₁.length + ks₂.length)) none)
      ((cs₁ ++ c :: cs₂).map childSlot
        ++ List.replicate (39 - (ks₁.length + ks₂.length)) none)) key
      = ks₁.length := by
    rw [find_node_pos_shape key (ks₁ ++ ks₂) _ _ _ (by simp), hfirst]
  have hget : ((cs₁ ++ c :: cs₂).map childSlot
      ++ List.replicate (39 - (ks₁.length + ks₂.length)) none).getD
      ks₁.length none = some (.TreeNode c) := by
    have hre : (cs₁ ++ c :: cs₂).map childSlot
          ++ List.replicate (39 - (ks₁.length + ks₂.length)) none
        = cs₁.map childSlot ++ childSlot c
          :: (cs₂.map childSlot
            ++ List.replicate (39 - (ks₁.length + ks₂.length)) none) := by
      simp
    rw [hre]
    have := bt_getD_append_len (cs₁.map childSlot) (childSlot c)
      (cs₂.map childSlot
        ++ List.replicate (39 - (ks₁.length + ks₂.length)) none) none
    rw [List.length_map, hcs1] at this
    exact this
  have hsplit := split_child_spec ks₁ ks₂ cs₁ cs₂ c cksL cksR m cnsL cnsR
    hck hcn hkL hkR hnL hnR hcs1 hcs2 hu
  have hgetm : ((ks₁ ++ m :: ks₂).map some
      ++ List.replicate (38 - (ks₁.length + ks₂.length)) none).getD
      ks₁.length none = some m := by
    have hre : (ks₁ ++ m :: ks₂).map some
          ++ List.replicate (38 - (ks₁.length + ks₂.length)) none
        = ks₁.map some ++ (some m)
          :: (ks₂.map some
            ++ List.replicate (38 - (ks₁.length + ks₂.length)) none) := by
      simp
    rw [hre]
    have := bt_getD_append_len (ks₁.map some) (some m)
      (ks₂.map some ++ List.replicate (38 - (ks₁.length + ks₂.length)) none)
      none
    rw [List.length_map] at this
    exact this
  have hgetr : ((cs₁
        ++ BTree.mk 19 (cksL.map some ++ List.replicate 20 none)
            (cnsL ++ List.replicate 20 none)
        :: BTree.mk 19 (cksR.map some ++ List.replicate 20 none)
            (cnsR ++ List.replicate 20 none)
        :: cs₂).map childSlot
      ++ List.replicate (38 - (ks₁.length + ks₂.length)) none).getD
      (ks₁.length + 1) none
      = some (.TreeNode (BTree.mk 19 (cksR.map some ++ List.replicate 20 none)
          (cnsR ++ List.replicate 20 none))) := by
    have hre : (cs₁
          ++ BTree.mk 19 (cksL.map some ++ List.replicate 20 none)
              (cnsL ++ List.replicate 20 none)
          :: BTree.mk 19 (cksR.map some ++ List.replicate 20 none)
              (cnsR ++ List.replicate 20 none)
          :: cs₂).map childSlot
        ++ List.replicate (38 - (ks₁.length + ks₂.length)) none
        = (cs₁.map childSlot
            ++ [childSlot (BTree.mk 19 (cksL.map some ++ List.replicate 20 none)
              (cnsL ++ List.replicate 20 none))])
          ++ childSlot (BTree.mk 19 (cksR.map some ++ List.replicate 20 none)
              (cnsR ++ List.replicate 20 none))
          :: (cs₂.map childSlot
            ++ List.replicate (38 - (ks₁.length + ks₂.length)) none) := by
      simp
    rw [hre]
    have := bt_getD_append_len
      (cs₁.map childSlot
        ++ [childSlot (BTree.mk 19 (cksL.map some ++ List.replicate 20 none)
          (cnsL ++ List.replicate 20 none))])
      (childSlot (BTree.mk 19 (cksR.map some ++ List.replicate 20 none)
        (cnsR ++ List.replicate 20 none)))
      (cs₂.map childSlot
        ++ List.replicate (38 - (ks₁.length + ks₂.length)) none) none
    have hlen : (cs₁.map childSlot
        ++ [childSlot (BTree.mk 19 (cksL.map some ++ List.replicate 20 none)
          (cnsL ++ List.replicate 20 none))]).length = ks₁.length + 1 := by
      simp [hcs1]
    rw [hlen] at this
    exact this
  have hsetr : ((cs₁
        ++ BTree.mk 19 (cksL.map some ++ List.replicate 20 none)
            (cnsL ++ List.replicate 20 none)
        :: BTree.mk 19 (cksR.map some ++ List.replicate 20 none)
            (cnsR ++ List.replicate 20 none)
        :: cs₂).map childSlot
      ++ List.replicate (38 - (ks₁.length + ks₂.length)) none).set
      (ks₁.length + 1) (some (.TreeNode c'))
      = (cs₁ ++ BTree.mk 19 (cksL.map some ++ List.replicate 20 none)
            (cnsL ++ List.replicate 20 none)
          :: c' :: cs₂).map childSlot
        ++ List.replicate (38 - (ks₁.length + ks₂.length)) none := by
    have hre : (cs₁
          ++ BTree.mk 19 (cksL.map some ++ List.replicate 20 none)
              (cnsL ++ List.replicate 20 none)
          :: BTree.mk 19 (cksR.map some ++ List.replicate 20 none)
              (cnsR ++ List.replicate 20 none)
          :: cs₂).map childSlot
        ++ List.replicate (38 - (ks₁.length + ks₂.length)) none
        = (cs₁.map childSlot
            ++ [childSlot (BTree.mk 19 (cksL.map some ++ List.replicate 20 none)
              (cnsL ++ List.replicate 20 none))])
          ++ childSlot (BTree.mk 19 (cksR.map some ++ List.replicate 20 none)
              (cnsR ++ List.replicate 20 none))
          :: (cs₂.map childSlot
            ++ List.replicate (38 - (ks₁.length + ks₂.length)) none) := by
      simp
    rw [hre]
    have := bt_set_append_len
      (cs₁.map childSlot
        ++ [childSlot (BTree.mk 19 (cksL.map some ++ List.replicate 20 none)
          (cnsL ++ List.replicate 20 none))])
      (childSlot (BTree.mk 19 (cksR.map some ++ List.replicate 20 none)
        (cnsR ++ List.replicate 20 none)))
      (cs₂.map childSlot
        ++ List.replicate (38 - (ks₁.length + ks₂.length)) none)
      (some (.TreeNode c'))
    have hlen : (cs₁.map childSlot
        ++ [childSlot (BTree.mk 19 (cksL.map some ++ List.replicate 20 none)
          (cnsL ++ List.replicate 20 none))]).length = ks₁.length + 1 := by
      simp [hcs1]
    rw [hlen] at this
    rw [this]
    simp [childSlot]
  simp only [insert_non_fullF, BTree.used_mk, BTree.keys_mk, BTree.nodes_mk,
    hleaf, hpos, hget, hne, Bool.false_eq_true, or_false, if_false,
    slotCase_node]
  simp only [if_pos hcfull, hsplit, Option.some_bind, BTree.used_mk,
    BTree.keys_mk, BTree.nodes_mk, hgetm, adjustPos_some, if_pos hkm, hgetr,
    slotCase_node, hrec, Option.map_some']
  rw [hsetr]

/-- `BTree::insert` on a full root: the whole root content is wrapped into
a fresh child installed at slot 0, the root is reset to `used = 0`, the
child is split at position 0, and only then does `insert_non_full` run on
the new single-key root. -/
theorem insert_full_root [LinearOrder K] (key : K) (value : V)
    (cksL cksR : List K) (m : K) (cnsL cnsR : List (Option (TreeItem K V)))
    (hkL : cksL.length = 19) (hkR : cksR.length = 19)
    (hnL : cnsL.length = 20) (hnR : cnsR.length = 20) :
    BTree.insert (BTree.mk 39 ((cksL ++ m :: cksR).map some) (cnsL ++ cnsR))
      key value
    = insert_non_fullF
        (sizeB (BTree.mk 1 ([m].map some ++ List.replicate 38 none)
          (([BTree.mk 19 (cksL.map some ++ List.replicate 20 none)
              (cnsL ++ List.replicate 20 none),
            BTree.mk 19 (cksR.map some ++ List.replicate 20 none)
              (cnsR ++ List.replicate 20 none)]).map childSlot
            ++ List.replicate 38 none)) + 1)
        (BTree.mk 1 ([m].map some ++ List.replicate 38 none)
          (([BTree.mk 19 (cksL.map some ++ List.replicate 20 none)
              (cnsL ++ List.replicate 20 none),
            BTree.mk 19 (cksR.map some ++ List.replicate 20 none)
              (cnsR ++ List.replicate 20 none)]).map childSlot
            ++ List.replicate 38 none))
        key value := by
  have hklen : ((cksL ++ m :: cksR).map some).length = 39 := by
    simp [hkL, hkR]
  have hnlen : (cnsL ++ cnsR).length = 40 := by simp [hnL, hnR]
  rw [BTree.insert]
  rw [if_pos (by simp [BTree.capacity]; rfl)]
  have hswapN : swapAcrossLoop (cnsL ++ cnsR)
        (List.replicate 40 (none : Option (TreeItem K V))) 0 0 40
      = (List.replicate 40 none, cnsL ++ cnsR) := by
    have h1 : cnsL ++ cnsR = ([] : List (Option (TreeItem K V)))
        ++ (cnsL ++ cnsR) ++ [] := by simp
    have h2 : List.replicate 40 (none : Option (TreeItem K V))
        = ([] : List (Option (TreeItem K V))) ++ List.replicate 40 none
          ++ [] := by simp
    rw [h1, h2]
    have := bt_swapAcrossLoop_spec 40 ([] : List (Option (TreeItem K V)))
      (cnsL ++ cnsR) [] [] (List.replicate 40 none) [] 0
      (by simp [hnL, hnR]) (by simp) (by simp)
    simpa using this
  have hswapK : swapAcrossLoop ((cksL ++ m :: cksR).map some)
        (List.replicate 39 (none : Option K)) 0 0 39
      = (List.replicate 39 none, (cksL ++ m :: cksR).map some) := by
    have h1 : (cksL ++ m :: cksR).map some = ([] : List (Option K))
        ++ (cksL ++ m :: cksR).map some ++ [] := by simp
    have h2 : List.replicate 39 (none : Option K)
        = ([] : List (Option K)) ++ List.replicate 39 none ++ [] := by simp
    rw [h1, h2]
    have := bt_swapAcrossLoop_spec 39 ([] : List (Option K))
      ((cksL ++ m :: cksR).map some) [] [] (List.replicate 39 none) [] 0
      (by simp [hkL, hkR]) (by simp) (by simp)
    simpa using this
  have hnew1 : (BTree.new : BTree K V).keys = List.replicate 39 none := rfl
  have hnew2 : (BTree.new : BTree K V).nodes = List.replicate 40 none := rfl
  have hnewu : (BTree.new : BTree K V).used = 0 := rfl
  simp only [BTree.used_mk, BTree.keys_mk, BTree.nodes_mk, hnew1, hnew2,
    hnewu, show (BTREE_KEYS_UBOUND : Nat) = 39 from rfl, hswapN, hswapK]
  have hset : (List.replicate 40 (none : Option (TreeItem K V))).set 0
      (some (.TreeNode (BTree.mk 0 ((cksL ++ m :: cksR).map some)
        (cnsL ++ cnsR))))
      = childSlot (BTree.mk 0 ((cksL ++ m :: cksR).map some) (cnsL ++ cnsR))
        :: List.replicate 39 none := rfl
  rw [hset]
  have hsplit := split_child_spec ([] : List K) ([] : List K)
    ([] : List (BTree K V)) ([] : List (BTree K V))
    (BTree.mk 0 ((cksL ++ m :: cksR).map some) (cnsL ++ cnsR))
    cksL cksR m cnsL cnsR rfl rfl hkL hkR hnL hnR rfl rfl (by simp)
  have hsplit2 : split_child
      (BTree.mk 0 (List.replicate 39 (none : Option K))
        (childSlot (BTree.mk 0 ((cksL ++ m :: cksR).map some) (cnsL ++ cnsR))
          :: List.replicate 39 none)) 0
      = some (BTree.mk 1 (some m :: List.replicate 38 none)
          (childSlot (BTree.mk 19 (cksL.map some ++ List.replicate 20 none)
              (cnsL ++ List.replicate 20 none))
            :: childSlot (BTree.mk 19 (cksR.map some ++ List.replicate 20 none)
              (cnsR ++ List.replicate 20 none))
            :: List.replicate 38 none)) := by
    simpa using hsplit
  rw [hsplit2]
  simp

/-! ## `find` characterization on node shapes -/

/-- `find` on an internal node descends into the child at the search
position. -/
theorem findF_internal_step [LinearOrder K] (fuel : Nat) (key : K)
    (ks : List K) (cs₁ cs₂ : List (BTree K V)) (c : BTree K V) (mpad : Nat)
    (hfirst : firstGE key ks = cs₁.length) :
    findF (fuel + 1)
      (BTree.mk ks.length (ks.map some ++ List.replicate mpad none)
        ((cs₁ ++ c :: cs₂).map childSlot ++ List.replicate mpad none))
      key
    = findF fuel c key := by
  have hne : (((cs₁ ++ c :: cs₂).map childSlot
      ++ List.replicate mpad none).getD 0 none).isNone = false := by
    cases cs₁ with
    | nil => simp [childSlot]
    | cons d cs₁ => simp [childSlot]
  have hpos : find_node_pos (BTree.mk ks.length
      (ks.map some ++ List.replicate mpad none)
      ((cs₁ ++ c :: cs₂).map childSlot ++ List.replicate mpad none)) key
      = cs₁.length := by
    rw [find_node_pos_shape key ks _ _ _ rfl, hfirst]
  have hget : ((cs₁ ++ c :: cs₂).map childSlot
      ++ List.replicate mpad none).getD cs₁.length none
      = some (.TreeNode c) := by
    have hre : (cs₁ ++ c :: cs₂).map childSlot ++ List.replicate mpad none
        = cs₁.map childSlot ++ childSlot c
          :: (cs₂.map childSlot ++ List.replicate mpad none) := by simp
    rw [hre]
    have := bt_getD_append_len (cs₁.map childSlot) (childSlot c)
      (cs₂.map childSlot ++ List.replicate mpad none) none
    rw [List.length_map] at this
    exact this
  simp only [findF, BTree.used_mk, BTree.keys_mk, BTree.nodes_mk, hne,
    Bool.false_eq_true, if_false, hpos, hget, slotCase_node]

/-- `find` on a leaf node whose explicit entry at the search position has
exactly the searched key returns the stored value. -/
theorem findF_leaf_at [LinearOrder K] (fuel : Nat) (key : K) (v : V)
    (ps₁ ps₂ : List (K × V)) (mpad : Nat)
    (T : List (Option (TreeItem K V)))
    (hfirst : firstGE key ((ps₁ ++ (key, v) :: ps₂).map Prod.fst)
      = ps₁.length) :
    findF (fuel + 1)
      (BTree.mk (ps₁ ++ (key, v) :: ps₂).length
        ((ps₁ ++ (key, v) :: ps₂).map someFst ++ List.replicate mpad none)
        ((ps₁ ++ (key, v) :: ps₂).map leafSlot ++ T))
      key
    = some v := by
  have hne : (((ps₁ ++ (key, v) :: ps₂).map leafSlot ++ T).getD 0
      none).isNone = false := by
    cases ps₁ with
    | nil => simp [leafSlot]
    | cons p ps₁ => simp [leafSlot]
  have hpos : find_node_pos (BTree.mk (ps₁ ++ (key, v) :: ps₂).length
      ((ps₁ ++ (key, v) :: ps₂).map someFst ++ List.replicate mpad none)
      ((ps₁ ++ (key, v) :: ps₂).map leafSlot ++ T)) key = ps₁.length := by
    have hcomp : (ps₁ ++ (key, v) :: ps₂).map someFst
        = ((ps₁ ++ (key, v) :: ps₂).map Prod.fst).map some := by
      rw [List.map_map]; rfl
    rw [hcomp, find_node_pos_shape key ((ps₁ ++ (key, v) :: ps₂).map Prod.fst)
      _ _ _ (by simp), hfirst]
  have hget : (((ps₁ ++ (key, v) :: ps₂).map leafSlot ++ T)).getD
      ps₁.length none = some (.TreeLeaf v) := by
    have hre : (ps₁ ++ (key, v) :: ps₂).map leafSlot ++ T
        = ps₁.map leafSlot ++ leafSlot (key, v)
          :: (ps₂.map leafSlot ++ T) := by simp
    rw [hre]
    have := bt_getD_append_len (ps₁.map leafSlot) (leafSlot (key, v))
      (ps₂.map leafSlot ++ T) none
    rw [List.length_map] at this
    exact this
  have hgetk : (((ps₁ ++ (key, v) :: ps₂).map someFst
      ++ List.replicate mpad none)).getD ps₁.length none = some key := by
    have hre : (ps₁ ++ (key, v) :: ps₂).map someFst
          ++ List.replicate mpad none
        = ps₁.map someFst ++ some key
          :: (ps₂.map someFst ++ List.replicate mpad none) := by
      simp [someFst]
    rw [hre]
    have := bt_getD_append_len (ps₁.map someFst) (some key)
      (ps₂.map someFst ++ List.replicate mpad none) none
    rw [List.length_map] at this
    exact this
  simp only [findF, BTree.used_mk, BTree.keys_mk, BTree.nodes_mk, hne,
    Bool.false_eq_true, if_false, hpos, hget, hgetk, slotCase_leaf]
  simp

/-- `find` on a leaf node whose explicit entry at the search position has
a different key (and the position is inside the explicit range) fails. -/
theorem findF_leaf_missing [LinearOrder K] (fuel : Nat) (key kother : K)
    (v : V) (ps₁ ps₂ : List (K × V)) (mpad : Nat)
    (T : List (Option (TreeItem K V)))
    (hfirst : firstGE key ((ps₁ ++ (kother, v) :: ps₂).map Prod.fst)
      = ps₁.length)
    (hk : kother ≠ key) :
    findF (fuel + 1)
      (BTree.mk (ps₁ ++ (kother, v) :: ps₂).length
        ((ps₁ ++ (kother, v) :: ps₂).map someFst ++ List.replicate mpad none)
        ((ps₁ ++ (kother, v) :: ps₂).map leafSlot ++ T))
      key
    = none := by
  have hne : (((ps₁ ++ (kother, v) :: ps₂).map leafSlot ++ T).getD 0
      none).isNone = false := by
    cases ps₁ with
    | nil => simp [leafSlot]
    | cons p ps₁ => simp [leafSlot]
  have hpos : find_node_pos (BTree.mk (ps₁ ++ (kother, v) :: ps₂).length
      ((ps₁ ++ (kother, v) :: ps₂).map someFst ++ List.replicate mpad none)
      ((ps₁ ++ (kother, v) :: ps₂).map leafSlot ++ T)) key = ps₁.length := by
    have hcomp : (ps₁ ++ (kother, v) :: ps₂).map someFst
        = ((ps₁ ++ (kother, v) :: ps₂).map Prod.fst).map some := by
      rw [List.map_map]; rfl
    rw [hcomp, find_node_pos_shape key
      ((ps₁ ++ (kother, v) :: ps₂).map Prod.fst) _ _ _ (by simp), hfirst]
  have hget : (((ps₁ ++ (kother, v) :: ps₂).map leafSlot ++ T)).getD
      ps₁.length none = some (.TreeLeaf v) := by
    have hre : (ps₁ ++ (kother, v) :: ps₂).map leafSlot ++ T
        = ps₁.map leafSlot ++ leafSlot (kother, v)
          :: (ps₂.map leafSlot ++ T) := by simp
    rw [hre]
    have := bt_getD_append_len (ps₁.map leafSlot) (leafSlot (kother, v))
      (ps₂.map leafSlot ++ T) none
    rw [List.length_map] at this
    exact this
  have hgetk : (((ps₁ ++ (kother, v) :: ps₂).map someFst
      ++ List.replicate mpad none)).getD ps₁.length none = some kother := by
    have hre : (ps₁ ++ (kother, v) :: ps₂).map someFst
          ++ List.replicate mpad none
        = ps₁.map someFst ++ some kother
          :: (ps₂.map someFst ++ List.replicate mpad none) := by
      simp [someFst]
    rw [hre]
    have := bt_getD_append_len (ps₁.map someFst) (some kother)
      (ps₂.map someFst ++ List.replicate mpad none) none
    rw [List.length_map] at this
    exact this
  have hlt : ps₁.length ≠ (ps₁ ++ (kother, v) :: ps₂).length := by
    simp
    try omega
  simp only [findF, BTree.used_mk, BTree.keys_mk, BTree.nodes_mk, hne,
    Bool.false_eq_true, if_false, hpos, hget, hgetk, slotCase_leaf]
  rw [if_neg]
  rintro (h | h)
  · exact hlt h
  · exact hk (by injection h)

/-- `find` on a leaf node when the key is greater than every explicit key:
the search position is the slot directly after the entries. When that slot
is occupied (the overflow slot) the stored value is returned — even when
the key was never inserted. -/
theorem findF_leaf_overflow [LinearOrder K] (fuel : Nat) (key : K) (w : V)
    (ps : List (K × V)) (mpad : Nat) (T : List (Option (TreeItem K V)))
    (hfirst : firstGE key (ps.map Prod.fst) = ps.length)
    (hne0 : ps ≠ []) :
    findF (fuel + 1)
      (BTree.mk ps.length
        (ps.map someFst ++ List.replicate mpad none)
        (ps.map leafSlot ++ some (.TreeLeaf w) :: T))
      key
    = some w := by
  have hne : ((ps.map leafSlot ++ some (.TreeLeaf w) :: T).getD 0
      none).isNone = false := by
    cases ps with
    | nil => simp
    | cons p ps => simp [leafSlot]
  have hpos : find_node_pos (BTree.mk ps.length
      (ps.map someFst ++ List.replicate mpad none)
      (ps.map leafSlot ++ some (.TreeLeaf w) :: T)) key = ps.length := by
    have hcomp : ps.map someFst = (ps.map Prod.fst).map some := by
      rw [List.map_map]; rfl
    rw [hcomp, find_node_pos_shape key (ps.map Prod.fst) _ _ _ (by simp),
      hfirst]
  have hget : ((ps.map leafSlot ++ some (.TreeLeaf w) :: T)).getD
      ps.length none = some (.TreeLeaf w) := by
    have := bt_getD_append_len (ps.map leafSlot) (some (.TreeLeaf w)) T none
    rw [List.length_map] at this
    exact this
  simp only [findF, BTree.used_mk, BTree.keys_mk, BTree.nodes_mk, hne,
    Bool.false_eq_true, if_false, hpos, hget, slotCase_leaf]
  simp

/-- `find` on a leaf node when the key is greater than every explicit key
and the slot after the entries is empty: not found. -/
theorem findF_leaf_pastend [LinearOrder K] (fuel : Nat) (key : K)
    (ps : List (K × V)) (mpad : Nat) (T : List (Option (TreeItem K V)))
    (hfirst : firstGE key (ps.map Prod.fst) = ps.length)
    (hne0 : ps ≠ []) :
    findF (fuel + 1)
      (BTree.mk ps.length
        (ps.map someFst ++ List.replicate mpad none)
        (ps.map leafSlot ++ none :: T))
      key
    = none := by
  have hne : ((ps.map leafSlot ++ none :: T).getD 0 none).isNone = false := by
    cases ps with
    | nil => simp at hne0
    | cons p ps => simp [leafSlot]
  have hpos : find_node_pos (BTree.mk ps.length
      (ps.map someFst ++ List.replicate mpad none)
      (ps.map leafSlot ++ none :: T)) key = ps.length := by
    have hcomp : ps.map someFst = (ps.map Prod.fst).map some := by
      rw [List.map_map]; rfl
    rw [hcomp, find_node_pos_shape key (ps.map Prod.fst) _ _ _ (by simp),
      hfirst]
  have hget : ((ps.map leafSlot ++ none :: T)).getD ps.length none = none := by
    have := bt_getD_append_len (ps.map leafSlot) none T none
    rw [List.length_map] at this
    exact this
  simp only [findF, BTree.used_mk, BTree.keys_mk, BTree.nodes_mk, hne,
    Bool.false_eq_true, if_false, hpos, hget, slotCase_none]

/-! ## Building a tree by successive root-leaf insertions -/

theorem firstGE_eq_length [LinearOrder K] (key : K) (ks : List K)
    (h : ∀ x ∈ ks, x < key) : firstGE key ks = ks.length := by
  induction ks with
  | nil => rfl
  | cons k ks ih =>
    have hk : ¬ key ≤ k := not_le.mpr (h k (by simp))
    simp only [firstGE, hk, if_false, List.length_cons]
    rw [ih (fun x hx => h x (by simp [hx]))]

/-- The root while it is still a plain leaf holding the entries `ps`. -/
def leafRoot (ps : List (K × V)) : BTree K V :=
  BTree.mk ps.length
    (ps.map someFst ++ List.replicate (39 - ps.length) none)
    (ps.map leafSlot ++ List.replicate (40 - ps.length) none)

theorem leafRoot_nil : (leafRoot [] : BTree K V) = BTree.new := rfl

/-- Inserting a key greater than every present key into a small leaf root
appends the entry. -/
theorem leafRoot_insert_append [LinearOrder K] (key : K) (value : V)
    (ps : List (K × V)) (hlen : ps.length ≤ 38)
    (hgt : ∀ p ∈ ps, p.1 < key) :
    (leafRoot ps).insert key value
      = some (leafRoot (ps ++ [(key, value)]), true) := by
  have hnotfull : ¬ (leafRoot ps).used = BTREE_KEYS_UBOUND := by
    show ¬ ps.length = BTREE_KEYS_UBOUND
    rw [show (BTREE_KEYS_UBOUND : Nat) = 39 from rfl]
    omega
  rw [insert_not_full _ _ _ hnotfull]
  cases hps : ps with
  | nil =>
    subst hps
    have hz : (leafRoot ([] : List (K × V))) = BTree.mk 0
        (List.replicate 39 none) (none :: List.replicate 39 none) := rfl
    rw [hz, leaf_insert_empty]
    have h1 : (leafRoot [(key, value)] : BTree K V)
        = BTree.mk 1 (some key :: List.replicate 38 none)
          (some (.TreeLeaf value) :: List.replicate 39 none) := by
      rw [leafRoot]
      have e1 : ([(key, value)] : List (K × V)).length = 1 := rfl
      have e2 : ([(key, value)] : List (K × V)).map someFst = [some key] := rfl
      have e3 : ([(key, value)] : List (K × V)).map leafSlot
          = [some (.TreeLeaf value)] := rfl
      rw [e1, e2, e3]
      rfl
    rw [show ([] : List (K × V)) ++ [(key, value)] = [(key, value)] from rfl,
      h1]
  | cons q qs =>
    subst hps
    have hfirst : firstGE key (((q :: qs) ++ ([] : List (K × V))).map
        Prod.fst) = (q :: qs).length := by
      rw [List.append_nil, firstGE_eq_length]
      · simp
      · intro x hx
        rw [List.mem_map] at hx
        obtain ⟨p, hp, rfl⟩ := hx
        exact hgt p hp
    have hlr : (leafRoot (q :: qs) : BTree K V)
        = BTree.mk ((q :: qs) ++ ([] : List (K × V))).length
          (((q :: qs) ++ ([] : List (K × V))).map someFst
            ++ List.replicate (39 - ((q :: qs)
              ++ ([] : List (K × V))).length) none)
          (((q :: qs) ++ ([] : List (K × V))).map leafSlot
            ++ none :: none
              :: List.replicate (38 - (q :: qs).length) none) := by
      rw [leafRoot]
      have htail : List.replicate (40 - (q :: qs).length)
            (none : Option (TreeItem K V))
          = none :: none :: List.replicate (38 - (q :: qs).length) none := by
        have hlen2 : qs.length + 1 ≤ 38 := by simpa using hlen
        have h40 : 40 - (q :: qs).length = (38 - (q :: qs).length) + 2 := by
          simp only [List.length_cons]
          omega
        rw [h40]
        rfl
      rw [htail]
      simp
    rw [hlr]
    rw [leaf_insert_new (sizeB (BTree.mk ((q :: qs)
          ++ ([] : List (K × V))).length
          (((q :: qs) ++ ([] : List (K × V))).map someFst
            ++ List.replicate (39 - ((q :: qs)
              ++ ([] : List (K × V))).length) none)
          (((q :: qs) ++ ([] : List (K × V))).map leafSlot
            ++ none :: none
              :: List.replicate (38 - (q :: qs).length) none)))
      key value (q :: qs) [] none
      (List.replicate (38 - (q :: qs).length) none)
      hfirst (by simp) (by simp) (by simpa using hlen)]
    have hfin : (leafRoot ((q :: qs) ++ [(key, value)]) : BTree K V)
        = BTree.mk (((q :: qs) ++ ([] : List (K × V))).length + 1)
          (((q :: qs) ++ (key, value) :: ([] : List (K × V))).map someFst
            ++ List.replicate (38 - ((q :: qs)
              ++ ([] : List (K × V))).length) none)
          (((q :: qs) ++ (key, value) :: ([] : List (K × V))).map leafSlot
            ++ none :: List.replicate (38 - (q :: qs).length) none) := by
      rw [leafRoot]
      have e1 : ((q :: qs) ++ [(key, value)]).length
          = ((q :: qs) ++ ([] : List (K × V))).length + 1 := by simp
      have e2 : 39 - ((q :: qs) ++ [(key, value)]).length
          = 38 - ((q :: qs) ++ ([] : List (K × V))).length := by simp
      have e3 : List.replicate (40 - ((q :: qs) ++ [(key, value)]).length)
            (none : Option (TreeItem K V))
          = none :: List.replicate (38 - (q :: qs).length) none := by
        have hlen2 : qs.length + 1 ≤ 38 := by simpa using hlen
        have h40 : 40 - ((q :: qs) ++ [(key, value)]).length
            = (38 - (q :: qs).length) + 1 := by
          simp only [List.length_append, List.length_cons, List.length_nil]
          omega
        rw [h40]
        rfl
      rw [e2, e3, e1]
    rw [hfin]

/-- Inserting a key smaller than every present key into a small non-empty
leaf root prepends the entry (shifting everything right). -/
theorem leafRoot_insert_prepend [LinearOrder K] (key : K) (value : V)
    (ps : List (K × V)) (hlen : ps.length ≤ 38) (hne0 : ps ≠ [])
    (hlt : ∀ p ∈ ps, key < p.1) :
    (leafRoot ps).insert key value
      = some (leafRoot ((key, value) :: ps), true) := by
  have hnotfull : ¬ (leafRoot ps).used = BTREE_KEYS_UBOUND := by
    show ¬ ps.length = BTREE_KEYS_UBOUND
    rw [show (BTREE_KEYS_UBOUND : Nat) = 39 from rfl]
    omega
  rw [insert_not_full _ _ _ hnotfull]
  have hfirst : firstGE key ((([] : List (K × V)) ++ ps).map Prod.fst)
      = ([] : List (K × V)).length := by
    rw [List.nil_append]
    cases ps with
    | nil => simp at hne0
    | cons q qs =>
      have : key ≤ q.1 := le_of_lt (hlt q (by simp))
      simp [firstGE, this]
  have hhead : ∀ p, ps.head? = some p → p.1 ≠ key := by
    intro p hp
    have hmem : p ∈ ps := by
      cases ps with
      | nil => simp at hp
      | cons q qs =>
        simp at hp
        subst hp
        simp
    exact ne_of_gt (hlt p hmem)
  have hlr : (leafRoot ps : BTree K V)
      = BTree.mk (([] : List (K × V)) ++ ps).length
        ((([] : List (K × V)) ++ ps).map someFst
          ++ List.replicate (39 - (([] : List (K × V)) ++ ps).length) none)
        ((([] : List (K × V)) ++ ps).map leafSlot
          ++ none :: none :: List.replicate (38 - ps.length) none) := by
    rw [leafRoot]
    have htail : List.replicate (40 - ps.length)
          (none : Option (TreeItem K V))
        = none :: none :: List.replicate (38 - ps.length) none := by
      have h40 : 40 - ps.length = (38 - ps.length) + 2 := by omega
      rw [h40]
      rfl
    rw [htail]
    simp
  rw [hlr]
  rw [leaf_insert_new (sizeB (BTree.mk (([] : List (K × V)) ++ ps).length
        ((([] : List (K × V)) ++ ps).map someFst
          ++ List.replicate (39 - (([] : List (K × V)) ++ ps).length) none)
        ((([] : List (K × V)) ++ ps).map leafSlot
          ++ none :: none :: List.replicate (38 - ps.length) none)))
    key value [] ps none (List.replicate (38 - ps.length) none)
    hfirst hhead (by simpa using hne0) (by simpa using hlen)]
  have hfin : (leafRoot ((key, value) :: ps) : BTree K V)
      = BTree.mk ((([] : List (K × V)) ++ ps).length + 1)
        ((([] : List (K × V)) ++ (key, value) :: ps).map someFst
          ++ List.replicate (38 - (([] : List (K × V)) ++ ps).length) none)
        ((([] : List (K × V)) ++ (key, value) :: ps).map leafSlot
          ++ none :: List.replicate (38 - ps.length) none) := by
    rw [leafRoot]
    have e2 : 39 - ((key, value) :: ps).length
        = 38 - (([] : List (K × V)) ++ ps).length := by simp
    have e3 : List.replicate (40 - ((key, value) :: ps).length)
          (none : Option (TreeItem K V))
        = none :: List.replicate (38 - ps.length) none := by
      have h40 : 40 - ((key, value) :: ps).length
          = (38 - ps.length) + 1 := by
        simp only [List.length_cons]
        omega
      rw [h40]
      rfl
    have e1 : ((key, value) :: ps).length
        = (([] : List (K × V)) ++ ps).length + 1 := by simp
    rw [e2, e3, e1]
    simp
  rw [hfin]

/-- Folding strictly ascending insertions over a leaf root appends each
entry in turn. -/
theorem buildTree_asc_go [LinearOrder K] :
    ∀ (l ps : List (K × V)),
    List.Pairwise (fun a b : K × V => a.1 < b.1) (ps ++ l) →
    (ps ++ l).length ≤ 39 →
    List.foldlM (fun t p => (BTree.insert t p.1 p.2).map Prod.fst)
      (leafRoot ps) l = some (leafRoot (ps ++ l)) := by
  intro l
  induction l with
  | nil =>
    intro ps hpair hlen
    simp [List.foldlM_nil]
  | cons q rest ih =>
    intro ps hpair hlen
    have hgt : ∀ p ∈ ps, p.1 < q.1 := by
      rw [List.pairwise_append] at hpair
      intro p hp
      exact hpair.2.2 p hp q (by simp)
    have hlen1 : ps.length ≤ 38 := by
      have : (ps ++ q :: rest).length = ps.length + rest.length + 1 := by
        simp
        omega
      omega
    have hins := leafRoot_insert_append q.1 q.2 ps hlen1 hgt
    have hq : (q.1, q.2) = q := rfl
    rw [hq] at hins
    have hih := ih (ps ++ [q])
      (by simpa using hpair)
      (by simpa using hlen)
    simp only [List.foldlM_cons, hins, Option.map_some']
    simp [hih]

/-- `buildTree` of a strictly ascending list of at most 39 entries is the
leaf root holding exactly those entries. -/
theorem buildTree_asc [LinearOrder K] (l : List (K × V))
    (hpair : List.Pairwise (fun a b : K × V => a.1 < b.1) l)
    (hlen : l.length ≤ 39) :
    buildTree l = some (leafRoot l) := by
  rw [buildTree, ← leafRoot_nil]
  have := buildTree_asc_go l [] (by simpa using hpair) (by simpa using hlen)
  simpa using this

/-- Folding strictly descending insertions over a leaf root prepends each
entry in turn. -/
theorem buildTree_desc_go [LinearOrder K] :
    ∀ (l ps : List (K × V)),
    List.Pairwise (fun a b : K × V => b.1 < a.1) l →
    (∀ a ∈ l, ∀ p ∈ ps, a.1 < p.1) →
    ps.length + l.length ≤ 39 →
    List.foldlM (fun t p => (BTree.insert t p.1 p.2).map Prod.fst)
      (leafRoot ps) l = some (leafRoot (l.reverse ++ ps)) := by
  intro l
  induction l with
  | nil =>
    intro ps hpair hbelow hlen
    simp [List.foldlM_nil]
  | cons q rest ih =>
    intro ps hpair hbelow hlen
    have hlen1 : ps.length ≤ 38 := by
      simp only [List.length_cons] at hlen
      omega
    have hq : (q.1, q.2) = q := rfl
    have hins : (leafRoot ps).insert q.1 q.2
        = some (leafRoot (q :: ps), true) := by
      cases hps : ps with
      | nil =>
        subst hps
        have := leafRoot_insert_append q.1 q.2 [] (by simp) (by simp)
        rw [hq] at this
        simpa using this
      | cons r rs =>
        subst hps
        have := leafRoot_insert_prepend q.1 q.2 (r :: rs) hlen1 (by simp)
          (fun p hp => hbelow q (by simp) p hp)
        rw [hq] at this
        exact this
    have hih := ih (q :: ps)
      (hpair.sublist (List.sublist_cons_self q rest))
      (by
        intro a ha p hp
        rcases List.mem_cons.mp hp with h | h
        · subst h
          exact (List.pairwise_cons.mp hpair).1 a ha
        · exact hbelow a (by simp [ha]) p h)
      (by simp only [List.length_cons] at hlen ⊢; omega)
    simp only [List.foldlM_cons, hins, Option.map_some']
    simp [hih]

/-- `buildTree` of a strictly descending list of at most 39 entries is the
leaf root holding those entries in reversed (ascending) order. -/
theorem buildTree_desc [LinearOrder K] (l : List (K × V))
    (hpair : List.Pairwise (fun a b : K × V => b.1 < a.1) l)
    (hlen : l.length ≤ 39) :
    buildTree l = some (leafRoot l.reverse) := by
  rw [buildTree, ← leafRoot_nil]
  have := buildTree_desc_go l [] hpair (by simp) (by simpa using hlen)
  simpa using this

/-! ## The tree invariant

`BInv t lb ub es h` relates a subtree `t` to the sorted entry list `es` it
stores, in the context of an exclusive lower key bound `lb` and the
bounding ancestor separator `ub`.  A peculiarity of this B-tree is that
the *value* of an internal separator key is stored in the overflow slot
(`slots[used]`) of a leaf below it; `es` therefore includes the separator
entry of `ub` itself (it is always the last entry of `es` when
`ub = some _`), and an internal node's entry list is the plain
concatenation of its children's lists.  A leaf can be in a *stale* state
(after its separator key was re-inserted): the separator entry is then
stored explicitly, and the overflow slot holds an unused leftover value. -/

/-- Exclusive lower bound. -/
def lbLt (lb : Option K) (k : K) [LT K] : Prop :=
  match lb with
  | none => True
  | some l => l < k

/-- Strictly below the bounding separator key. -/
def ltUb (ub : Option (K × V)) (k : K) [LT K] : Prop :=
  match ub with
  | none => True
  | some p => k < p.1

/-- At most the bounding separator key. -/
def leUb (ub : Option (K × V)) (k : K) [LE K] : Prop :=
  match ub with
  | none => True
  | some p => k ≤ p.1

@[simp] theorem lbLt_none [LT K] (k : K) : lbLt none k := trivial

@[simp] theorem ltUb_none [LT K] (k : K) : ltUb (none : Option (K × V)) k :=
  trivial

@[simp] theorem leUb_none [LE K] (k : K) : leUb (none : Option (K × V)) k :=
  trivial

theorem lbLt_some [LT K] (l k : K) : lbLt (some l) k ↔ l < k := Iff.rfl

theorem ltUb_some [LT K] (p : K × V) (k : K) : ltUb (some p) k ↔ k < p.1 :=
  Iff.rfl

theorem leUb_some [LE K] (p : K × V) (k : K) : leUb (some p) k ↔ k ≤ p.1 :=
  Iff.rfl

/-- Insert-or-replace into a key-sorted association list. -/
def insertEntry [LinearOrder K] : List (K × V) → K → V → List (K × V)
  | [], key, value => [(key, value)]
  | p :: rest, key, value =>
    if key < p.1 then (key, value) :: p :: rest
    else if key = p.1 then (key, value) :: rest
    else p :: insertEntry rest key value

mutual
/-- The invariant of a subtree, relative to its key-range context. -/
inductive BInv [LinearOrder K] :
    BTree K V → Option K → Option (K × V) → List (K × V) → Nat → Prop where
  | leafNone (ps : List (K × V)) (lb : Option K)
      (hlen : ps.length ≤ 39)
      (hsort : List.Pairwise (fun a b : K × V => a.1 < b.1) ps)
      (hlb : ∀ p ∈ ps, lbLt lb p.1) :
      BInv (BTree.mk ps.length
        (ps.map someFst ++ List.replicate (39 - ps.length) none)
        (ps.map leafSlot ++ List.replicate (40 - ps.length) none))
        lb none ps 0
  | leafSome (ps : List (K × V)) (lb : Option K) (uk : K) (uv : V)
      (hlen : ps.length ≤ 39) (hne : ps ≠ [])
      (hsort : List.Pairwise (fun a b : K × V => a.1 < b.1) ps)
      (hlb : ∀ p ∈ ps, lbLt lb p.1)
      (hlbu : lbLt lb uk)
      (hub : ∀ p ∈ ps, p.1 < uk) :
      BInv (BTree.mk ps.length
        (ps.map someFst ++ List.replicate (39 - ps.length) none)
        (ps.map leafSlot ++ some (.TreeLeaf uv)
          :: List.replicate (39 - ps.length) none))
        lb (some (uk, uv)) (ps ++ [(uk, uv)]) 0
  | leafStale (ps : List (K × V)) (lb : Option K) (uk : K) (uv w : V)
      (hlen : ps.length + 1 ≤ 39)
      (hsort : List.Pairwise (fun a b : K × V => a.1 < b.1) ps)
      (hlb : ∀ p ∈ ps, lbLt lb p.1)
      (hlbu : lbLt lb uk)
      (hub : ∀ p ∈ ps, p.1 < uk) :
      BInv (BTree.mk (ps.length + 1)
        ((ps ++ [(uk, uv)]).map someFst
          ++ List.replicate (39 - (ps.length + 1)) none)
        ((ps ++ [(uk, uv)]).map leafSlot ++ some (.TreeLeaf w)
          :: List.replicate (39 - (ps.length + 1)) none))
        lb (some (uk, uv)) (ps ++ [(uk, uv)]) 0
  | internal (ks : List K) (cs : List (BTree K V)) (lb : Option K)
      (ub : Option (K × V)) (es : List (K × V)) (h : Nat)
      (hne : ks ≠ []) (hlen : ks.length ≤ 39)
      (hch : BChain ks cs lb ub es h) :
      BInv (BTree.mk ks.length
        (ks.map some ++ List.replicate (39 - ks.length) none)
        (cs.map childSlot ++ List.replicate (39 - ks.length) none))
        lb ub es (h + 1)

/-- The children of an internal node: `used` separator keys interleaving
`used + 1` children; child `i` is bounded above by separator `i`, the last
child by the node's own `ub`. -/
inductive BChain [LinearOrder K] :
    List K → List (BTree K V) → Option K → Option (K × V) → List (K × V)
      → Nat → Prop where
  | last (c : BTree K V) (lb : Option K) (ub : Option (K × V))
      (es : List (K × V)) (h : Nat) :
      BInv c lb ub es h → BChain [] [c] lb ub es h
  | cons (k : K) (v : V) (c : BTree K V) (ks : List K)
      (cs : List (BTree K V)) (lb : Option K) (ub : Option (K × V))
      (es₁ es₂ : List (K × V)) (h : Nat) :
      lbLt lb k → ltUb ub k →
      BInv c lb (some (k, v)) es₁ h →
      BChain ks cs (some k) ub es₂ h →
      BChain (k :: ks) (c :: cs) lb ub (es₁ ++ es₂) h
end

theorem Chain_length [LinearOrder K] :
    ∀ (ks : List K) (cs : List (BTree K V)) lb ub es h,
    BChain ks cs lb ub es h → cs.length = ks.length + 1 := by
  intro ks
  induction ks with
  | nil =>
    intro cs lb ub es h hch
    cases hch
    rfl
  | cons k ks ih =>
    intro cs lb ub es h hch
    cases hch with
    | cons k v c ks cs lb ub es₁ es₂ h h1 h2 h3 h4 =>
      simp [ih _ _ _ _ _ h4]

theorem lbLt_of_lt [LinearOrder K] {lb : Option K} {k k' : K}
    (h : lbLt lb k) (hlt : k < k') : lbLt lb k' := by
  cases lb with
  | none => trivial
  | some l => exact lt_trans h hlt

theorem leUb_of_ltUb [LinearOrder K] {ub : Option (K × V)} {k : K}
    (h : ltUb ub k) : leUb ub k := by
  cases ub with
  | none => trivial
  | some p => exact le_of_lt h

theorem ltUb_of_le [LinearOrder K] {ub : Option (K × V)} {k k' : K}
    (hle : k ≤ k') (h : ltUb ub k') : ltUb ub k := by
  cases ub with
  | none => trivial
  | some p => exact lt_of_le_of_lt hle h

theorem leUb_of_le_ltUb [LinearOrder K] {ub : Option (K × V)} {k k' : K}
    (hle : k ≤ k') (h : ltUb ub k') : leUb ub k :=
  leUb_of_ltUb (ltUb_of_le hle h)

/-- Carry the entry bounds and sortedness through one `BChain` level,
given them for every subtree of the chain's height. -/
theorem BChain_bounds_of [LinearOrder K] (h : Nat)
    (hP : ∀ (t : BTree K V) (lb : Option K) (ub : Option (K × V)) es,
      BInv t lb ub es h →
      (∀ p ∈ es, lbLt lb p.1 ∧ leUb ub p.1)
        ∧ List.Pairwise (fun a b : K × V => a.1 < b.1) es) :
    ∀ (ks : List K) (cs : List (BTree K V)) (lb : Option K)
      (ub : Option (K × V)) es, BChain ks cs lb ub es h →
      (∀ p ∈ es, lbLt lb p.1 ∧ leUb ub p.1)
        ∧ List.Pairwise (fun a b : K × V => a.1 < b.1) es := by
  intro ks
  induction ks with
  | nil =>
    intro cs lb ub es hch
    cases hch with
    | last c lb ub es h hc => exact hP c lb ub es hc
  | cons k ks ih =>
    intro cs lb ub es hch
    cases hch with
    | cons k v c ks cs lb ub es₁ es₂ h hlk huk hc htail =>
      have h1 := hP c lb (some (k, v)) es₁ hc
      have h2 := ih cs (some k) ub es₂ htail
      constructor
      · intro p hp
        rcases List.mem_append.mp hp with hp | hp
        · refine ⟨(h1.1 p hp).1, ?_⟩
          exact leUb_of_le_ltUb ((h1.1 p hp).2) huk
        · refine ⟨?_, (h2.1 p hp).2⟩
          exact lbLt_of_lt hlk (h2.1 p hp).1
      · rw [List.pairwise_append]
        refine ⟨h1.2, h2.2, ?_⟩
        intro p hp q hq
        exact lt_of_le_of_lt ((h1.1 p hp).2) ((h2.1 q hq).1)

/-- Entry bounds and sortedness for every well-formed subtree. -/
theorem BInv_bounds [LinearOrder K] :
    ∀ (h : Nat) (t : BTree K V) (lb : Option K) (ub : Option (K × V)) es,
    BInv t lb ub es h →
      (∀ p ∈ es, lbLt lb p.1 ∧ leUb ub p.1)
        ∧ List.Pairwise (fun a b : K × V => a.1 < b.1) es := by
  intro h
  induction h with
  | zero =>
    intro t lb ub es hinv
    cases hinv with
    | leafNone ps lb hlen hsort hlb =>
      exact ⟨fun p hp => ⟨hlb p hp, trivial⟩, hsort⟩
    | leafSome ps lb uk uv hlen hne hsort hlb hlbu hub =>
      constructor
      · intro p hp
        rcases List.mem_append.mp hp with hp | hp
        · exact ⟨hlb p hp, le_of_lt (hub p hp)⟩
        · simp at hp
          subst hp
          exact ⟨hlbu, le_refl _⟩
      · rw [List.pairwise_append]
        refine ⟨hsort, by simp, ?_⟩
        intro p hp q hq
        simp at hq
        subst hq
        exact hub p hp
    | leafStale ps lb uk uv w hlen hsort hlb hlbu hub =>
      constructor
      · intro p hp
        rcases List.mem_append.mp hp with hp | hp
        · exact ⟨hlb p hp, le_of_lt (hub p hp)⟩
        · simp at hp
          subst hp
          exact ⟨hlbu, le_refl _⟩
      · rw [List.pairwise_append]
        refine ⟨hsort, by simp, ?_⟩
        intro p hp q hq
        simp at hq
        subst hq
        exact hub p hp
  | succ h ih =>
    intro t lb ub es hinv
    cases hinv with
    | internal ks cs lb ub es h hne hlen hch =>
      exact BChain_bounds_of h ih ks cs lb ub es hch

/-- Entry bounds and sortedness across one chain. -/
theorem BChain_bounds [LinearOrder K] (h : Nat) (ks : List K)
    (cs : List (BTree K V)) (lb : Option K) (ub : Option (K × V)) es
    (hch : BChain ks cs lb ub es h) :
      (∀ p ∈ es, lbLt lb p.1 ∧ leUb ub p.1)
        ∧ List.Pairwise (fun a b : K × V => a.1 < b.1) es :=
  BChain_bounds_of h (fun t lb ub es hinv => BInv_bounds h t lb ub es hinv)
    ks cs lb ub es hch

theorem firstGE_append [LinearOrder K] (key k : K) (ks₁ ks₂ : List K)
    (hlt : ∀ x ∈ ks₁, x < key) (hk : key ≤ k) :
    firstGE key (ks₁ ++ k :: ks₂) = ks₁.length := by
  induction ks₁ with
  | nil => simp [firstGE, hk]
  | cons a ks₁ ih =>
    have ha : ¬ key ≤ a := not_le.mpr (hlt a (by simp))
    simp only [List.cons_append, firstGE, ha, if_false, List.length_cons]
    have := ih (fun x hx => hlt x (by simp [hx]))
    simp only [List.append_eq]
    omega

/-- Locate the child of a chain that stores a given entry: it sits exactly
at the search position of the entry's key. -/
theorem BChain_locate [LinearOrder K] (h : Nat) :
    ∀ (ks : List K) (cs : List (BTree K V)) (lb : Option K)
      (ub : Option (K × V)) es,
    BChain ks cs lb ub es h → ∀ k v, (k, v) ∈ es →
    ∃ cs₁ c cs₂ lb' ub' es',
      cs = cs₁ ++ c :: cs₂ ∧ cs₁.length = firstGE k ks ∧
      BInv c lb' ub' es' h ∧ (k, v) ∈ es' := by
  intro ks
  induction ks with
  | nil =>
    intro cs lb ub es hch k v hmem
    cases hch with
    | last c lb ub es h hc =>
      exact ⟨[], c, [], lb, ub, es, rfl, rfl, hc, hmem⟩
  | cons k₀ ks ih =>
    intro cs lb ub es hch k v hmem
    cases hch with
    | cons k₀ v₀ c ks cs lb ub es₁ es₂ h hlk huk hc htail =>
      rcases List.mem_append.mp hmem with hmem | hmem
      · have hle : k ≤ k₀ :=
          ((BInv_bounds h c lb (some (k₀, v₀)) es₁ hc).1 (k, v) hmem).2
        refine ⟨[], c, cs, lb, some (k₀, v₀), es₁, rfl, ?_, hc, hmem⟩
        simp [firstGE, hle]
      · have hgt : k₀ < k :=
          ((BChain_bounds h ks cs (some k₀) ub es₂ htail).1 (k, v) hmem).1
        obtain ⟨cs₁, c', cs₂, lb', ub', es', hcs, hlen, hc', hmem'⟩ :=
          ih cs (some k₀) ub es₂ htail k v hmem
        refine ⟨c :: cs₁, c', cs₂, lb', ub', es', by rw [hcs]; rfl, ?_, hc',
          hmem'⟩
        have : ¬ k ≤ k₀ := not_le.mpr hgt
        simp [firstGE, this, hlen]

/-- `find` returns the stored value of every entry of a well-formed
subtree. -/
theorem findF_correct [LinearOrder K] :
    ∀ (h : Nat) (t : BTree K V) (lb : Option K) (ub : Option (K × V)) es
      (fuel : Nat), BInv t lb ub es h → h < fuel →
    ∀ k v, (k, v) ∈ es → findF fuel t k = some v := by
  intro h
  induction h with
  | zero =>
    intro t lb ub es fuel hinv hfuel k v hmem
    obtain ⟨f, rfl⟩ : ∃ f, fuel = f + 1 := by
      cases fuel with
      | zero => omega
      | succ f => exact ⟨f, rfl⟩
    cases hinv with
    | leafNone ps lb hlen hsort hlb =>
      obtain ⟨ps₁, ps₂, rfl⟩ := List.append_of_mem hmem
      have hlt : ∀ x ∈ ps₁, x.1 < k := by
        rw [List.pairwise_append] at hsort
        intro x hx
        exact hsort.2.2 x hx (k, v) (by simp)
      have hfirst : firstGE k ((ps₁ ++ (k, v) :: ps₂).map Prod.fst)
          = ps₁.length := by
        rw [List.map_append, List.map_cons]
        rw [firstGE_append k k (ps₁.map Prod.fst) (ps₂.map Prod.fst) ?_
          (le_refl k)]
        · simp
        · intro x hx
          rw [List.mem_map] at hx
          obtain ⟨p, hp, rfl⟩ := hx
          exact hlt p hp
      exact findF_leaf_at f k v ps₁ ps₂ _ _ hfirst
    | leafSome ps lb uk uv hlen hne hsort hlb hlbu hub =>
      rcases List.mem_append.mp hmem with hmem | hmem
      · obtain ⟨ps₁, ps₂, rfl⟩ := List.append_of_mem hmem
        have hlt : ∀ x ∈ ps₁, x.1 < k := by
          rw [List.pairwise_append] at hsort
          intro x hx
          exact hsort.2.2 x hx (k, v) (by simp)
        have hfirst : firstGE k ((ps₁ ++ (k, v) :: ps₂).map Prod.fst)
            = ps₁.length := by
          rw [List.map_append, List.map_cons]
          rw [firstGE_append k k (ps₁.map Prod.fst) (ps₂.map Prod.fst) ?_
            (le_refl k)]
          · simp
          · intro x hx
            rw [List.mem_map] at hx
            obtain ⟨p, hp, rfl⟩ := hx
            exact hlt p hp
        exact findF_leaf_at f k v ps₁ ps₂ _ _ hfirst
      · simp at hmem
        obtain ⟨rfl, rfl⟩ := hmem
        have hfirst : firstGE k (ps.map Prod.fst) = ps.length := by
          have hall : ∀ x ∈ ps.map Prod.fst, x < k := by
            intro x hx
            rw [List.mem_map] at hx
            obtain ⟨p, hp, rfl⟩ := hx
            exact hub p hp
          rw [firstGE_eq_length k (ps.map Prod.fst) hall]
          simp
        have := findF_leaf_overflow f k v ps (39 - ps.length)
          (List.replicate (39 - ps.length) none) (by simpa using hfirst) hne
        simpa using this
    | leafStale ps lb uk uv w hlen hsort hlb hlbu hub =>
      rcases List.mem_append.mp hmem with hmem | hmem
      · obtain ⟨ps₁, ps₂, rfl⟩ := List.append_of_mem hmem
        have hlt : ∀ x ∈ ps₁, x.1 < k := by
          rw [List.pairwise_append] at hsort
          intro x hx
          exact hsort.2.2 x hx (k, v) (by simp)
        have hfirst : firstGE k
            ((ps₁ ++ (k, v) :: (ps₂ ++ [(uk, uv)])).map Prod.fst)
            = ps₁.length := by
          rw [List.map_append, List.map_cons]
          rw [firstGE_append k k (ps₁.map Prod.fst) _ ?_ (le_refl k)]
          · simp
          · intro x hx
            rw [List.mem_map] at hx
            obtain ⟨p, hp, rfl⟩ := hx
            exact hlt p hp
        have hre : (ps₁ ++ (k, v) :: ps₂) ++ [(uk, uv)]
            = ps₁ ++ (k, v) :: (ps₂ ++ [(uk, uv)]) := by simp
        rw [hre]
        have := findF_leaf_at f k v ps₁ (ps₂ ++ [(uk, uv)])
          (39 - ((ps₁ ++ (k, v) :: ps₂).length + 1))
          (some (.TreeLeaf w)
            :: List.replicate (39 - ((ps₁ ++ (k, v) :: ps₂).length + 1)) none)
          hfirst
        simpa using this
      · simp at hmem
        obtain ⟨rfl, rfl⟩ := hmem
        have hfirst : firstGE k ((ps ++ (k, v) :: []).map Prod.fst)
            = ps.length := by
          rw [List.map_append, List.map_cons]
          rw [firstGE_append k k (ps.map Prod.fst) _ ?_ (le_refl k)]
          · simp
          · intro x hx
            rw [List.mem_map] at hx
            obtain ⟨p, hp, rfl⟩ := hx
            exact hub p hp
        have := findF_leaf_at f k v ps [] (39 - (ps.length + 1))
          (some (.TreeLeaf w) :: List.replicate (39 - (ps.length + 1)) none)
          hfirst
        simpa using this
  | succ h ih =>
    intro t lb ub es fuel hinv hfuel k v hmem
    obtain ⟨f, rfl⟩ : ∃ f, fuel = f + 1 := by
      cases fuel with
      | zero => omega
      | succ f => exact ⟨f, rfl⟩
    cases hinv with
    | internal ks cs lb ub es h hne hlen hch =>
      obtain ⟨cs₁, c, cs₂, lb', ub', es', hcs, hlen1, hc', hmem'⟩ :=
        BChain_locate h ks cs lb ub es hch k v hmem
      subst hcs
      rw [findF_internal_step f k ks cs₁ cs₂ c _ hlen1.symm]
      exact ih c lb' ub' es' f hc' (by omega) k v hmem'

/-! ## `insertEntry` lemmas -/

theorem insertEntry_append_left [LinearOrder K] (key : K) (value : V) :
    ∀ (es₁ rest : List (K × V)), (∀ p ∈ es₁, p.1 < key) →
    insertEntry (es₁ ++ rest) key value = es₁ ++ insertEntry rest key value := by
  intro es₁
  induction es₁ with
  | nil => intro rest h; rfl
  | cons p es₁ ih =>
    intro rest h
    have h1 : ¬ key < p.1 := not_lt.mpr (le_of_lt (h p (by simp)))
    have h2 : ¬ key = p.1 := ne_of_gt (h p (by simp))
    simp only [List.cons_append, insertEntry, h1, h2, if_false, List.append_eq]
    rw [ih rest (fun q hq => h q (by simp [hq]))]

theorem insertEntry_cons_lt [LinearOrder K] (key : K) (value : V)
    (p : K × V) (rest : List (K × V)) (h : key < p.1) :
    insertEntry (p :: rest) key value = (key, value) :: p :: rest := by
  simp only [insertEntry, h, if_true]

theorem insertEntry_cons_eq [LinearOrder K] (key : K) (value : V)
    (p : K × V) (rest : List (K × V)) (h : key = p.1) :
    insertEntry (p :: rest) key value = (key, value) :: rest := by
  have h1 : ¬ key < p.1 := by rw [h]; exact lt_irrefl _
  simp only [insertEntry]
  rw [if_neg h1, if_pos h]

theorem insertEntry_prefix [LinearOrder K] (key : K) (value : V) :
    ∀ (esC rest : List (K × V)), (∃ p ∈ esC, key ≤ p.1) →
    insertEntry (esC ++ rest) key value = insertEntry esC key value ++ rest := by
  intro esC
  induction esC with
  | nil => intro rest h; simp at h
  | cons p esC ih =>
    intro rest h
    by_cases h1 : key < p.1
    · rw [List.cons_append, insertEntry_cons_lt _ _ _ _ h1,
        insertEntry_cons_lt _ _ _ _ h1]
      simp
    · by_cases h2 : key = p.1
      · rw [List.cons_append, insertEntry_cons_eq _ _ _ _ h2,
          insertEntry_cons_eq _ _ _ _ h2]
        simp
      · have hp : p.1 < key := lt_of_le_of_ne (not_lt.mp h1) (Ne.symm h2)
        simp only [List.cons_append, insertEntry, h1, h2, if_false,
          List.append_eq]
        rw [ih rest ?_]
        obtain ⟨q, hq, hkq⟩ := h
        rcases List.mem_cons.mp hq with rfl | hq
        · exact absurd hkq (not_le.mpr hp)
        · exact ⟨q, hq, hkq⟩

/-! ## Chain segments -/

/-- A left portion of a chain: `ks` separators and equally many children,
running from lower bound `lb` to lower bound `lbEnd`, all bounded by the
node's `ub`. -/
inductive BSeg [LinearOrder K] :
    List K → List (BTree K V) → Option K → Option K → Option (K × V)
      → List (K × V) → Nat → Prop where
  | nil (lb : Option K) (ub : Option (K × V)) (h : Nat) :
      BSeg [] [] lb lb ub [] h
  | cons (k : K) (v : V) (c : BTree K V) (ks : List K)
      (cs : List (BTree K V)) (lb lbEnd : Option K) (ub : Option (K × V))
      (es₁ es₂ : List (K × V)) (h : Nat) :
      lbLt lb k → ltUb ub k →
      BInv c lb (some (k, v)) es₁ h →
      BSeg ks cs (some k) lbEnd ub es₂ h →
      BSeg (k :: ks) (c :: cs) lb lbEnd ub (es₁ ++ es₂) h

theorem BSeg_glue [LinearOrder K] :
    ∀ (ks₁ : List K) (cs₁ : List (BTree K V)) (lb lbMid : Option K)
      (ub : Option (K × V)) es₁ (h : Nat),
    BSeg ks₁ cs₁ lb lbMid ub es₁ h →
    ∀ (ks₂ : List K) (cs₂ : List (BTree K V)) es₂,
    BChain ks₂ cs₂ lbMid ub es₂ h →
    BChain (ks₁ ++ ks₂) (cs₁ ++ cs₂) lb ub (es₁ ++ es₂) h := by
  intro ks₁ cs₁ lb lbMid ub es₁ h hseg
  induction hseg with
  | nil lb ub h =>
    intro ks₂ cs₂ es₂ hch
    simpa using hch
  | cons k v c ks cs lb lbEnd ub esa esb h hlk huk hc hrest ih =>
    intro ks₂ cs₂ es₂ hch
    have := ih ks₂ cs₂ es₂ hch
    have hcons := BChain.cons k v c (ks ++ ks₂) (cs ++ cs₂) lb ub esa
      (esb ++ es₂) h hlk huk hc this
    simpa using hcons

theorem BChain_split [LinearOrder K] :
    ∀ (ks₁ ks₂ : List K) (cs : List (BTree K V)) (lb : Option K)
      (ub : Option (K × V)) es (h : Nat),
    BChain (ks₁ ++ ks₂) cs lb ub es h →
    ∃ cs₁ cs₂ lbMid es₁ es₂, cs = cs₁ ++ cs₂ ∧ cs₁.length = ks₁.length ∧
      es = es₁ ++ es₂ ∧ BSeg ks₁ cs₁ lb lbMid ub es₁ h ∧
      BChain ks₂ cs₂ lbMid ub es₂ h := by
  intro ks₁
  induction ks₁ with
  | nil =>
    intro ks₂ cs lb ub es h hch
    exact ⟨[], cs, lb, [], es, rfl, rfl, rfl, BSeg.nil lb ub h, hch⟩
  | cons k ks₁ ih =>
    intro ks₂ cs lb ub es h hch
    cases hch with
    | cons k v c ks cs lb ub es₁ es₂ h hlk huk hc htail =>
      obtain ⟨cs₁, cs₂, lbMid, esa, esb, hcs, hlen, hes, hseg, hch'⟩ :=
        ih ks₂ cs (some k) ub es₂ h htail
      refine ⟨c :: cs₁, cs₂, lbMid, es₁ ++ esa, esb, by rw [hcs]; rfl,
        by simp [hlen], by rw [hes]; simp, ?_, hch'⟩
      exact BSeg.cons k v c ks₁ cs₁ lb lbMid ub es₁ esa h hlk huk hc hseg

theorem BSeg_lbEnd_lt [LinearOrder K]
    {ks : List K} {cs : List (BTree K V)} {lb lbEnd : Option K}
    {ub : Option (K × V)} {es : List (K × V)} {h : Nat} (key : K)
    (hseg : BSeg ks cs lb lbEnd ub es h)
    (hlb : lbLt lb key) (hks : ∀ x ∈ ks, x < key) : lbLt lbEnd key := by
  induction hseg with
  | nil lb ub h => exact hlb
  | cons k v c ks cs lb lbEnd ub es₁ es₂ h hlk huk hc hrest ih =>
    exact ih (hks k (by simp)) (fun x hx => hks x (by simp [hx]))

theorem BSeg_es_lt [LinearOrder K]
    {ks : List K} {cs : List (BTree K V)} {lb lbEnd : Option K}
    {ub : Option (K × V)} {es : List (K × V)} {h : Nat} (key : K)
    (hseg : BSeg ks cs lb lbEnd ub es h)
    (hks : ∀ x ∈ ks, x < key) : ∀ p ∈ es, p.1 < key := by
  induction hseg with
  | nil lb ub h => simp
  | cons k v c ks cs lb lbEnd ub es₁ es₂ h hlk huk hc hrest ih =>
    intro p hp
    rcases List.mem_append.mp hp with hp | hp
    · have := (BInv_bounds h c lb (some (k, v)) es₁ hc).1 p hp
      exact lt_of_le_of_lt this.2 (hks k (by simp))
    · exact ih (fun x hx => hks x (by simp [hx])) p hp

/-! ## The separator-value update and more `insertEntry` facts -/

/-- The bounding separator after an insert: when the inserted key *is* the
separator key, the separator's stored value changes. -/
def updUb [DecidableEq K] (ub : Option (K × V)) (key : K) (value : V) :
    Option (K × V) :=
  match ub with
  | none => none
  | some p => if p.1 = key then some (p.1, value) else some p

@[simp] theorem updUb_none [DecidableEq K] (key : K) (value : V) :
    updUb (none : Option (K × V)) key value = none := rfl

theorem updUb_some [DecidableEq K] (p : K × V) (key : K) (value : V) :
    updUb (some p) key value
      = some (p.1, if p.1 = key then value else p.2) := by
  by_cases h : p.1 = key
  · simp [updUb, h]
  · simp [updUb, h]

theorem updUb_of_ne [DecidableEq K] (ub : Option (K × V)) (key : K)
    (value : V) (h : ∀ q : K × V, ub = some q → q.1 ≠ key) :
    updUb ub key value = ub := by
  cases ub with
  | none => rfl
  | some p => simp [updUb, h p rfl]

theorem ltUb_updUb [LinearOrder K] (ub : Option (K × V)) (key : K)
    (value : V) (k : K) : ltUb (updUb ub key value) k ↔ ltUb ub k := by
  cases ub with
  | none => rfl
  | some p =>
    by_cases h : p.1 = key
    · simp [updUb, h, ltUb]
    · simp [updUb, h]

theorem BSeg_updUb [LinearOrder K]
    {ks : List K} {cs : List (BTree K V)} {lb lbEnd : Option K}
    {ub : Option (K × V)} {es : List (K × V)} {h : Nat} (key : K) (value : V)
    (hseg : BSeg ks cs lb lbEnd ub es h) :
    BSeg ks cs lb lbEnd (updUb ub key value) es h := by
  induction hseg with
  | nil lb ub h => exact BSeg.nil lb _ h
  | cons k v c ks cs lb lbEnd ub es₁ es₂ h hlk huk hc hrest ih =>
    exact BSeg.cons k v c ks cs lb lbEnd _ es₁ es₂ h hlk
      ((ltUb_updUb ub key value k).mpr huk) hc ih

/-- Split a list at a position strictly inside it. -/
theorem bt_split_at {α : Type} :
    ∀ (j : Nat) (l : List α), j < l.length →
    ∃ x l₂, l = l.take j ++ x :: l₂ := by
  intro j
  induction j with
  | zero =>
    intro l h
    cases l with
    | nil => simp at h
    | cons a l => exact ⟨a, l, rfl⟩
  | succ j ih =>
    intro l h
    cases l with
    | nil => simp at h
    | cons a l =>
      obtain ⟨x, l₂, hl⟩ := ih l (by simpa using h)
      exact ⟨x, l₂, by rw [List.take_succ_cons, List.cons_append, ← hl]⟩

@[simp] theorem insertEntry_nil [LinearOrder K] (key : K) (value : V) :
    insertEntry ([] : List (K × V)) key value = [(key, value)] := rfl

theorem insertEntry_middle [LinearOrder K] (key : K) (value : V)
    (ps₁ ps₂ : List (K × V)) (h₁ : ∀ p ∈ ps₁, p.1 < key)
    (h₂ : ∀ p : K × V, ps₂.head? = some p → key < p.1) :
    insertEntry (ps₁ ++ ps₂) key value = ps₁ ++ (key, value) :: ps₂ := by
  rw [insertEntry_append_left key value ps₁ ps₂ h₁]
  cases ps₂ with
  | nil => rfl
  | cons q ps₂ => rw [insertEntry_cons_lt key value q ps₂ (h₂ q rfl)]

theorem insertEntry_mem_sub [LinearOrder K] (key : K) (value : V) :
    ∀ (es : List (K × V)) (q : K × V), q ∈ insertEntry es key value →
    q ∈ es ∨ q = (key, value) := by
  intro es
  induction es with
  | nil => intro q hq; simp at hq; right; exact hq
  | cons p es ih =>
    intro q hq
    by_cases h1 : key < p.1
    · rw [insertEntry_cons_lt _ _ _ _ h1] at hq
      rcases List.mem_cons.mp hq with rfl | hq
      · right; rfl
      · left; exact hq
    · by_cases h2 : key = p.1
      · rw [insertEntry_cons_eq _ _ _ _ h2] at hq
        rcases List.mem_cons.mp hq with rfl | hq
        · right; rfl
        · left; exact List.mem_cons_of_mem p hq
      · simp only [insertEntry, h1, h2, if_false] at hq
        rcases List.mem_cons.mp hq with rfl | hq
        · left; exact List.mem_cons_self _ _
        · rcases ih q hq with hq | hq
          · left; exact List.mem_cons_of_mem p hq
          · right; exact hq

theorem insertEntry_sorted [LinearOrder K] (key : K) (value : V) :
    ∀ (es : List (K × V)),
    List.Pairwise (fun a b : K × V => a.1 < b.1) es →
    List.Pairwise (fun a b : K × V => a.1 < b.1)
      (insertEntry es key value) := by
  intro es
  induction es with
  | nil => intro _; simp
  | cons p es ih =>
    intro hsort
    have hp := List.pairwise_cons.mp hsort
    by_cases h1 : key < p.1
    · rw [insertEntry_cons_lt _ _ _ _ h1]
      exact List.pairwise_cons.mpr ⟨fun q hq => by
        rcases List.mem_cons.mp hq with rfl | hq
        · exact h1
        · exact lt_trans h1 (hp.1 q hq), hsort⟩
    · by_cases h2 : key = p.1
      · rw [insertEntry_cons_eq _ _ _ _ h2]
        exact List.pairwise_cons.mpr ⟨fun q hq => h2 ▸ hp.1 q hq, hp.2⟩
      · simp only [insertEntry, h1, h2, if_false]
        have hpk : p.1 < key := lt_of_le_of_ne (not_lt.mp h1) (Ne.symm h2)
        exact List.pairwise_cons.mpr ⟨fun q hq => by
          rcases insertEntry_mem_sub key value es q hq with hq | rfl
          · exact hp.1 q hq
          · exact hpk, ih hp.2⟩

theorem insertEntry_length_notmem [LinearOrder K] (key : K) (value : V) :
    ∀ (es : List (K × V)), key ∉ es.map Prod.fst →
    (insertEntry es key value).length = es.length + 1 := by
  intro es
  induction es with
  | nil => intro _; rfl
  | cons p es ih =>
    intro hnot
    by_cases h1 : key < p.1
    · rw [insertEntry_cons_lt _ _ _ _ h1]; rfl
    · by_cases h2 : key = p.1
      · exact absurd (by simp [h2]) hnot
      · simp only [insertEntry, h1, h2, if_false, List.length_cons]
        rw [ih (fun hmem => hnot (by simp at hmem ⊢; right; exact hmem))]

/-- Locate a present key inside a sorted entry list, together with the
search position of its key. -/
theorem mem_sorted_decomp [LinearOrder K] (key : K) :
    ∀ (ps : List (K × V)),
    List.Pairwise (fun a b : K × V => a.1 < b.1) ps →
    key ∈ ps.map Prod.fst →
    ∃ ps₁ vold ps₂, ps = ps₁ ++ (key, vold) :: ps₂ ∧
      (∀ p ∈ ps₁, p.1 < key) ∧
      firstGE key (ps.map Prod.fst) = ps₁.length := by
  intro ps
  induction ps with
  | nil => intro _ h; simp at h
  | cons p ps ih =>
    intro hsort hmem
    have hp := List.pairwise_cons.mp hsort
    by_cases hpk : p.1 = key
    · refine ⟨[], p.2, ps, ?_, by simp, ?_⟩
      · simp [← hpk]
      · simp [firstGE, le_of_eq hpk.symm]
    · have hmem' : key ∈ ps.map Prod.fst := by
        rcases List.mem_map.mp hmem with ⟨q, hq, hqk⟩
        rcases List.mem_cons.mp hq with rfl | hq
        · exact absurd hqk hpk
        · exact List.mem_map.mpr ⟨q, hq, hqk⟩
      obtain ⟨ps₁, vold, ps₂, hps, hlt, hfirst⟩ := ih hp.2 hmem'
      have hplt : p.1 < key := by
        rcases List.mem_map.mp hmem' with ⟨q, hq, hqk⟩
        exact hqk ▸ hp.1 q hq
      refine ⟨p :: ps₁, vold, ps₂, by rw [hps]; rfl, ?_, ?_⟩
      · intro q hq
        rcases List.mem_cons.mp hq with rfl | hq
        · exact hplt
        · exact hlt q hq
      · have : ¬ key ≤ p.1 := not_le.mpr hplt
        simp only [List.map_cons, firstGE, this, if_false, hfirst,
          List.length_cons]

theorem insertEntry_length_mem [LinearOrder K] (key : K) (value : V)
    (ps : List (K × V))
    (hsort : List.Pairwise (fun a b : K × V => a.1 < b.1) ps)
    (hmem : key ∈ ps.map Prod.fst) :
    (insertEntry ps key value).length = ps.length := by
  obtain ⟨ps₁, vold, ps₂, hps, hlt, _⟩ := mem_sorted_decomp key ps hsort hmem
  subst hps
  rw [insertEntry_append_left key value ps₁ _ hlt,
    insertEntry_cons_eq key value _ _ rfl]
  simp

theorem insertEntry_snoc_lt [LinearOrder K] (key uk : K) (value uv : V)
    (hlt : key < uk) : ∀ (ps : List (K × V)),
    insertEntry (ps ++ [(uk, uv)]) key value
      = insertEntry ps key value ++ [(uk, uv)] := by
  intro ps
  induction ps with
  | nil => simp [insertEntry, hlt]
  | cons p ps ih =>
    by_cases h1 : key < p.1
    · rw [List.cons_append, insertEntry_cons_lt _ _ _ _ h1,
        insertEntry_cons_lt _ _ _ _ h1]
      rfl
    · by_cases h2 : key = p.1
      · rw [List.cons_append, insertEntry_cons_eq _ _ _ _ h2,
          insertEntry_cons_eq _ _ _ _ h2]
        rfl
      · simp only [List.cons_append, insertEntry, h1, h2, if_false,
          List.append_eq]
        rw [ih]

theorem insertEntry_snoc_eq [LinearOrder K] (key : K) (value uv : V)
    (ps : List (K × V)) (hlt : ∀ p ∈ ps, p.1 < key) :
    insertEntry (ps ++ [(key, uv)]) key value = ps ++ [(key, value)] := by
  rw [insertEntry_append_left key value ps _ hlt,
    insertEntry_cons_eq key value _ _ rfl]

theorem firstGE_append_lt [LinearOrder K] (key : K) :
    ∀ (ks ks' : List K), firstGE key ks < ks.length →
    firstGE key (ks ++ ks') = firstGE key ks := by
  intro ks
  induction ks with
  | nil => intro ks' h; simp at h
  | cons k ks ih =>
    intro ks' h
    by_cases hk : key ≤ k
    · simp [firstGE, hk]
    · simp only [firstGE, hk, if_false, List.length_cons, List.append_eq]
        at h ⊢
      rw [ih ks' (by omega)]

/-! ## Structural consequences of the invariant -/

theorem BInv_used [LinearOrder K] {t : BTree K V} {lb : Option K}
    {ub : Option (K × V)} {es : List (K × V)} {h : Nat}
    (hinv : BInv t lb ub es h) : t.used ≤ 39 := by
  cases hinv with
  | leafNone ps lb hlen hsort hlb => simpa using hlen
  | leafSome ps lb uk uv hlen hne hsort hlb hlbu hub => simpa using hlen
  | leafStale ps lb uk uv w hlen hsort hlb hlbu hub => simpa using hlen
  | internal ks cs lb ub es h hne hlen hch => simpa using hlen

theorem BChain_ub_last_of [LinearOrder K] (h : Nat)
    (hP : ∀ (t : BTree K V) (lb : Option K) (uk : K) (uv : V) es,
      BInv t lb (some (uk, uv)) es h → ∃ es₀, es = es₀ ++ [(uk, uv)]) :
    ∀ (ks : List K) (cs : List (BTree K V)) (lb : Option K) (uk : K)
      (uv : V) es, BChain ks cs lb (some (uk, uv)) es h →
      ∃ es₀, es = es₀ ++ [(uk, uv)] := by
  intro ks
  induction ks with
  | nil =>
    intro cs lb uk uv es hch
    cases hch with
    | last c lb ub es h hc => exact hP c lb uk uv es hc
  | cons k ks ih =>
    intro cs lb uk uv es hch
    cases hch with
    | cons k v c ks cs lb ub es₁ es₂ h hlk huk hc htail =>
      obtain ⟨es₀, hes⟩ := ih cs (some k) uk uv es₂ htail
      exact ⟨es₁ ++ es₀, by rw [hes, List.append_assoc]⟩

/-- When a subtree has a bounding separator, that separator's entry is the
last entry the subtree stores. -/
theorem BInv_ub_last [LinearOrder K] :
    ∀ (h : Nat) (t : BTree K V) (lb : Option K) (uk : K) (uv : V) es,
    BInv t lb (some (uk, uv)) es h → ∃ es₀, es = es₀ ++ [(uk, uv)] := by
  intro h
  induction h with
  | zero =>
    intro t lb uk uv es hinv
    cases hinv with
    | leafSome ps lb uk uv hlen hne hsort hlb hlbu hub => exact ⟨ps, rfl⟩
    | leafStale ps lb uk uv w hlen hsort hlb hlbu hub => exact ⟨ps, rfl⟩
  | succ h ih =>
    intro t lb uk uv es hinv
    cases hinv with
    | internal ks cs lb ub es h hne hlen hch =>
      exact BChain_ub_last_of h ih ks cs lb uk uv es hch

theorem BInv_ub_mem [LinearOrder K] {h : Nat} {t : BTree K V}
    {lb : Option K} {uk : K} {uv : V} {es : List (K × V)}
    (hinv : BInv t lb (some (uk, uv)) es h) : (uk, uv) ∈ es := by
  obtain ⟨es₀, hes⟩ := BInv_ub_last h t lb uk uv es hinv
  rw [hes]
  simp

/-- Split a chain at one of its separator joints: the separator key keeps
its stored value `v`, the left part ends at that separator, the right part
starts after it. -/
theorem BChain_split_joint [LinearOrder K] :
    ∀ (ks₁ : List K) (k : K) (ks₂ : List K) (cs : List (BTree K V))
      (lb : Option K) (ub : Option (K × V)) es (h : Nat),
    BChain (ks₁ ++ k :: ks₂) cs lb ub es h →
    ∃ cs₁ cs₂ v es₁ es₂, cs = cs₁ ++ cs₂ ∧ cs₁.length = ks₁.length + 1 ∧
      es = es₁ ++ es₂ ∧ BChain ks₁ cs₁ lb (some (k, v)) es₁ h ∧
      BChain ks₂ cs₂ (some k) ub es₂ h ∧ lbLt lb k ∧ ltUb ub k := by
  intro ks₁
  induction ks₁ with
  | nil =>
    intro k ks₂ cs lb ub es h hch
    cases hch with
    | cons k v c ks cs lb ub es₁ es₂ h hlk huk hc htail =>
      exact ⟨[c], cs, v, es₁, es₂, rfl, rfl, rfl,
        BChain.last c lb (some (k, v)) es₁ h hc, htail, hlk, huk⟩
  | cons k₀ ks₁ ih =>
    intro k ks₂ cs lb ub es h hch
    cases hch with
    | cons k₀ v₀ c ks cs lb ub es₁ es₂ h hlk huk hc htail =>
      obtain ⟨cs₁, cs₂, v, esa, esb, hcs, hlen, hes, hchL, hchR, hlbk, hubk⟩ :=
        ih k ks₂ cs (some k₀) ub es₂ h htail
      refine ⟨c :: cs₁, cs₂, v, es₁ ++ esa, esb, by rw [hcs]; rfl,
        by simp [hlen], by rw [hes]; simp, ?_, hchR, ?_, hubk⟩
      · exact BChain.cons k₀ v₀ c ks₁ cs₁ lb (some (k, v)) es₁ esa h hlk
          (by exact hlbk) hc hchL
      · exact lbLt_of_lt hlk hlbk

theorem someFst_eq_map (ps : List (K × V)) :
    ps.map someFst = (ps.map Prod.fst).map some := by
  rw [List.map_map]; rfl

/-- A full node splits into two minimal halves around its median key; both
halves satisfy the invariant and the entries distribute around the
median. -/
theorem BInv_split_full [LinearOrder K] (h : Nat) (c : BTree K V)
    (lb : Option K) (ub : Option (K × V)) (esc : List (K × V))
    (hinv : BInv c lb ub esc h) (hfull : c.used = 39) :
    ∃ (cksL cksR : List K) (m : K) (cnsL cnsR : List (Option (TreeItem K V)))
      (vm : V) (escL escR : List (K × V)),
      c.keys = (cksL ++ m :: cksR).map some ∧ c.nodes = cnsL ++ cnsR ∧
      cksL.length = 19 ∧ cksR.length = 19 ∧
      cnsL.length = 20 ∧ cnsR.length = 20 ∧
      esc = escL ++ escR ∧ lbLt lb m ∧ ltUb ub m ∧
      BInv (BTree.mk 19 (cksL.map some ++ List.replicate 20 none)
        (cnsL ++ List.replicate 20 none)) lb (some (m, vm)) escL h ∧
      BInv (BTree.mk 19 (cksR.map some ++ List.replicate 20 none)
        (cnsR ++ List.replicate 20 none)) (some m) ub escR h := by
  cases hinv with
  | leafNone ps lb hlen hsort hlb =>
    simp only [BTree.used_mk] at hfull
    obtain ⟨pm, psR, hps⟩ := bt_split_at 19 esc (by omega)
    obtain ⟨psL, hpsL⟩ : ∃ l, esc.take 19 = l := ⟨_, rfl⟩
    rw [hpsL] at hps
    have hLlen : psL.length = 19 := by
      rw [← hpsL, List.length_take]; omega
    have hRlen : psR.length = 19 := by
      have := congrArg List.length hps
      simp at this; omega
    rw [hps] at hsort hlb hfull ⊢
    obtain ⟨hsortL, hsortR', hcross⟩ := List.pairwise_append.mp hsort
    obtain ⟨hpmR, hsortR⟩ := List.pairwise_cons.mp hsortR'
    refine ⟨psL.map Prod.fst, psR.map Prod.fst, pm.1,
      psL.map leafSlot ++ [leafSlot pm], psR.map leafSlot ++ [none], pm.2,
      psL ++ [(pm.1, pm.2)], psR, ?_, ?_, by simp [hLlen], by simp [hRlen],
      by simp [hLlen], by simp [hRlen], by simp, hlb pm (by simp), trivial,
      ?_, ?_⟩
    · rw [BTree.keys_mk, hfull, someFst_eq_map]
      simp
    · rw [BTree.nodes_mk, hfull]
      simp [List.append_assoc]
    · have hL := BInv.leafSome psL lb pm.1 pm.2 (by omega)
        (List.length_pos.mp (by omega)) hsortL
        (fun p hp => hlb p (by simp [hp]))
        (hlb pm (by simp))
        (fun p hp => hcross p hp pm (by simp))
      rw [hLlen, show (39 : Nat) - 19 = 20 from by norm_num,
        someFst_eq_map] at hL
      have en : psL.map leafSlot ++ some (.TreeLeaf pm.2)
            :: List.replicate 20 none
          = (psL.map leafSlot ++ [leafSlot pm]) ++ List.replicate 20 none :=
        by simp [leafSlot]
      rw [en] at hL
      exact hL
    · have hR := BInv.leafNone psR (some pm.1) (by omega) hsortR
        (fun p hp => hpmR p hp)
      rw [hRlen, someFst_eq_map] at hR
      have e1 : List.replicate ((39 : Nat) - 19)
            (none : Option K) = List.replicate 20 none := by norm_num
      have e2 : List.replicate ((40 : Nat) - 19)
            (none : Option (TreeItem K V))
          = none :: List.replicate 20 none := by
        rw [show (40 : Nat) - 19 = 20 + 1 from by norm_num]
        rfl
      rw [e1, e2] at hR
      have en : psR.map leafSlot
            ++ (none : Option (TreeItem K V)) :: List.replicate 20 none
          = (psR.map leafSlot ++ [none]) ++ List.replicate 20 none := by
        simp
      rw [en] at hR
      exact hR
  | leafSome ps lb uk uv hlen hne hsort hlb hlbu hub =>
    simp only [BTree.used_mk] at hfull
    obtain ⟨pm, psR, hps⟩ := bt_split_at 19 ps (by omega)
    obtain ⟨psL, hpsL⟩ : ∃ l, ps.take 19 = l := ⟨_, rfl⟩
    rw [hpsL] at hps
    have hLlen : psL.length = 19 := by
      rw [← hpsL, List.length_take]; omega
    have hRlen : psR.length = 19 := by
      have := congrArg List.length hps
      simp at this; omega
    rw [hps] at hsort hlb hub hfull ⊢
    obtain ⟨hsortL, hsortR', hcross⟩ := List.pairwise_append.mp hsort
    obtain ⟨hpmR, hsortR⟩ := List.pairwise_cons.mp hsortR'
    refine ⟨psL.map Prod.fst, psR.map Prod.fst, pm.1,
      psL.map leafSlot ++ [leafSlot pm],
      psR.map leafSlot ++ [some (.TreeLeaf uv)], pm.2,
      psL ++ [(pm.1, pm.2)], psR ++ [(uk, uv)], ?_, ?_, by simp [hLlen],
      by simp [hRlen], by simp [hLlen], by simp [hRlen], by simp,
      hlb pm (by simp), hub pm (by simp), ?_, ?_⟩
    · rw [BTree.keys_mk, hfull, someFst_eq_map]
      simp
    · rw [BTree.nodes_mk, hfull]
      simp [List.append_assoc]
    · have hL := BInv.leafSome psL lb pm.1 pm.2 (by omega)
        (List.length_pos.mp (by omega)) hsortL
        (fun p hp => hlb p (by simp [hp]))
        (hlb pm (by simp))
        (fun p hp => hcross p hp pm (by simp))
      rw [hLlen, show (39 : Nat) - 19 = 20 from by norm_num,
        someFst_eq_map] at hL
      have en : psL.map leafSlot ++ some (.TreeLeaf pm.2)
            :: List.replicate 20 none
          = (psL.map leafSlot ++ [leafSlot pm]) ++ List.replicate 20 none :=
        by simp [leafSlot]
      rw [en] at hL
      exact hL
    · have hR := BInv.leafSome psR (some pm.1) uk uv (by omega)
        (List.length_pos.mp (by omega)) hsortR
        (fun p hp => hpmR p hp)
        (hub pm (by simp))
        (fun p hp => hub p (by simp [hp]))
      rw [hRlen, show (39 : Nat) - 19 = 20 from by norm_num,
        someFst_eq_map] at hR
      have en : psR.map leafSlot ++ some (.TreeLeaf uv)
            :: List.replicate 20 none
          = (psR.map leafSlot ++ [some (.TreeLeaf uv)])
            ++ List.replicate 20 none := by
        simp
      rw [en] at hR
      exact hR
  | leafStale ps lb uk uv w hlen hsort hlb hlbu hub =>
    simp only [BTree.used_mk] at hfull
    obtain ⟨pm, psR, hps⟩ := bt_split_at 19 ps (by omega)
    obtain ⟨psL, hpsL⟩ : ∃ l, ps.take 19 = l := ⟨_, rfl⟩
    rw [hpsL] at hps
    have hLlen : psL.length = 19 := by
      rw [← hpsL, List.length_take]; omega
    have hRlen : psR.length = 18 := by
      have := congrArg List.length hps
      simp at this; omega
    rw [hps] at hsort hlb hub hfull ⊢
    obtain ⟨hsortL, hsortR', hcross⟩ := List.pairwise_append.mp hsort
    obtain ⟨hpmR, hsortR⟩ := List.pairwise_cons.mp hsortR'
    refine ⟨psL.map Prod.fst, psR.map Prod.fst ++ [uk], pm.1,
      psL.map leafSlot ++ [leafSlot pm],
      (psR ++ [(uk, uv)]).map leafSlot ++ [some (.TreeLeaf w)], pm.2,
      psL ++ [(pm.1, pm.2)], psR ++ [(uk, uv)], ?_, ?_, by simp [hLlen],
      by simp [hRlen], by simp [hLlen], by simp [hRlen], by simp,
      hlb pm (by simp), hub pm (by simp), ?_, ?_⟩
    · rw [BTree.keys_mk, hfull, someFst_eq_map]
      simp
    · rw [BTree.nodes_mk, hfull]
      simp [List.append_assoc]
    · have hL := BInv.leafSome psL lb pm.1 pm.2 (by omega)
        (List.length_pos.mp (by omega)) hsortL
        (fun p hp => hlb p (by simp [hp]))
        (hlb pm (by simp))
        (fun p hp => hcross p hp pm (by simp))
      rw [hLlen, show (39 : Nat) - 19 = 20 from by norm_num,
        someFst_eq_map] at hL
      have en : psL.map leafSlot ++ some (.TreeLeaf pm.2)
            :: List.replicate 20 none
          = (psL.map leafSlot ++ [leafSlot pm]) ++ List.replicate 20 none :=
        by simp [leafSlot]
      rw [en] at hL
      exact hL
    · have hR := BInv.leafStale psR (some pm.1) uk uv w (by omega) hsortR
        (fun p hp => hpmR p hp)
        (hub pm (by simp))
        (fun p hp => hub p (by simp [hp]))
      rw [hRlen, show (18 : Nat) + 1 = 19 from by norm_num,
        show (39 : Nat) - 19 = 20 from by norm_num] at hR
      have ek : (psR ++ [(uk, uv)]).map someFst
          = (psR.map Prod.fst ++ [uk]).map some := by
        rw [someFst_eq_map]
        simp
      have en : (psR ++ [(uk, uv)]).map leafSlot ++ some (.TreeLeaf w)
            :: List.replicate 20 none
          = ((psR ++ [(uk, uv)]).map leafSlot ++ [some (.TreeLeaf w)])
            ++ List.replicate 20 none := by
        simp
      rw [ek, en] at hR
      exact hR
  | internal ks cs lb ub es h hne hlen hch =>
    simp only [BTree.used_mk] at hfull
    obtain ⟨m₀, ksR, hks⟩ := bt_split_at 19 ks (by omega)
    obtain ⟨ksL, hksL⟩ : ∃ l, ks.take 19 = l := ⟨_, rfl⟩
    rw [hksL] at hks
    have hLlen : ksL.length = 19 := by
      rw [← hksL, List.length_take]; omega
    have hRlen : ksR.length = 19 := by
      have := congrArg List.length hks
      simp at this; omega
    have hcs40 : cs.length = 40 := by
      rw [Chain_length ks cs lb ub esc h hch]; omega
    rw [hks] at hch hfull ⊢
    obtain ⟨cs₁, cs₂, v, es₁, es₂, hcs, hcs1len, hes, chL, chR, hlbm,
      hubm⟩ := BChain_split_joint ksL m₀ ksR cs lb ub esc h hch
    have hcs2len : cs₂.length = 20 := by
      have := congrArg List.length hcs
      rw [hcs40] at this
      simp at this
      omega
    refine ⟨ksL, ksR, m₀, cs₁.map childSlot, cs₂.map childSlot, v, es₁, es₂,
      ?_, ?_, hLlen, hRlen, by simp [hcs1len, hLlen], by simp [hcs2len],
      hes, hlbm, hubm, ?_, ?_⟩
    · rw [BTree.keys_mk, hfull]
      simp
    · rw [BTree.nodes_mk, hfull, hcs]
      simp
    · have hL := BInv.internal ksL cs₁ lb (some (m₀, v)) es₁ h
        (List.length_pos.mp (by omega)) (by omega) chL
      rw [hLlen, show (39 : Nat) - 19 = 20 from by norm_num] at hL
      exact hL
    · have hR := BInv.internal ksR cs₂ (some m₀) ub es₂ h
        (List.length_pos.mp (by omega)) (by omega) chR
      rw [hRlen, show (39 : Nat) - 19 = 20 from by norm_num] at hR
      exact hR

/-- `insert_non_full` on a non-empty leaf storing the sorted explicit
entries `E`, inserting a key that is not explicitly present: the entries
become `insertEntry E key value`, the slot tail directly after the entries
shifts one place right, and the call returns `true`. -/
theorem leaf_insert_new_entries [LinearOrder K] (fuel : Nat) (key : K)
    (value : V) (E : List (K × V)) (T₀ : Option (TreeItem K V))
    (Trest : List (Option (TreeItem K V)))
    (hsort : List.Pairwise (fun a b : K × V => a.1 < b.1) E)
    (hnot : key ∉ E.map Prod.fst)
    (hne : E ≠ []) (hu : E.length ≤ 38) :
    insert_non_fullF (fuel + 1)
      (BTree.mk E.length
        (E.map someFst ++ List.replicate (39 - E.length) none)
        (E.map leafSlot ++ T₀ :: none :: Trest)) key value
    = some (BTree.mk (E.length + 1)
        ((insertEntry E key value).map someFst
          ++ List.replicate (38 - E.length) none)
        ((insertEntry E key value).map leafSlot ++ T₀ :: Trest), true) := by
  have hj : firstGE key (E.map Prod.fst) ≤ E.length := by
    have := firstGE_le_length key (E.map Prod.fst)
    simpa using this
  obtain ⟨ps₁, hE1⟩ : ∃ l, E.take (firstGE key (E.map Prod.fst)) = l :=
    ⟨_, rfl⟩
  obtain ⟨ps₂, hE2⟩ : ∃ l, E.drop (firstGE key (E.map Prod.fst)) = l :=
    ⟨_, rfl⟩
  have hE : E = ps₁ ++ ps₂ := by
    rw [← hE1, ← hE2, List.take_append_drop]
  have hlen1 : ps₁.length = firstGE key (E.map Prod.fst) := by
    rw [← hE1, List.length_take]; omega
  have hlt : ∀ p ∈ ps₁, p.1 < key := by
    intro p hp
    refine firstGE_take_lt key (E.map Prod.fst) p.1 ?_
    rw [← List.map_take, hE1]
    exact List.mem_map_of_mem Prod.fst hp
  have hgt : ∀ p : K × V, ps₂.head? = some p → key < p.1 := by
    intro p hp
    cases hps2 : ps₂ with
    | nil => rw [hps2] at hp; simp at hp
    | cons q t =>
      rw [hps2] at hp
      simp only [List.head?_cons, Option.some_inj] at hp
      subst p
      have hmem : q ∈ E := by rw [hE, hps2]; simp
      have hjlt : firstGE key (E.map Prod.fst)
          < (E.map Prod.fst).length := by
        rw [← hlen1, hE, hps2]
        simp only [List.length_append, List.length_cons, List.length_map]
        omega
      have hget : (E.map Prod.fst).get? (firstGE key (E.map Prod.fst))
          = some q.1 := by
        conv_lhs => rw [← hlen1, hE, hps2]
        rw [List.map_append, List.get?_append_right (by simp)]
        simp
      have hle := firstGE_get key (E.map Prod.fst) hjlt q.1 hget
      have hnekey : key ≠ q.1 := by
        intro hk
        exact hnot (hk ▸ List.mem_map_of_mem Prod.fst hmem)
      exact lt_of_le_of_ne hle hnekey
  rw [hE, insertEntry_middle key value ps₁ ps₂ hlt hgt]
  refine leaf_insert_new fuel key value ps₁ ps₂ T₀ Trest ?_ ?_ ?_ ?_
  · rw [← hE, hlen1]
  · intro p hp hk
    cases hps2 : ps₂ with
    | nil => rw [hps2] at hp; simp at hp
    | cons q t =>
      rw [hps2] at hp
      simp only [List.head?_cons, Option.some_inj] at hp
      subst p
      refine hnot ?_
      rw [← hk, hE, hps2]
      exact List.mem_map_of_mem Prod.fst (by simp)
  · rw [← hE]; exact hne
  · rw [← hE]; exact hu

/-- `insert_non_full` on a leaf storing the sorted explicit entries `E`,
re-inserting a key that is explicitly present: the stored value is
replaced in place and the call returns `false`. -/
theorem leaf_insert_update_entries [LinearOrder K] (fuel : Nat) (key : K)
    (value : V) (E : List (K × V)) (T : List (Option (TreeItem K V)))
    (hsort : List.Pairwise (fun a b : K × V => a.1 < b.1) E)
    (hmem : key ∈ E.map Prod.fst) :
    insert_non_fullF (fuel + 1)
      (BTree.mk E.length
        (E.map someFst ++ List.replicate (39 - E.length) none)
        (E.map leafSlot ++ T)) key value
    = some (BTree.mk E.length
        ((insertEntry E key value).map someFst
          ++ List.replicate (39 - E.length) none)
        ((insertEntry E key value).map leafSlot ++ T), false) := by
  obtain ⟨ps₁, vold, ps₂, hE, hlt, hfirst⟩ :=
    mem_sorted_decomp key E hsort hmem
  rw [hE, insertEntry_append_left key value ps₁ _ hlt,
    insertEntry_cons_eq key value _ _ rfl]
  exact leaf_insert_update fuel key value vold ps₁ ps₂ T
    (by rw [← hE]; exact hfirst)

theorem insertEntry_all_lt [LinearOrder K] (key : K) (value : V)
    (ps : List (K × V)) (hlt : ∀ p ∈ ps, p.1 < key) :
    insertEntry ps key value = ps ++ [(key, value)] := by
  have := insertEntry_append_left key value ps [] hlt
  rw [List.append_nil] at this
  rw [this, insertEntry_nil]

/-- The leaf (height-`0`) case of the `insert_non_full` contract: the
entry is merged by `insertEntry`, the bounding separator's value is
updated when its key is re-inserted, and the tree stays a well-formed
leaf. -/
theorem insert_leaf_correct [LinearOrder K] (key : K) (value : V) :
    ∀ (t : BTree K V) (lb : Option K) (ub : Option (K × V))
      (es : List (K × V)) (fuel : Nat),
    BInv t lb ub es 0 → t.used ≤ 38 → lbLt lb key → leUb ub key →
    ∃ (t' : BTree K V) (b : Bool),
      insert_non_fullF (fuel + 1) t key value = some (t', b) ∧
      BInv t' lb (updUb ub key value) (insertEntry es key value) 0 := by
  intro t lb ub es fuel hinv hused hlbk hubk
  cases hinv with
  | leafNone ps lb hlen hsort hlb =>
    simp only [BTree.used_mk] at hused
    by_cases hmem : key ∈ es.map Prod.fst
    · have happ := leaf_insert_update_entries fuel key value es
        (List.replicate (40 - es.length) none) hsort hmem
      refine ⟨_, false, happ, ?_⟩
      have hlen' : (insertEntry es key value).length = es.length :=
        insertEntry_length_mem key value es hsort hmem
      have hc := BInv.leafNone (insertEntry es key value) lb (by omega)
        (insertEntry_sorted key value es hsort) ?hb
      case hb =>
        intro p hp
        rcases insertEntry_mem_sub key value es p hp with hp | rfl
        · exact hlb p hp
        · exact hlbk
      rw [hlen'] at hc
      exact hc
    · by_cases hnil : es = []
      · subst hnil
        have e40 : List.replicate ((40 : Nat) - 0)
            (none : Option (TreeItem K V))
            = none :: List.replicate 39 none := by
          rw [show (40 : Nat) - 0 = 39 + 1 from by norm_num]
          rfl
        rw [show ([] : List (K × V)).length = 0 from rfl]
        rw [e40]
        have happ := leaf_insert_empty (K := K) (V := V) fuel key value none
          (List.replicate 39 none)
        refine ⟨_, true, by simpa using happ, ?_⟩
        have hc := BInv.leafNone [(key, value)] lb (by norm_num)
          (by simp) (by simpa using hlbk)
        have e39 : (39 : Nat) - [(key, value)].length = 38 := by simp
        have e40' : (40 : Nat) - [(key, value)].length = 39 := by simp
        rw [e39, e40'] at hc
        simpa using hc
      · have e40 : List.replicate (40 - es.length)
            (none : Option (TreeItem K V))
            = none :: none :: List.replicate (38 - es.length) none := by
          rw [show 40 - es.length = (38 - es.length) + 2 from by omega]
          rfl
        rw [e40]
        have happ := leaf_insert_new_entries fuel key value es none
          (List.replicate (38 - es.length) none) hsort hmem hnil hused
        refine ⟨_, true, happ, ?_⟩
        have hlen' : (insertEntry es key value).length = es.length + 1 :=
          insertEntry_length_notmem key value es hmem
        have hc := BInv.leafNone (insertEntry es key value) lb (by omega)
          (insertEntry_sorted key value es hsort) ?hb
        case hb =>
          intro p hp
          rcases insertEntry_mem_sub key value es p hp with hp | rfl
          · exact hlb p hp
          · exact hlbk
        rw [hlen', show 39 - (es.length + 1) = 38 - es.length from by omega,
          show 40 - (es.length + 1) = (38 - es.length) + 1 from by omega,
          List.replicate_succ] at hc
        exact hc
  | leafSome ps lb uk uv hlen hne hsort hlb hlbu hub =>
    simp only [BTree.used_mk] at hused
    by_cases hkuk : key = uk
    · subst hkuk
      have hnot : key ∉ ps.map Prod.fst := by
        intro hmem
        rcases List.mem_map.mp hmem with ⟨p, hp, hpk⟩
        exact absurd (hpk ▸ hub p hp) (lt_irrefl key)
      have etail : List.replicate (39 - ps.length)
          (none : Option (TreeItem K V))
          = none :: List.replicate (38 - ps.length) none := by
        rw [show 39 - ps.length = (38 - ps.length) + 1 from by omega]
        rfl
      rw [etail]
      have happ := leaf_insert_new_entries fuel key value ps
        (some (.TreeLeaf uv)) (List.replicate (38 - ps.length) none)
        hsort hnot hne hused
      refine ⟨_, true, happ, ?_⟩
      have hins : insertEntry ps key value = ps ++ [(key, value)] :=
        insertEntry_all_lt key value ps hub
      have hes : insertEntry (ps ++ [(key, uv)]) key value
          = ps ++ [(key, value)] := insertEntry_snoc_eq key value uv ps hub
      rw [hins, hes, updUb_some, if_pos rfl]
      have hc := BInv.leafStale ps lb key value uv (by omega) hsort hlb
        hlbk hub
      rw [show 39 - (ps.length + 1) = 38 - ps.length from by omega] at hc
      have el : (ps ++ [(key, value)]).length = ps.length + 1 := by simp
      rw [← el] at hc
      simpa using hc
    · have hklt : key < uk := lt_of_le_of_ne hubk hkuk
      have hub' : updUb (some (uk, uv)) key value = some (uk, uv) :=
        updUb_of_ne _ key value
          (fun q hq => by cases hq; exact fun hqe => hkuk hqe.symm)
      by_cases hmem : key ∈ ps.map Prod.fst
      · have happ := leaf_insert_update_entries fuel key value ps
          (some (.TreeLeaf uv) :: List.replicate (39 - ps.length) none)
          hsort hmem
        refine ⟨_, false, happ, ?_⟩
        have hlen' : (insertEntry ps key value).length = ps.length :=
          insertEntry_length_mem key value ps hsort hmem
        rw [hub', insertEntry_snoc_lt key uk value uv hklt ps]
        have hc := BInv.leafSome (insertEntry ps key value) lb uk uv
          (by omega) (List.length_pos.mp (by
            rw [hlen']
            exact List.length_pos.mpr hne))
          (insertEntry_sorted key value ps hsort) ?hb ?hbu ?hbub
        case hb =>
          intro p hp
          rcases insertEntry_mem_sub key value ps p hp with hp | rfl
          · exact hlb p hp
          · exact hlbk
        case hbu => exact hlbu
        case hbub =>
          intro p hp
          rcases insertEntry_mem_sub key value ps p hp with hp | rfl
          · exact hub p hp
          · exact hklt
        rw [hlen'] at hc
        exact hc
      · have etail : List.replicate (39 - ps.length)
            (none : Option (TreeItem K V))
            = none :: List.replicate (38 - ps.length) none := by
          rw [show 39 - ps.length = (38 - ps.length) + 1 from by omega]
          rfl
        rw [etail]
        have happ := leaf_insert_new_entries fuel key value ps
          (some (.TreeLeaf uv)) (List.replicate (38 - ps.length) none)
          hsort hmem hne hused
        refine ⟨_, true, happ, ?_⟩
        have hlen' : (insertEntry ps key value).length = ps.length + 1 :=
          insertEntry_length_notmem key value ps hmem
        rw [hub', insertEntry_snoc_lt key uk value uv hklt ps]
        have hc := BInv.leafSome (insertEntry ps key value) lb uk uv
          (by omega) (List.length_pos.mp (by omega))
          (insertEntry_sorted key value ps hsort) ?hb ?hbu ?hbub
        case hb =>
          intro p hp
          rcases insertEntry_mem_sub key value ps p hp with hp | rfl
          · exact hlb p hp
          · exact hlbk
        case hbu => exact hlbu
        case hbub =>
          intro p hp
          rcases insertEntry_mem_sub key value ps p hp with hp | rfl
          · exact hub p hp
          · exact hklt
        rw [hlen', show 39 - (ps.length + 1) = 38 - ps.length from by
          omega] at hc
        exact hc
  | leafStale ps lb uk uv w hlen hsort hlb hlbu hub =>
    simp only [BTree.used_mk] at hused
    have hsortE : List.Pairwise (fun a b : K × V => a.1 < b.1)
        (ps ++ [(uk, uv)]) := by
      refine List.pairwise_append.mpr ⟨hsort, by simp, ?_⟩
      intro a ha b hb
      rcases List.mem_singleton.mp hb with rfl
      exact hub a ha
    have hElen : (ps ++ [(uk, uv)]).length = ps.length + 1 := by simp
    rw [← hElen]
    by_cases hkuk : key = uk
    · subst hkuk
      have hmemE : key ∈ (ps ++ [(key, uv)]).map Prod.fst := by simp
      have happ := leaf_insert_update_entries fuel key value
        (ps ++ [(key, uv)])
        (some (.TreeLeaf w)
          :: List.replicate (39 - (ps ++ [(key, uv)]).length) none)
        hsortE hmemE
      refine ⟨_, false, happ, ?_⟩
      have hes : insertEntry (ps ++ [(key, uv)]) key value
          = ps ++ [(key, value)] := insertEntry_snoc_eq key value uv ps hub
      rw [hes, updUb_some, if_pos rfl]
      have hc := BInv.leafStale ps lb key value w (by omega) hsort hlb
        hlbk hub
      rw [← hElen] at hc
      exact hc
    · have hklt : key < uk := lt_of_le_of_ne hubk hkuk
      have hub' : updUb (some (uk, uv)) key value = some (uk, uv) :=
        updUb_of_ne _ key value
          (fun q hq => by cases hq; exact fun hqe => hkuk hqe.symm)
      by_cases hmem : key ∈ ps.map Prod.fst
      · have hmemE : key ∈ ((ps ++ [(uk, uv)]).map Prod.fst) := by
          simp only [List.map_append, List.mem_append]
          left
          exact hmem
        have happ := leaf_insert_update_entries fuel key value
          (ps ++ [(uk, uv)])
          (some (.TreeLeaf w)
            :: List.replicate (39 - (ps ++ [(uk, uv)]).length) none)
          hsortE hmemE
        refine ⟨_, false, happ, ?_⟩
        have hlen' : (insertEntry ps key value).length = ps.length :=
          insertEntry_length_mem key value ps hsort hmem
        rw [hub', insertEntry_snoc_lt key uk value uv hklt ps]
        have hc := BInv.leafStale (insertEntry ps key value) lb uk uv w
          (by omega) (insertEntry_sorted key value ps hsort) ?hb ?hbu ?hbub
        case hb =>
          intro p hp
          rcases insertEntry_mem_sub key value ps p hp with hp | rfl
          · exact hlb p hp
          · exact hlbk
        case hbu => exact hlbu
        case hbub =>
          intro p hp
          rcases insertEntry_mem_sub key value ps p hp with hp | rfl
          · exact hub p hp
          · exact hklt
        rw [show (insertEntry ps key value).length + 1
            = (ps ++ [(uk, uv)]).length from by rw [hlen', hElen]] at hc
        exact hc
      · have hnotE : key ∉ ((ps ++ [(uk, uv)]).map Prod.fst) := by
          simp only [List.map_append, List.mem_append]
          rintro (h | h)
          · exact hmem h
          · simp at h
            exact hkuk h
        have husedE : (ps ++ [(uk, uv)]).length ≤ 38 := by
          rw [hElen]; omega
        have etail : List.replicate (39 - (ps ++ [(uk, uv)]).length)
            (none : Option (TreeItem K V))
            = none
              :: List.replicate (38 - (ps ++ [(uk, uv)]).length) none := by
          rw [show 39 - (ps ++ [(uk, uv)]).length
            = (38 - (ps ++ [(uk, uv)]).length) + 1 from by omega]
          rfl
        rw [etail]
        have happ := leaf_insert_new_entries fuel key value
          (ps ++ [(uk, uv)]) (some (.TreeLeaf w))
          (List.replicate (38 - (ps ++ [(uk, uv)]).length) none)
          hsortE hnotE (by simp) husedE
        refine ⟨_, true, happ, ?_⟩
        have hlen' : (insertEntry ps key value).length = ps.length + 1 :=
          insertEntry_length_notmem key value ps hmem
        rw [hub', insertEntry_snoc_lt key uk value uv hklt ps]
        have hc := BInv.leafStale (insertEntry ps key value) lb uk uv w
          (by omega) (insertEntry_sorted key value ps hsort) ?hb ?hbu ?hbub
        case hb =>
          intro p hp
          rcases insertEntry_mem_sub key value ps p hp with hp | rfl
          · exact hlb p hp
          · exact hlbk
        case hbu => exact hlbu
        case hbub =>
          intro p hp
          rcases insertEntry_mem_sub key value ps p hp with hp | rfl
          · exact hub p hp
          · exact hklt
        rw [show (insertEntry ps key value).length + 1
            = (ps ++ [(uk, uv)]).length + 1 from by rw [hlen', hElen],
          show 39 - ((ps ++ [(uk, uv)]).length + 1)
            = 38 - (ps ++ [(uk, uv)]).length from by omega] at hc
        exact hc

/-- The internal-node step of the `insert_non_full` contract, assuming the
contract for the children's height. -/
theorem insert_internal_step [LinearOrder K] (key : K) (value : V) (h : Nat)
    (IH : ∀ (t : BTree K V) (lb : Option K) (ub : Option (K × V))
      (es : List (K × V)) (fuel : Nat),
      BInv t lb ub es h → h < fuel → t.used ≤ 38 →
      lbLt lb key → leUb ub key →
      ∃ (t' : BTree K V) (b : Bool),
        insert_non_fullF fuel t key value = some (t', b) ∧
        BInv t' lb (updUb ub key value) (insertEntry es key value) h) :
    ∀ (t : BTree K V) (lb : Option K) (ub : Option (K × V))
      (es : List (K × V)) (fuel : Nat),
    BInv t lb ub es (h + 1) → h + 1 < fuel → t.used ≤ 38 →
    lbLt lb key → leUb ub key →
    ∃ (t' : BTree K V) (b : Bool),
      insert_non_fullF fuel t key value = some (t', b) ∧
      BInv t' lb (updUb ub key value) (insertEntry es key value) (h + 1) := by
  intro t lb ub es fuel hinv hfuel hused hlbk hubk
  obtain ⟨f, rfl⟩ : ∃ f', fuel = f' + 1 := ⟨fuel - 1, by omega⟩
  have hf : h < f := by omega
  cases hinv with
  | internal ks cs lb ub es h hne hlen hch =>
    simp only [BTree.used_mk] at hused
    by_cases hjlt : firstGE key ks < ks.length
    · -- descend into a child that is not the last one
      obtain ⟨kj, l₂, hks⟩ := bt_split_at (firstGE key ks) ks hjlt
      obtain ⟨A, hA⟩ : ∃ l, ks.take (firstGE key ks) = l := ⟨_, rfl⟩
      rw [hA] at hks
      have hAlen : A.length = firstGE key ks := by
        rw [← hA, List.length_take]; omega
      have hAlt : ∀ x ∈ A, x < key := by
        intro x hx
        exact firstGE_take_lt key ks x (by rw [hA]; exact hx)
      have hkj : key ≤ kj := by
        refine firstGE_get key ks hjlt kj ?_
        rw [← hAlen]
        conv_lhs => rw [hks]
        rw [List.get?_append_right (le_refl A.length)]
        simp
      rw [hks] at hch
      obtain ⟨cs₁, cs₂, lbMid, es₁, es₂, hcs, hcs1len, hes, hseg, hch₂⟩ :=
        BChain_split A (kj :: l₂) cs lb ub es h hch
      cases hch₂ with
      | cons kj' vj c l₂' cs₂' lbMid' ub' esc es₂' h' hlk huk hc htail =>
        have hlbMidkey : lbLt lbMid key := BSeg_lbEnd_lt key hseg hlbk hAlt
        have hub_node_ne : updUb ub key value = ub := by
          refine updUb_of_ne ub key value ?_
          intro q hq
          rw [hq] at huk
          exact ne_of_gt (lt_of_le_of_lt hkj huk)
        have hesleft : ∀ p ∈ es₁, p.1 < key := BSeg_es_lt key hseg hAlt
        have heskey : insertEntry es key value
            = es₁ ++ (insertEntry esc key value ++ es₂') := by
          rw [hes, insertEntry_append_left key value es₁ _ hesleft]
          congr 1
          refine insertEntry_prefix key value esc es₂' ?_
          obtain ⟨es₀, he⟩ := BInv_ub_last h c lbMid kj vj esc hc
          exact ⟨(kj, vj), by rw [he]; simp, hkj⟩
        have hLen2 : ks.length = A.length + (kj :: l₂).length := by
          rw [hks, List.length_append]
        by_cases hcf : c.used = 39
        · -- the selected child is full: split it first
          obtain ⟨cksL, cksR, m, cnsL, cnsR, vm, escL, escR, hck, hcn, hkL,
            hkR, hnL, hnR, hescd, hlbm, hubm, hL, hR⟩ :=
            BInv_split_full h c lbMid (some (kj, vj)) esc hc hcf
          have hmkj : m < kj := hubm
          by_cases hkm : key > m
          · -- descend into the new right half
            obtain ⟨R', b, hrecR, hR'⟩ := IH
              (BTree.mk 19 (cksR.map some ++ List.replicate 20 none)
                (cnsR ++ List.replicate 20 none))
              (some m) (some (kj, vj)) escR f hR hf (by simp)
              (by exact hkm) (by exact hkj)
            rw [updUb_some] at hR'
            have happ := internal_insert_split_right f key value A (kj :: l₂)
              cs₁ cs₂' c R' b cksL cksR m cnsL cnsR
              (by simp)
              (by rw [← hks, hAlen])
              hcs1len
              (by rw [Chain_length l₂ cs₂' (some kj) ub es₂' h htail]; simp)
              hcf hck hcn hkL hkR hnL hnR
              (by omega)
              hkm hrecR
            rw [← List.length_append, ← hks, ← hcs] at happ
            refine ⟨_, b, happ, ?_⟩
            rw [hub_node_ne, heskey]
            have hescR : insertEntry esc key value
                = escL ++ insertEntry escR key value := by
              rw [hescd]
              refine insertEntry_append_left key value escL escR ?_
              intro p hp
              exact lt_of_le_of_lt
                ((BInv_bounds h _ lbMid (some (m, vm)) escL hL).1 p hp).2 hkm
            rw [hescR]
            have hchR : BChain (kj :: l₂) (R' :: cs₂') (some m) ub
                (insertEntry escR key value ++ es₂') h :=
              BChain.cons kj _ R' l₂ cs₂' (some m) ub
                (insertEntry escR key value) es₂' h (by exact hmkj) huk
                hR' htail
            have hchL : BChain (m :: kj :: l₂)
                (BTree.mk 19 (cksL.map some ++ List.replicate 20 none)
                  (cnsL ++ List.replicate 20 none) :: R' :: cs₂')
                lbMid ub
                (escL ++ (insertEntry escR key value ++ es₂')) h :=
              BChain.cons m vm _ (kj :: l₂) (R' :: cs₂') lbMid ub escL
                (insertEntry escR key value ++ es₂') h hlbm
                (ltUb_of_le (le_of_lt hmkj) huk) hL hchR
            have hchain := BSeg_glue A cs₁ lb lbMid ub es₁ h hseg
              (m :: kj :: l₂) _ _ hchL
            have hfinal := BInv.internal (A ++ m :: kj :: l₂) _ lb ub _ h
              (by simp)
              (by simp only [List.length_append, List.length_cons]
                    at hLen2 ⊢
                  omega)
              hchain
            rw [show (A ++ m :: kj :: l₂).length = ks.length + 1 from by
                  simp only [List.length_append, List.length_cons]
                    at hLen2 ⊢
                  omega,
              show 39 - (ks.length + 1) = 38 - ks.length from by omega,
              ← List.append_assoc escL (insertEntry escR key value) es₂']
              at hfinal
            exact hfinal
          · -- descend into the left half
            obtain ⟨L', b, hrecL, hL'⟩ := IH
              (BTree.mk 19 (cksL.map some ++ List.replicate 20 none)
                (cnsL ++ List.replicate 20 none))
              lbMid (some (m, vm)) escL f hL hf (by simp)
              hlbMidkey (by exact not_lt.mp hkm)
            rw [updUb_some] at hL'
            have happ := internal_insert_split_left f key value A (kj :: l₂)
              cs₁ cs₂' c L' b cksL cksR m cnsL cnsR
              (by simp)
              (by rw [← hks, hAlen])
              hcs1len
              (by rw [Chain_length l₂ cs₂' (some kj) ub es₂' h htail]; simp)
              hcf hck hcn hkL hkR hnL hnR
              (by omega)
              hkm hrecL
            rw [← List.length_append, ← hks, ← hcs] at happ
            refine ⟨_, b, happ, ?_⟩
            rw [hub_node_ne, heskey]
            have hescL : insertEntry esc key value
                = insertEntry escL key value ++ escR := by
              rw [hescd]
              refine insertEntry_prefix key value escL escR ?_
              obtain ⟨es₀, he⟩ := BInv_ub_last h _ lbMid m vm escL hL
              exact ⟨(m, vm), by rw [he]; simp, not_lt.mp hkm⟩
            rw [hescL]
            have hchR : BChain (kj :: l₂)
                (BTree.mk 19 (cksR.map some ++ List.replicate 20 none)
                  (cnsR ++ List.replicate 20 none) :: cs₂')
                (some m) ub (escR ++ es₂') h :=
              BChain.cons kj vj _ l₂ cs₂' (some m) ub escR es₂' h
                (by exact hmkj) huk hR htail
            have hchL : BChain (m :: kj :: l₂)
                (L' :: BTree.mk 19
                    (cksR.map some ++ List.replicate 20 none)
                    (cnsR ++ List.replicate 20 none) :: cs₂')
                lbMid ub
                (insertEntry escL key value ++ (escR ++ es₂')) h :=
              BChain.cons m _ L' (kj :: l₂) _ lbMid ub
                (insertEntry escL key value) (escR ++ es₂') h hlbm
                (ltUb_of_le (le_of_lt hmkj) huk) hL' hchR
            have hchain := BSeg_glue A cs₁ lb lbMid ub es₁ h hseg
              (m :: kj :: l₂) _ _ hchL
            have hfinal := BInv.internal (A ++ m :: kj :: l₂) _ lb ub _ h
              (by simp)
              (by simp only [List.length_append, List.length_cons]
                    at hLen2 ⊢
                  omega)
              hchain
            rw [show (A ++ m :: kj :: l₂).length = ks.length + 1 from by
                  simp only [List.length_append, List.length_cons]
                    at hLen2 ⊢
                  omega,
              show 39 - (ks.length + 1) = 38 - ks.length from by omega,
              ← List.append_assoc (insertEntry escL key value) escR es₂']
              at hfinal
            exact hfinal
        · -- the selected child is not full: insert into it in place
          have hcused : c.used ≤ 38 := by
            have := BInv_used hc
            omega
          obtain ⟨c', b, hrec, hc'⟩ := IH c lbMid (some (kj, vj)) esc f hc
            hf hcused hlbMidkey (by exact hkj)
          rw [updUb_some] at hc'
          have happ := internal_insert_nosplit f key value ks cs₁ cs₂' c c'
            b hne (by rw [hcs1len, hAlen]) hcf hrec
          rw [← hcs] at happ
          refine ⟨_, b, happ, ?_⟩
          rw [hub_node_ne, heskey]
          have hchain := BSeg_glue A cs₁ lb lbMid ub es₁ h hseg
            (kj :: l₂) (c' :: cs₂') _
            (BChain.cons kj _ c' l₂ cs₂' lbMid ub
              (insertEntry esc key value) es₂' h hlk huk hc' htail)
          have hfinal := BInv.internal (A ++ kj :: l₂) _ lb ub _ h
            (by simp) (by rw [← hks]; exact hlen) hchain
          rw [← hks] at hfinal
          exact hfinal
    · -- descend into the last child
      have hjeq : firstGE key ks = ks.length := by
        have := firstGE_le_length key ks
        omega
      have hksall : ∀ x ∈ ks, x < key := by
        intro x hx
        refine firstGE_take_lt key ks x ?_
        rw [hjeq, List.take_length]
        exact hx
      have hch' : BChain (ks ++ []) cs lb ub es h := by
        rw [List.append_nil]
        exact hch
      obtain ⟨cs₁, cs₂, lbMid, es₁, es₂, hcs, hcs1len, hes, hseg, hch₂⟩ :=
        BChain_split ks [] cs lb ub es h hch'
      cases hch₂ with
      | last c lbMid' ub' es₂' h' hc =>
        have hlbMidkey : lbLt lbMid key := BSeg_lbEnd_lt key hseg hlbk hksall
        have hesleft : ∀ p ∈ es₁, p.1 < key := BSeg_es_lt key hseg hksall
        have heskey : insertEntry es key value
            = es₁ ++ insertEntry es₂ key value := by
          rw [hes]
          exact insertEntry_append_left key value es₁ es₂ hesleft
        by_cases hcf : c.used = 39
        · -- the last child is full: split it first
          obtain ⟨cksL, cksR, m, cnsL, cnsR, vm, escL, escR, hck, hcn, hkL,
            hkR, hnL, hnR, hescd, hlbm, hubm, hL, hR⟩ :=
            BInv_split_full h c lbMid ub es₂ hc hcf
          by_cases hkm : key > m
          · -- descend into the new right half
            obtain ⟨R', b, hrecR, hR'⟩ := IH
              (BTree.mk 19 (cksR.map some ++ List.replicate 20 none)
                (cnsR ++ List.replicate 20 none))
              (some m) ub escR f hR hf (by simp)
              (by exact hkm) hubk
            have happ := internal_insert_split_right f key value ks []
              cs₁ [] c R' b cksL cksR m cnsL cnsR
              (by simpa using hne)
              (by rw [List.append_nil, hjeq])
              hcs1len
              rfl
              hcf hck hcn hkL hkR hnL hnR
              (by simpa using hused)
              hkm hrecR
            simp only [List.append_nil, List.length_nil, Nat.add_zero]
              at happ
            rw [← hcs] at happ
            refine ⟨_, b, happ, ?_⟩
            rw [heskey]
            have hescR : insertEntry es₂ key value
                = escL ++ insertEntry escR key value := by
              rw [hescd]
              refine insertEntry_append_left key value escL escR ?_
              intro p hp
              exact lt_of_le_of_lt
                ((BInv_bounds h _ lbMid (some (m, vm)) escL hL).1 p hp).2 hkm
            rw [hescR]
            have hseg' := BSeg_updUb key value hseg
            have hchL : BChain [m]
                (BTree.mk 19 (cksL.map some ++ List.replicate 20 none)
                  (cnsL ++ List.replicate 20 none) :: [R'])
                lbMid (updUb ub key value)
                (escL ++ insertEntry escR key value) h :=
              BChain.cons m vm _ [] [R'] lbMid (updUb ub key value) escL
                (insertEntry escR key value) h hlbm
                ((ltUb_updUb ub key value m).mpr hubm) hL
                (BChain.last R' (some m) (updUb ub key value) _ h hR')
            have hchain := BSeg_glue ks cs₁ lb lbMid (updUb ub key value)
              es₁ h hseg' [m] _ _ hchL
            have hfinal := BInv.internal (ks ++ [m]) _ lb
              (updUb ub key value) _ h (by simp)
              (by simp only [List.length_append, List.length_cons,
                    List.length_nil]
                  omega)
              hchain
            rw [show (ks ++ [m]).length = ks.length + 1 from by simp,
              show 39 - (ks.length + 1) = 38 - ks.length from by omega]
              at hfinal
            exact hfinal
          · -- descend into the left half
            obtain ⟨L', b, hrecL, hL'⟩ := IH
              (BTree.mk 19 (cksL.map some ++ List.replicate 20 none)
                (cnsL ++ List.replicate 20 none))
              lbMid (some (m, vm)) escL f hL hf (by simp)
              hlbMidkey (by exact not_lt.mp hkm)
            rw [updUb_some] at hL'
            have hub_node_ne : updUb ub key value = ub := by
              refine updUb_of_ne ub key value ?_
              intro q hq
              rw [hq] at hubm
              exact ne_of_gt (lt_of_le_of_lt (not_lt.mp hkm) hubm)
            have happ := internal_insert_split_left f key value ks []
              cs₁ [] c L' b cksL cksR m cnsL cnsR
              (by simpa using hne)
              (by rw [List.append_nil, hjeq])
              hcs1len
              rfl
              hcf hck hcn hkL hkR hnL hnR
              (by simpa using hused)
              hkm hrecL
            simp only [List.append_nil, List.length_nil, Nat.add_zero]
              at happ
            rw [← hcs] at happ
            refine ⟨_, b, happ, ?_⟩
            rw [hub_node_ne, heskey]
            have hescL : insertEntry es₂ key value
                = insertEntry escL key value ++ escR := by
              rw [hescd]
              refine insertEntry_prefix key value escL escR ?_
              obtain ⟨es₀, he⟩ := BInv_ub_last h _ lbMid m vm escL hL
              exact ⟨(m, vm), by rw [he]; simp, not_lt.mp hkm⟩
            rw [hescL]
            have hchL : BChain [m]
                (L' :: [BTree.mk 19
                  (cksR.map some ++ List.replicate 20 none)
                  (cnsR ++ List.replicate 20 none)])
                lbMid ub (insertEntry escL key value ++ escR) h :=
              BChain.cons m _ L' [] _ lbMid ub
                (insertEntry escL key value) escR h hlbm hubm hL'
                (BChain.last _ (some m) ub escR h hR)
            have hchain := BSeg_glue ks cs₁ lb lbMid ub es₁ h hseg
              [m] _ _ hchL
            have hfinal := BInv.internal (ks ++ [m]) _ lb ub _ h (by simp)
              (by simp only [List.length_append, List.length_cons,
                    List.length_nil]
                  omega)
              hchain
            rw [show (ks ++ [m]).length = ks.length + 1 from by simp,
              show 39 - (ks.length + 1) = 38 - ks.length from by omega]
              at hfinal
            exact hfinal
        · -- the last child is not full
          have hcused : c.used ≤ 38 := by
            have := BInv_used hc
            omega
          obtain ⟨c', b, hrec, hc'⟩ := IH c lbMid ub es₂ f hc hf hcused
            hlbMidkey hubk
          have happ := internal_insert_nosplit f key value ks cs₁ [] c c'
            b hne (by rw [hcs1len, hjeq]) hcf hrec
          rw [← hcs] at happ
          refine ⟨_, b, happ, ?_⟩
          rw [heskey]
          have hseg' := BSeg_updUb key value hseg
          have hchain := BSeg_glue ks cs₁ lb lbMid (updUb ub key value)
            es₁ h hseg' [] [c'] _
            (BChain.last c' lbMid (updUb ub key value) _ h hc')
          rw [List.append_nil] at hchain
          exact BInv.internal ks (cs₁ ++ [c']) lb _ _ h hne hlen hchain

/-- `insert_non_full` merges the new entry into the stored entry list,
preserves the invariant at the same height, and updates the bounding
separator's value when its key is re-inserted. -/
theorem insert_non_full_correct [LinearOrder K] (key : K) (value : V) :
    ∀ (h : Nat) (t : BTree K V) (lb : Option K) (ub : Option (K × V))
      (es : List (K × V)) (fuel : Nat),
    BInv t lb ub es h → h < fuel → t.used ≤ 38 →
    lbLt lb key → leUb ub key →
    ∃ (t' : BTree K V) (b : Bool),
      insert_non_fullF fuel t key value = some (t', b) ∧
      BInv t' lb (updUb ub key value) (insertEntry es key value) h := by
  intro h
  induction h with
  | zero =>
    intro t lb ub es fuel hinv hfuel hused hlbk hubk
    obtain ⟨f, rfl⟩ : ∃ f', fuel = f' + 1 := ⟨fuel - 1, by omega⟩
    exact insert_leaf_correct key value t lb ub es f hinv hused hlbk hubk
  | succ h ih => exact insert_internal_step key value h ih

theorem BChain_head [LinearOrder K] {ks : List K} {cs : List (BTree K V)}
    {lb : Option K} {ub : Option (K × V)} {es : List (K × V)} {h : Nat}
    (hch : BChain ks cs lb ub es h) :
    ∃ (c : BTree K V) (lb' : Option K) (ub' : Option (K × V))
      (es' : List (K × V)), c ∈ cs ∧ BInv c lb' ub' es' h := by
  cases hch with
  | last c lb ub es h hc => exact ⟨c, lb, ub, es, by simp, hc⟩
  | cons k v c ks cs lb ub es₁ es₂ h hlk huk hc htail =>
    exact ⟨c, lb, some (k, v), es₁, by simp, hc⟩

theorem sizeL_node_mem : ∀ (ns : List (Option (TreeItem K V)))
    (c : BTree K V), some (.TreeNode c) ∈ ns → sizeB c ≤ sizeL ns := by
  intro ns
  induction ns with
  | nil => intro c hc; simp at hc
  | cons s rest ih =>
    intro c hc
    rcases List.mem_cons.mp hc with rfl | hc
    · rw [sizeL]
      omega
    · have := ih c hc
      cases s with
      | none => rw [sizeL]; omega
      | some item =>
        cases item with
        | TreeLeaf v => rw [sizeL]; omega
        | TreeNode c' => rw [sizeL]; omega

/-- The height of a well-formed tree is strictly below its structural
size, so the size works as fuel for the recursive descents. -/
theorem BInv_height_lt_sizeB [LinearOrder K] :
    ∀ (h : Nat) (t : BTree K V) (lb : Option K) (ub : Option (K × V))
      (es : List (K × V)), BInv t lb ub es h → h < sizeB t := by
  intro h
  induction h with
  | zero =>
    intro t lb ub es hinv
    have := one_le_sizeB t
    omega
  | succ h ih =>
    intro t lb ub es hinv
    cases hinv with
    | internal ks cs lb ub es h hne hlen hch =>
      obtain ⟨c, lb', ub', es', hmem, hc⟩ := BChain_head hch
      have h1 : h < sizeB c := ih c lb' ub' es' hc
      have h2 : sizeB c ≤ sizeL (cs.map childSlot
          ++ List.replicate (39 - ks.length) none) := by
        refine sizeL_node_mem _ c ?_
        refine List.mem_append.mpr (Or.inl ?_)
        exact List.mem_map_of_mem childSlot hmem
      rw [sizeB]
      omega

theorem BTree.eta (t : BTree K V) : t = BTree.mk t.used t.keys t.nodes := by
  cases t with
  | mk u ks ns => rfl

/-- `BTree::insert` on a well-formed root merges the entry into the entry
list; the height grows by at most one (by exactly one when the root was
full). -/
theorem insert_root_correct [LinearOrder K] (key : K) (value : V)
    (h : Nat) (t : BTree K V) (es : List (K × V))
    (hinv : BInv t none none es h) :
    ∃ (t' : BTree K V) (b : Bool) (h' : Nat),
      t.insert key value = some (t', b) ∧
      BInv t' none none (insertEntry es key value) h' ∧ h' ≤ h + 1 := by
  by_cases hfull : t.used = 39
  · obtain ⟨cksL, cksR, m, cnsL, cnsR, vm, escL, escR, hck, hcn, hkL, hkR,
      hnL, hnR, hescd, hlbm, hubm, hL, hR⟩ :=
      BInv_split_full h t none none es hinv hfull
    have hteq : t = BTree.mk 39 ((cksL ++ m :: cksR).map some)
        (cnsL ++ cnsR) := by
      rw [BTree.eta t, hck, hcn, hfull]
    have hT : BInv (BTree.mk 1 ([m].map some ++ List.replicate 38 none)
        (([BTree.mk 19 (cksL.map some ++ List.replicate 20 none)
            (cnsL ++ List.replicate 20 none),
          BTree.mk 19 (cksR.map some ++ List.replicate 20 none)
            (cnsR ++ List.replicate 20 none)]).map childSlot
          ++ List.replicate 38 none)) none none es (h + 1) := by
      have hchain : BChain [m]
          [BTree.mk 19 (cksL.map some ++ List.replicate 20 none)
            (cnsL ++ List.replicate 20 none),
          BTree.mk 19 (cksR.map some ++ List.replicate 20 none)
            (cnsR ++ List.replicate 20 none)]
          none none (escL ++ escR) h :=
        BChain.cons m vm _ [] _ none none escL escR h trivial trivial hL
          (BChain.last _ (some m) none escR h hR)
      have hc := BInv.internal [m] _ none none (escL ++ escR) h (by simp)
        (by simp) hchain
      rw [show ([m] : List K).length = 1 from rfl,
        show (39 : Nat) - 1 = 38 from by norm_num, ← hescd] at hc
      exact hc
    obtain ⟨T, hTdef⟩ : ∃ x, BTree.mk 1
        ([m].map some ++ List.replicate 38 none)
        (([BTree.mk 19 (cksL.map some ++ List.replicate 20 none)
            (cnsL ++ List.replicate 20 none),
          BTree.mk 19 (cksR.map some ++ List.replicate 20 none)
            (cnsR ++ List.replicate 20 none)]).map childSlot
          ++ List.replicate 38 none) = x := ⟨_, rfl⟩
    rw [hTdef] at hT
    obtain ⟨t', b, heq, hinv'⟩ := insert_non_full_correct key value (h + 1)
      T none none es (sizeB T + 1) hT
      (by have := BInv_height_lt_sizeB (h + 1) T none none es hT; omega)
      (by rw [← hTdef]; simp) trivial trivial
    refine ⟨t', b, h + 1, ?_, ?_, le_refl _⟩
    · rw [hteq, insert_full_root key value cksL cksR m cnsL cnsR hkL hkR
        hnL hnR, hTdef]
      exact heq
    · simpa using hinv'
  · obtain ⟨t', b, heq, hinv'⟩ := insert_non_full_correct key value h
      t none none es (sizeB t + 1) hinv
      (by have := BInv_height_lt_sizeB h t none none es hinv; omega)
      (by have := BInv_used hinv; omega)
      trivial trivial
    refine ⟨t', b, h, ?_, ?_, by omega⟩
    · rw [insert_not_full t key value (by
        simpa [BTREE_KEYS_UBOUND, BTREE_MIN_DEGREE] using hfull)]
      exact heq
    · simpa using hinv'

theorem bt_map_const {α β : Type} (b : β) :
    ∀ (l : List α), l.map (fun _ => b) = List.replicate l.length b := by
  intro l
  induction l with
  | nil => rfl
  | cons a l ih => simp [ih, List.replicate_succ]

/-- Well-formed trees have full-width arrays: 39 key cells and 40 slots. -/
theorem BInv_array_lengths [LinearOrder K] {t : BTree K V} {lb : Option K}
    {ub : Option (K × V)} {es : List (K × V)} {h : Nat}
    (hinv : BInv t lb ub es h) :
    t.keys.length = 39 ∧ t.nodes.length = 40 := by
  cases hinv with
  | leafNone ps lb hlen hsort hlb =>
    constructor <;> simp <;> omega
  | leafSome ps lb uk uv hlen hne hsort hlb hlbu hub =>
    constructor <;> simp <;> omega
  | leafStale ps lb uk uv w hlen hsort hlb hlbu hub =>
    constructor <;> simp <;> omega
  | internal ks cs lb ub es h hne hlen hch =>
    have hcs := Chain_length ks cs lb ub es h hch
    constructor <;> simp [hcs] <;> omega

theorem BInv_new [LinearOrder K] :
    BInv (BTree.new : BTree K V) none none [] 0 :=
  BInv.leafNone [] none (by simp) (by simp) (by simp)

theorem BInv_clear [LinearOrder K] {t : BTree K V} {lb : Option K}
    {ub : Option (K × V)} {es : List (K × V)} {h : Nat}
    (hinv : BInv t lb ub es h) :
    BInv t.clear none none ([] : List (K × V)) 0 := by
  obtain ⟨hk, hn⟩ := BInv_array_lengths hinv
  rw [BTree.clear, bt_map_const, bt_map_const, hk, hn]
  exact BInv_new

/-- Every reachable tree is well-formed: it satisfies the invariant with
open bounds at some height. -/
theorem Reachable_inv [LinearOrder K] (t : BTree K V) (hr : Reachable t) :
    ∃ (es : List (K × V)) (h : Nat), BInv t none none es h := by
  obtain ⟨ops, hops⟩ := hr
  have main : ∀ (ops : List (Op K V)) (t0 : BTree K V)
      (es0 : List (K × V)) (h0 : Nat), BInv t0 none none es0 h0 →
      applyOps t0 ops = some t →
      ∃ (es : List (K × V)) (h : Nat), BInv t none none es h := by
    intro ops
    induction ops with
    | nil =>
      intro t0 es0 h0 hinv0 happ
      rw [applyOps, List.foldlM_nil] at happ
      cases happ
      exact ⟨es0, h0, hinv0⟩
    | cons op ops ih =>
      intro t0 es0 h0 hinv0 happ
      rw [applyOps, List.foldlM_cons] at happ
      cases op with
      | ins k v =>
        rw [applyOp] at happ
        obtain ⟨t1, b1, h1, heq1, hinv1, _⟩ :=
          insert_root_correct k v h0 t0 es0 hinv0
        rw [heq1] at happ
        simp only [Option.map_some', Option.bind_eq_bind,
          Option.some_bind] at happ
        exact ih t1 (insertEntry es0 k v) h1 hinv1 happ
      | clr =>
        rw [applyOp] at happ
        simp only [Option.bind_eq_bind, Option.some_bind] at happ
        exact ih t0.clear [] 0 (BInv_clear hinv0) happ
  exact main ops BTree.new [] 0 BInv_new hops

/-- The well-formed shape of a fresh leaf root. -/
theorem leafRoot_BInv [LinearOrder K] (ps : List (K × V))
    (hsort : List.Pairwise (fun a b : K × V => a.1 < b.1) ps)
    (hlen : ps.length ≤ 39) :
    BInv (leafRoot ps) none none ps 0 :=
  BInv.leafNone ps none hlen hsort (fun p _ => trivial)

/-- Building a strictly ascending list of exactly 40 entries: the 40th
insertion splits the full leaf root. The median entry's key becomes the
root separator, its value moves to the left leaf's overflow slot, and the
40th entry lands in the right leaf. -/
theorem buildT40_asc [LinearOrder K] (psL : List (K × V)) (pm q : K × V)
    (psR : List (K × V))
    (hLlen : psL.length = 19) (hRlen : psR.length = 19)
    (hsort : List.Pairwise (fun a b : K × V => a.1 < b.1)
      ((psL ++ pm :: psR) ++ [q])) :
    buildTree ((psL ++ pm :: psR) ++ [q])
      = some (BTree.mk 1 ([pm.1].map some ++ List.replicate 38 none)
          (([BTree.mk 19 ((psL.map Prod.fst).map some
                ++ List.replicate 20 none)
              ((psL.map leafSlot ++ [leafSlot pm])
                ++ List.replicate 20 none),
            BTree.mk 20 ((psR ++ [q]).map someFst
                ++ List.replicate 19 none)
              ((psR ++ [q]).map leafSlot
                ++ List.replicate 20 none)]).map childSlot
            ++ List.replicate 38 none))
    ∧ BInv (BTree.mk 1 ([pm.1].map some ++ List.replicate 38 none)
          (([BTree.mk 19 ((psL.map Prod.fst).map some
                ++ List.replicate 20 none)
              ((psL.map leafSlot ++ [leafSlot pm])
                ++ List.replicate 20 none),
            BTree.mk 20 ((psR ++ [q]).map someFst
                ++ List.replicate 19 none)
              ((psR ++ [q]).map leafSlot
                ++ List.replicate 20 none)]).map childSlot
            ++ List.replicate 38 none))
        none none ((psL ++ pm :: psR) ++ [q]) 1 := by
  obtain ⟨hsort39, hsq', hqgt⟩ := List.pairwise_append.mp hsort
  have hqgt' : ∀ p ∈ psL ++ pm :: psR, p.1 < q.1 := by
    intro p hp
    exact hqgt p hp q (by simp)
  obtain ⟨hsL, hsR', hcross⟩ := List.pairwise_append.mp hsort39
  obtain ⟨hpmR, hsR⟩ := List.pairwise_cons.mp hsR'
  have hlen39 : (psL ++ pm :: psR).length = 39 := by
    simp only [List.length_append, List.length_cons, hLlen, hRlen]
  have h39 : buildTree (psL ++ pm :: psR)
      = some (leafRoot (psL ++ pm :: psR)) :=
    buildTree_asc _ hsort39 (by omega)
  have hroot : leafRoot (psL ++ pm :: psR)
      = BTree.mk 39 ((psL.map Prod.fst ++ pm.1 :: psR.map Prod.fst).map some)
          ((psL.map leafSlot ++ [leafSlot pm])
            ++ (psR.map leafSlot ++ [none])) := by
    rw [leafRoot, hlen39, show (39 : Nat) - 39 = 0 from by norm_num,
      show (40 : Nat) - 39 = 1 from by norm_num, someFst_eq_map]
    simp [List.append_assoc]
  have hfull := insert_full_root q.1 q.2 (psL.map Prod.fst)
    (psR.map Prod.fst) pm.1 (psL.map leafSlot ++ [leafSlot pm])
    (psR.map leafSlot ++ [none]) (by simp [hLlen]) (by simp [hRlen])
    (by simp [hLlen]) (by simp [hRlen])
  obtain ⟨T, hT⟩ : ∃ x, BTree.mk 1
      ([pm.1].map some ++ List.replicate 38 none)
      (([BTree.mk 19 ((psL.map Prod.fst).map some
            ++ List.replicate 20 none)
          ((psL.map leafSlot ++ [leafSlot pm]) ++ List.replicate 20 none),
        BTree.mk 19 ((psR.map Prod.fst).map some
            ++ List.replicate 20 none)
          ((psR.map leafSlot ++ [none])
            ++ List.replicate 20 none)]).map childSlot
        ++ List.replicate 38 none) = x := ⟨_, rfl⟩
  rw [hT] at hfull
  obtain ⟨f2, hf2⟩ : ∃ f2, sizeB T = f2 + 1 :=
    ⟨sizeB T - 1, by have := one_le_sizeB T; omega⟩
  have hpmq : pm.1 < q.1 := hqgt' pm (by simp)
  have happ3 := leaf_insert_new f2 q.1 q.2 psR [] none
    (List.replicate 19 none)
    (by simp only [List.append_nil]
        exact firstGE_eq_length q.1 (psR.map Prod.fst) (by
          intro x hx
          rcases List.mem_map.mp hx with ⟨p, hp, rfl⟩
          exact hqgt' p (by simp [hp])) ▸ by simp [hRlen])
    (by intro p hp; simp at hp)
    (by simp
        intro hcon
        rw [hcon] at hRlen
        simp at hRlen)
    (by simp [hRlen])
  simp only [List.append_nil] at happ3
  rw [hRlen, show (39 : Nat) - 19 = 20 from by norm_num,
    show (38 : Nat) - 19 = 19 from by norm_num,
    show (19 : Nat) + 1 = 20 from by norm_num,
    someFst_eq_map psR] at happ3
  rw [show psR.map leafSlot ++ none :: none
        :: List.replicate 19 (none : Option (TreeItem K V))
      = (psR.map leafSlot ++ [none]) ++ List.replicate 20 none from by
    rw [List.append_assoc]
    rfl] at happ3
  simp only [Prod.mk.eta] at happ3
  rw [← hf2] at happ3
  have happ4 := internal_insert_nosplit (sizeB T) q.1 q.2 [pm.1]
    [BTree.mk 19 ((psL.map Prod.fst).map some ++ List.replicate 20 none)
      ((psL.map leafSlot ++ [leafSlot pm]) ++ List.replicate 20 none)]
    []
    (BTree.mk 19 ((psR.map Prod.fst).map some ++ List.replicate 20 none)
      ((psR.map leafSlot ++ [none]) ++ List.replicate 20 none))
    (BTree.mk 20 ((psR ++ [q]).map someFst ++ List.replicate 19 none)
      ((psR ++ [q]).map leafSlot ++ none :: List.replicate 19 none))
    true
    (by simp)
    (by simp [firstGE, not_le.mpr hpmq])
    (by simp [BTREE_KEYS_UBOUND, BTREE_MIN_DEGREE])
    happ3
  simp only [List.length_cons, List.length_nil, List.singleton_append,
    Nat.zero_add, show (39 : Nat) - 1 = 38 from by norm_num] at happ4
  rw [hT] at happ4
  have hstep40 : BTree.insert (leafRoot (psL ++ pm :: psR)) q.1 q.2
      = some (BTree.mk 1 ([pm.1].map some ++ List.replicate 38 none)
          (([BTree.mk 19 ((psL.map Prod.fst).map some
                ++ List.replicate 20 none)
              ((psL.map leafSlot ++ [leafSlot pm])
                ++ List.replicate 20 none),
            BTree.mk 20 ((psR ++ [q]).map someFst
                ++ List.replicate 19 none)
              ((psR ++ [q]).map leafSlot ++ none
                :: List.replicate 19 none)]).map childSlot
            ++ List.replicate 38 none), true) := by
    rw [hroot, hfull]
    exact happ4
  constructor
  · rw [buildTree, List.foldlM_append]
    have h39' : List.foldlM
        (fun t p => (BTree.insert t p.1 p.2).map Prod.fst) BTree.new
        (psL ++ pm :: psR) = some (leafRoot (psL ++ pm :: psR)) := by
      rw [buildTree] at h39
      exact h39
    rw [h39']
    simp only [Option.bind_eq_bind, Option.some_bind, List.foldlM_cons,
      List.foldlM_nil, hstep40, Option.map_some', Option.some_bind]
    rfl
  · have hLinv := BInv.leafSome psL none pm.1 pm.2 (by omega)
      (by intro hcon; rw [hcon] at hLlen; simp at hLlen) hsL
      (fun p _ => trivial) trivial
      (fun p hp => hcross p hp pm (by simp))
    rw [hLlen, show (39 : Nat) - 19 = 20 from by norm_num,
      someFst_eq_map psL] at hLinv
    rw [show psL.map leafSlot ++ some (.TreeLeaf pm.2)
          :: List.replicate 20 (none : Option (TreeItem K V))
        = (psL.map leafSlot ++ [leafSlot pm])
          ++ List.replicate 20 none from by
      rw [List.append_assoc]
      rfl] at hLinv
    have hRinv := BInv.leafNone (psR ++ [q]) (some pm.1)
      (by simp [hRlen])
      (by refine List.pairwise_append.mpr ⟨hsR, by simp, ?_⟩
          intro a ha b hb
          rcases List.mem_singleton.mp hb with rfl
          exact hqgt' a (by simp [ha]))
      (by intro p hp
          rcases List.mem_append.mp hp with hp | hp
          · exact hpmR p hp
          · rcases List.mem_singleton.mp hp with rfl
            exact hqgt' pm (by simp))
    rw [show (psR ++ [q]).length = 20 from by simp [hRlen],
      show (39 : Nat) - 20 = 19 from by norm_num,
      show (40 : Nat) - 20 = 20 from by norm_num] at hRinv
    have hchain := BChain.cons pm.1 pm.2 _ []
      [BTree.mk 20 ((psR ++ [q]).map someFst ++ List.replicate 19 none)
        ((psR ++ [q]).map leafSlot ++ List.replicate 20 none)]
      none none (psL ++ [(pm.1, pm.2)]) (psR ++ [q]) 0 trivial trivial
      hLinv (BChain.last _ (some pm.1) none (psR ++ [q]) 0 hRinv)
    have hfinal := BInv.internal [pm.1] _ none none _ 0 (by simp) (by simp)
      hchain
    rw [show ([pm.1] : List K).length = 1 from rfl,
      show (39 : Nat) - 1 = 38 from by norm_num] at hfinal
    rw [show (psL ++ [(pm.1, pm.2)]) ++ (psR ++ [q])
        = (psL ++ pm :: psR) ++ [q] from by simp] at hfinal
    exact hfinal

/-- Building the same 40 ascending entries in a different order: the 39
largest in descending order, then the smallest. The smallest entry lands
in the *left* leaf, which afterwards holds 20 explicit entries. -/
theorem buildT40_desc [LinearOrder K] (psL : List (K × V)) (pm q : K × V)
    (psR : List (K × V))
    (hLlen : psL.length = 19) (hRlen : psR.length = 19)
    (hsort : List.Pairwise (fun a b : K × V => a.1 < b.1)
      (q :: (psL ++ pm :: psR))) :
    buildTree ((psL ++ pm :: psR).reverse ++ [q])
      = some (BTree.mk 1 ([pm.1].map some ++ List.replicate 38 none)
          (([BTree.mk 20 ((q :: psL).map someFst
                ++ List.replicate 19 none)
              ((q :: psL).map leafSlot ++ leafSlot pm
                :: List.replicate 19 none),
            BTree.mk 19 ((psR.map Prod.fst).map some
                ++ List.replicate 20 none)
              ((psR.map leafSlot ++ [none])
                ++ List.replicate 20 none)]).map childSlot
            ++ List.replicate 38 none))
    ∧ BInv (BTree.mk 1 ([pm.1].map some ++ List.replicate 38 none)
          (([BTree.mk 20 ((q :: psL).map someFst
                ++ List.replicate 19 none)
              ((q :: psL).map leafSlot ++ leafSlot pm
                :: List.replicate 19 none),
            BTree.mk 19 ((psR.map Prod.fst).map some
                ++ List.replicate 20 none)
              ((psR.map leafSlot ++ [none])
                ++ List.replicate 20 none)]).map childSlot
            ++ List.replicate 38 none))
        none none (q :: (psL ++ pm :: psR)) 1 := by
  obtain ⟨hsq, hsort39⟩ := List.pairwise_cons.mp hsort
  obtain ⟨hsL, hsR', hcross⟩ := List.pairwise_append.mp hsort39
  obtain ⟨hpmR, hsR⟩ := List.pairwise_cons.mp hsR'
  have hlen39 : (psL ++ pm :: psR).length = 39 := by
    simp only [List.length_append, List.length_cons, hLlen, hRlen]
  have h39 : buildTree ((psL ++ pm :: psR).reverse)
      = some (leafRoot (psL ++ pm :: psR)) := by
    have := buildTree_desc ((psL ++ pm :: psR).reverse)
      (by rw [List.pairwise_reverse]; exact hsort39)
      (by simp; omega)
    rw [List.reverse_reverse] at this
    exact this
  have hroot : leafRoot (psL ++ pm :: psR)
      = BTree.mk 39 ((psL.map Prod.fst ++ pm.1 :: psR.map Prod.fst).map some)
          ((psL.map leafSlot ++ [leafSlot pm])
            ++ (psR.map leafSlot ++ [none])) := by
    rw [leafRoot, hlen39, show (39 : Nat) - 39 = 0 from by norm_num,
      show (40 : Nat) - 39 = 1 from by norm_num, someFst_eq_map]
    simp [List.append_assoc]
  have hfull := insert_full_root q.1 q.2 (psL.map Prod.fst)
    (psR.map Prod.fst) pm.1 (psL.map leafSlot ++ [leafSlot pm])
    (psR.map leafSlot ++ [none]) (by simp [hLlen]) (by simp [hRlen])
    (by simp [hLlen]) (by simp [hRlen])
  obtain ⟨T, hT⟩ : ∃ x, BTree.mk 1
      ([pm.1].map some ++ List.replicate 38 none)
      (([BTree.mk 19 ((psL.map Prod.fst).map some
            ++ List.replicate 20 none)
          ((psL.map leafSlot ++ [leafSlot pm]) ++ List.replicate 20 none),
        BTree.mk 19 ((psR.map Prod.fst).map some
            ++ List.replicate 20 none)
          ((psR.map leafSlot ++ [none])
            ++ List.replicate 20 none)]).map childSlot
        ++ List.replicate 38 none) = x := ⟨_, rfl⟩
  rw [hT] at hfull
  obtain ⟨f2, hf2⟩ : ∃ f2, sizeB T = f2 + 1 :=
    ⟨sizeB T - 1, by have := one_le_sizeB T; omega⟩
  have hqpm : q.1 < pm.1 := hsq pm (by simp)
  have happ3 := leaf_insert_new f2 q.1 q.2 [] psL (leafSlot pm)
    (List.replicate 19 none)
    (by simp only [List.nil_append]
        cases hpsL : psL with
        | nil => rw [hpsL] at hLlen; simp at hLlen
        | cons p0 rest =>
          have : q.1 ≤ p0.1 := le_of_lt (hsq p0 (by simp [hpsL]))
          simp [firstGE, this])
    (by intro p hp hk
        cases hpsL : psL with
        | nil => rw [hpsL] at hp; simp at hp
        | cons p0 rest =>
          rw [hpsL] at hp
          simp only [List.head?_cons, Option.some_inj] at hp
          subst p
          exact absurd (hk ▸ hsq p0 (by simp [hpsL]))
            (lt_irrefl q.1))
    (by simp
        intro hcon
        rw [hcon] at hLlen
        simp at hLlen)
    (by simp [hLlen])
  simp only [List.nil_append] at happ3
  rw [hLlen, show (39 : Nat) - 19 = 20 from by norm_num,
    show (38 : Nat) - 19 = 19 from by norm_num,
    show (19 : Nat) + 1 = 20 from by norm_num,
    someFst_eq_map psL] at happ3
  rw [show psL.map leafSlot ++ leafSlot pm :: none
        :: List.replicate 19 (none : Option (TreeItem K V))
      = (psL.map leafSlot ++ [leafSlot pm]) ++ List.replicate 20 none from by
    rw [List.append_assoc]
    rfl] at happ3
  simp only [Prod.mk.eta] at happ3
  rw [← hf2] at happ3
  have happ4 := internal_insert_nosplit (sizeB T) q.1 q.2 [pm.1]
    []
    [BTree.mk 19 ((psR.map Prod.fst).map some ++ List.replicate 20 none)
      ((psR.map leafSlot ++ [none]) ++ List.replicate 20 none)]
    (BTree.mk 19 ((psL.map Prod.fst).map some ++ List.replicate 20 none)
      ((psL.map leafSlot ++ [leafSlot pm]) ++ List.replicate 20 none))
    (BTree.mk 20 ((q :: psL).map someFst ++ List.replicate 19 none)
      ((q :: psL).map leafSlot ++ leafSlot pm :: List.replicate 19 none))
    true
    (by simp)
    (by simp [firstGE, le_of_lt hqpm])
    (by simp [BTREE_KEYS_UBOUND, BTREE_MIN_DEGREE])
    happ3
  simp only [List.length_cons, List.length_nil, List.nil_append,
    Nat.zero_add, show (39 : Nat) - 1 = 38 from by norm_num] at happ4
  rw [hT] at happ4
  have hstep40 : BTree.insert (leafRoot (psL ++ pm :: psR)) q.1 q.2
      = some (BTree.mk 1 ([pm.1].map some ++ List.replicate 38 none)
          (([BTree.mk 20 ((q :: psL).map someFst
                ++ List.replicate 19 none)
              ((q :: psL).map leafSlot ++ leafSlot pm
                :: List.replicate 19 none),
            BTree.mk 19 ((psR.map Prod.fst).map some
                ++ List.replicate 20 none)
              ((psR.map leafSlot ++ [none])
                ++ List.replicate 20 none)]).map childSlot
            ++ List.replicate 38 none), true) := by
    rw [hroot, hfull]
    exact happ4
  constructor
  · rw [buildTree, List.foldlM_append]
    have h39' : List.foldlM
        (fun t p => (BTree.insert t p.1 p.2).map Prod.fst) BTree.new
        ((psL ++ pm :: psR).reverse)
        = some (leafRoot (psL ++ pm :: psR)) := by
      rw [buildTree] at h39
      exact h39
    rw [h39']
    simp only [Option.bind_eq_bind, Option.some_bind, List.foldlM_cons,
      List.foldlM_nil, hstep40, Option.map_some', Option.some_bind]
    rfl
  · have hLinv := BInv.leafSome (q :: psL) none pm.1 pm.2 (by simp [hLlen])
      (by simp) (by
        refine List.pairwise_cons.mpr ⟨?_, hsL⟩
        intro p hp
        exact hsq p (by simp [hp]))
      (fun p _ => trivial) trivial
      (by intro p hp
          rcases List.mem_cons.mp hp with rfl | hp
          · exact hqpm
          · exact hcross p hp pm (by simp))
    rw [show (q :: psL).length = 20 from by simp [hLlen],
      show (39 : Nat) - 20 = 19 from by norm_num] at hLinv
    have hRinv := BInv.leafNone psR (some pm.1) (by omega) hsR
      (fun p hp => hpmR p hp)
    rw [hRlen, someFst_eq_map psR] at hRinv
    have e1 : List.replicate ((39 : Nat) - 19)
        (none : Option K) = List.replicate 20 none := by norm_num
    have e2 : List.replicate ((40 : Nat) - 19)
        (none : Option (TreeItem K V)) = none :: List.replicate 20 none := by
      rw [show (40 : Nat) - 19 = 20 + 1 from by norm_num]
      rfl
    rw [e1, e2] at hRinv
    rw [show psR.map leafSlot
          ++ (none : Option (TreeItem K V)) :: List.replicate 20 none
        = (psR.map leafSlot ++ [none]) ++ List.replicate 20 none from by
      simp] at hRinv
    have hchain := BChain.cons pm.1 pm.2 _ []
      [BTree.mk 19 ((psR.map Prod.fst).map some ++ List.replicate 20 none)
        ((psR.map leafSlot ++ [none]) ++ List.replicate 20 none)]
      none none ((q :: psL) ++ [(pm.1, pm.2)]) psR 0 trivial trivial
      hLinv (BChain.last _ (some pm.1) none psR 0 hRinv)
    have hfinal := BInv.internal [pm.1] _ none none _ 0 (by simp) (by simp)
      hchain
    rw [show ([pm.1] : List K).length = 1 from rfl,
      show (39 : Nat) - 1 = 38 from by norm_num] at hfinal
    rw [show ((q :: psL) ++ [(pm.1, pm.2)]) ++ psR
        = q :: (psL ++ pm :: psR) from by simp] at hfinal
    exact hfinal

theorem insertEntry_mem_self [LinearOrder K] (key : K) (value : V) :
    ∀ (es : List (K × V)), (key, value) ∈ insertEntry es key value := by
  intro es
  induction es with
  | nil => simp
  | cons p es ih =>
    by_cases h1 : key < p.1
    · rw [insertEntry_cons_lt _ _ _ _ h1]; simp
    · by_cases h2 : key = p.1
      · rw [insertEntry_cons_eq _ _ _ _ h2]; simp
      · simp only [insertEntry, h1, h2, if_false]
        exact List.mem_cons_of_mem p ih

theorem insertEntry_mem_preserved [LinearOrder K] (key : K) (value : V) :
    ∀ (es : List (K × V)) (e : K × V), e ∈ es → e.1 ≠ key →
    e ∈ insertEntry es key value := by
  intro es
  induction es with
  | nil => intro e he; simp at he
  | cons p es ih =>
    intro e he hne
    by_cases h1 : key < p.1
    · rw [insertEntry_cons_lt _ _ _ _ h1]
      exact List.mem_cons_of_mem _ he
    · by_cases h2 : key = p.1
      · rw [insertEntry_cons_eq _ _ _ _ h2]
        rcases List.mem_cons.mp he with rfl | he
        · exact absurd (h2.symm) hne
        · exact List.mem_cons_of_mem _ he
      · simp only [insertEntry, h1, h2, if_false]
        rcases List.mem_cons.mp he with rfl | he
        · exact List.mem_cons_self _ _
        · exact List.mem_cons_of_mem p (ih e he hne)

/-- Folding a list of insertions over a well-formed tree: the final tree
is well-formed; entries whose keys are not re-inserted survive, and with
pairwise-distinct keys every inserted pair is stored. -/
theorem build_entries [LinearOrder K] (t : BTree K V) :
    ∀ (l : List (K × V)) (t0 : BTree K V) (es0 : List (K × V)) (h0 : Nat),
    BInv t0 none none es0 h0 →
    List.foldlM (fun t p => (BTree.insert t p.1 p.2).map Prod.fst) t0 l
      = some t →
    ∃ (esF : List (K × V)) (hF : Nat), BInv t none none esF hF ∧
      (∀ e ∈ es0, e.1 ∉ l.map Prod.fst → e ∈ esF) ∧
      ((l.map Prod.fst).Nodup → ∀ p ∈ l, (p.1, p.2) ∈ esF) := by
  intro l
  induction l with
  | nil =>
    intro t0 es0 h0 hinv0 happ
    rw [List.foldlM_nil] at happ
    cases happ
    exact ⟨es0, h0, hinv0, fun e he _ => he, fun _ p hp => absurd hp
      (by simp)⟩
  | cons q l ih =>
    intro t0 es0 h0 hinv0 happ
    rw [List.foldlM_cons] at happ
    obtain ⟨t1, b1, h1, heq1, hinv1, _⟩ :=
      insert_root_correct q.1 q.2 h0 t0 es0 hinv0
    rw [heq1] at happ
    simp only [Option.map_some', Option.bind_eq_bind, Option.some_bind]
      at happ
    obtain ⟨esF, hF, hinvF, hA, hB⟩ :=
      ih t1 (insertEntry es0 q.1 q.2) h1 hinv1 happ
    refine ⟨esF, hF, hinvF, ?_, ?_⟩
    · intro e he hnot
      simp only [List.map_cons, List.mem_cons] at hnot
      push_neg at hnot
      exact hA e (insertEntry_mem_preserved q.1 q.2 es0 e he hnot.1) hnot.2
    · intro hnd p hp
      simp only [List.map_cons, List.nodup_cons] at hnd
      rcases List.mem_cons.mp hp with rfl | hp
      · exact hA (p.1, p.2)
          (by simpa using insertEntry_mem_self p.1 p.2 es0) hnd.1
      · exact hB hnd.2 p hp

/-- Every pair of a distinct-key insertion sequence is found afterwards
with its value. -/
theorem buildTree_distinct_find [LinearOrder K] (l : List (K × V))
    (t : BTree K V) (hdist : (l.map Prod.fst).Nodup)
    (hbuild : buildTree l = some t) :
    ∀ p ∈ l, t.find p.1 = some p.2 := by
  rw [buildTree] at hbuild
  obtain ⟨esF, hF, hinvF, _, hB⟩ :=
    build_entries t l BTree.new [] 0 BInv_new hbuild
  intro p hp
  rw [BTree.find]
  refine findF_correct hF t none none esF (sizeB t + 1) hinvF ?_ p.1 p.2
    (hB hdist p hp)
  have := BInv_height_lt_sizeB hF t none none esF hinvF
  omega

theorem bt_getD_replicate {α : Type} :
    ∀ (k i : Nat), (List.replicate k (none : Option α)).getD i none = none := by
  intro k
  induction k with
  | zero => intro i; cases i <;> rfl
  | succ k ih =>
    intro i
    cases i with
    | zero => rfl
    | succ i => simpa using ih i

theorem bt_getD_pad {α : Type} :
    ∀ (A : List (Option α)) (k i : Nat), A.length ≤ i →
    (A ++ List.replicate k none).getD i none = none := by
  intro A
  induction A with
  | nil =>
    intro k i _
    simpa using bt_getD_replicate k i
  | cons a A ih =>
    intro k i hi
    cases i with
    | zero => simp at hi
    | succ i => simpa using ih k i (by simpa using hi)

theorem bt_getD_map_isSome {α β : Type} (f : α → Option β)
    (hf : ∀ x, (f x).isSome = true) :
    ∀ (ps : List α) (B : List (Option β)) (i : Nat), i < ps.length →
    ((ps.map f ++ B).getD i none).isSome = true := by
  intro ps
  induction ps with
  | nil => intro B i hi; simp at hi
  | cons p ps ih =>
    intro B i hi
    cases i with
    | zero => simpa using hf p
    | succ i => simpa using ih B i (by simpa using hi)

/-- The separator keys of an internal node are strictly ascending and
above the node's lower bound. -/
theorem BChain_keys [LinearOrder K] :
    ∀ (ks : List K) (cs : List (BTree K V)) (lb : Option K)
      (ub : Option (K × V)) es (h : Nat), BChain ks cs lb ub es h →
    List.Pairwise (· < ·) ks ∧ ∀ x ∈ ks, lbLt lb x := by
  intro ks
  induction ks with
  | nil => intro cs lb ub es h hch; exact ⟨by simp, by simp⟩
  | cons k ks ih =>
    intro cs lb ub es h hch
    cases hch with
    | cons k v c ks cs lb ub es₁ es₂ h hlk huk hc htail =>
      obtain ⟨hpair, hbound⟩ := ih cs (some k) ub es₂ h htail
      refine ⟨List.pairwise_cons.mpr ⟨fun x hx => hbound x hx, hpair⟩, ?_⟩
      intro x hx
      rcases List.mem_cons.mp hx with rfl | hx
      · exact hlk
      · exact lbLt_of_lt hlk (hbound x hx)

/-- If the root's slot 0 is empty, a well-formed tree stores nothing and
every slot is empty. -/
theorem BInv_empty_shape [LinearOrder K] {t : BTree K V} {lb : Option K}
    {ub : Option (K × V)} {es : List (K × V)} {h : Nat}
    (hinv : BInv t lb ub es h) (h0 : t.nodes.getD 0 none = none) :
    ∀ i, t.nodes.getD i none = none := by
  cases hinv with
  | leafNone ps lb hlen hsort hlb =>
    cases es with
    | nil =>
      intro i
      simpa using bt_getD_pad [] 40 i (by simp)
    | cons p ps => simp [leafSlot] at h0
  | leafSome ps lb uk uv hlen hne hsort hlb hlbu hub =>
    cases ps with
    | nil => exact absurd rfl hne
    | cons p ps => simp [leafSlot] at h0
  | leafStale ps lb uk uv w hlen hsort hlb hlbu hub =>
    cases ps with
    | nil => simp [leafSlot] at h0
    | cons p ps => simp [leafSlot] at h0
  | internal ks cs lb ub es h hne hlen hch =>
    have hlen' := Chain_length ks cs lb ub es h hch
    cases cs with
    | nil => simp at hlen'
    | cons c cs => simp [childSlot] at h0

/-- A well-formed tree storing at least one entry has its slot 0
occupied. -/
theorem BInv_nonempty_slot0 [LinearOrder K] {t : BTree K V}
    {lb : Option K} {ub : Option (K × V)} {es : List (K × V)} {h : Nat}
    (hinv : BInv t lb ub es h) (hne : es ≠ []) :
    (t.nodes.getD 0 none).isNone = false := by
  cases hinv with
  | leafNone ps lb hlen hsort hlb =>
    cases es with
    | nil => exact absurd rfl hne
    | cons p ps => simp [leafSlot]
  | leafSome ps lb uk uv hlen hne' hsort hlb hlbu hub =>
    cases ps with
    | nil => exact absurd rfl hne'
    | cons p ps => simp [leafSlot]
  | leafStale ps lb uk uv w hlen hsort hlb hlbu hub =>
    cases ps with
    | nil => simp [leafSlot]
    | cons p ps => simp [leafSlot]
  | internal ks cs lb ub es h hne' hlen hch =>
    have hlen' := Chain_length ks cs lb ub es h hch
    cases cs with
    | nil => simp at hlen'
    | cons c cs => simp [childSlot]

theorem find_new [LinearOrder K] (key : K) :
    (BTree.new : BTree K V).find key = none := rfl

/-! ## Concrete scenario material for the claims -/

/-- The 19 entries `(0,0) … (18,18)`. -/
def ascLo : List (Nat × Nat) := (List.range 19).map fun i => (i, i)

/-- The 19 entries `(20,20) … (38,38)`. -/
def ascHi : List (Nat × Nat) := (List.range 19).map fun i => (i + 20, i + 20)

/-- The tree produced by inserting `(0,0) … (39,39)` in ascending order:
a one-key root with separator `19`, whose left leaf keeps `0 … 18`
explicitly plus the separator's value in its overflow slot, and whose
right leaf holds `20 … 39`. -/
def ascTree40 : BTree Nat Nat :=
  BTree.mk 1 ([(19 : Nat)].map some ++ List.replicate 38 none)
    (([BTree.mk 19 ((ascLo.map Prod.fst).map some ++ List.replicate 20 none)
        ((ascLo.map leafSlot ++ [leafSlot ((19 : Nat), (19 : Nat))])
          ++ List.replicate 20 none),
      BTree.mk 20 ((ascHi ++ [((39 : Nat), (39 : Nat))]).map someFst
          ++ List.replicate 19 none)
        ((ascHi ++ [((39 : Nat), (39 : Nat))]).map leafSlot
          ++ List.replicate 20 none)]).map childSlot
      ++ List.replicate 38 none)

theorem ascTree40_build :
    buildTree ((ascLo ++ (19, 19) :: ascHi) ++ [(39, 39)])
      = some ascTree40 :=
  (buildT40_asc ascLo (19, 19) (39, 39) ascHi (by decide) (by decide)
    (by decide)).1

/-- C1: the claim that `insert` returns `true` exactly for net-new keys is
wrong in the code: after filling a leaf and splitting, the separator key
is stored only as the bounding key of the left leaf (its value sits in the
overflow slot), so re-inserting that key finds no explicit cell, inserts a
new explicit cell, and reports `true` even though the key was present and
its value is overwritten. -/
theorem claim_C1 :
    ∃ (l : List (Nat × Nat)) (t t' : BTree Nat Nat),
      buildTree l = some t ∧ (19, 19) ∈ l ∧
      BTree.find t 19 = some 19 ∧
      BTree.insert t 19 100 = some (t', true) ∧
      BTree.find t' 19 = some 100 := by
  have hfind : BTree.find ascTree40 19 = some 19 := by decide
  have hins : (BTree.insert ascTree40 19 100).map
      (fun r => (r.2, BTree.find r.1 19)) = some (true, some 100) := by
    decide
  cases hI : BTree.insert ascTree40 19 100 with
  | none => rw [hI] at hins; simp at hins
  | some r =>
    rw [hI] at hins
    simp only [Option.map_some', Option.some_inj, Prod.mk.injEq] at hins
    refine ⟨(ascLo ++ (19, 19) :: ascHi) ++ [(39, 39)], ascTree40, r.1,
      ascTree40_build, by decide, hfind, ?_, hins.2⟩
    rw [hI, show r = (r.1, r.2) from rfl, hins.1]

/-- C2: inserting any sequence of pairwise-distinct keys into a fresh
tree makes every inserted pair findable afterwards. -/
theorem claim_C2 [LinearOrder K] (l : List (K × V)) (t : BTree K V)
    (hdist : (l.map Prod.fst).Nodup) (hbuild : buildTree l = some t) :
    ∀ p ∈ l, BTree.find t p.1 = some p.2 :=
  buildTree_distinct_find l t hdist hbuild

theorem claim_C2_witness :
    ([((1 : Nat), (10 : Nat)), (2, 20)].map Prod.fst).Nodup ∧
    BTree.find (leafRoot [((1 : Nat), (10 : Nat)), (2, 20)]) 1 = some 10 :=
  ⟨by decide,
    claim_C2 [((1 : Nat), (10 : Nat)), (2, 20)]
      (leafRoot [((1 : Nat), (10 : Nat)), (2, 20)]) (by decide)
      (buildTree_asc _ (by decide) (by decide)) (1, 10) (by simp)⟩

/-- The 19 entries `(0,0) (2,2) … (36,36)`. -/
def evensLo : List (Nat × Nat) := (List.range 19).map fun i => (2 * i, 2 * i)

/-- The 19 entries `(40,40) (42,42) … (76,76)`. -/
def evensHi : List (Nat × Nat) :=
  (List.range 19).map fun i => (2 * i + 40, 2 * i + 40)

/-- The 19 entries `(2,2) (4,4) … (38,38)`. -/
def evensLo2 : List (Nat × Nat) :=
  (List.range 19).map fun i => (2 * i + 2, 2 * i + 2)

/-- The 19 entries `(42,42) (44,44) … (78,78)`. -/
def evensHi2 : List (Nat × Nat) :=
  (List.range 19).map fun i => (2 * i + 42, 2 * i + 42)

/-- The tree built by inserting the even pairs `0 … 78` ascending. -/
def evensAscTree : BTree Nat Nat :=
  BTree.mk 1 ([(38 : Nat)].map some ++ List.replicate 38 none)
    (([BTree.mk 19 ((evensLo.map Prod.fst).map some
          ++ List.replicate 20 none)
        ((evensLo.map leafSlot ++ [leafSlot ((38 : Nat), (38 : Nat))])
          ++ List.replicate 20 none),
      BTree.mk 20 ((evensHi ++ [((78 : Nat), (78 : Nat))]).map someFst
          ++ List.replicate 19 none)
        ((evensHi ++ [((78 : Nat), (78 : Nat))]).map leafSlot
          ++ List.replicate 20 none)]).map childSlot
      ++ List.replicate 38 none)

/-- The tree built by inserting the even pairs `78 … 2` descending, then
`(0,0)`. -/
def evensDescTree : BTree Nat Nat :=
  BTree.mk 1 ([(40 : Nat)].map some ++ List.replicate 38 none)
    (([BTree.mk 20 ((((0 : Nat), (0 : Nat)) :: evensLo2).map someFst
          ++ List.replicate 19 none)
        ((((0 : Nat), (0 : Nat)) :: evensLo2).map leafSlot
          ++ leafSlot ((40 : Nat), (40 : Nat))
          :: List.replicate 19 none),
      BTree.mk 19 ((evensHi2.map Prod.fst).map some
          ++ List.replicate 20 none)
        ((evensHi2.map leafSlot ++ [none])
          ++ List.replicate 20 none)]).map childSlot
      ++ List.replicate 38 none)

theorem evensAscTree_build :
    buildTree ((evensLo ++ (38, 38) :: evensHi) ++ [(78, 78)])
      = some evensAscTree :=
  (buildT40_asc evensLo (38, 38) (78, 78) evensHi (by decide) (by decide)
    (by decide)).1

theorem evensDescTree_build :
    buildTree ((evensLo2 ++ (40, 40) :: evensHi2).reverse ++ [(0, 0)])
      = some evensDescTree :=
  (buildT40_desc evensLo2 (40, 40) (0, 0) evensHi2 (by decide) (by decide)
    (by decide)).1

/-- C4 (counterexample): inserting the same distinct-key set in two
different orders can change `find` on a key *outside* the set. Inserting
the even pairs `0 … 78` ascending leaves `37` "found" with value `38`
(through the left leaf's overflow slot), while the descending order leaves
`37` not found. -/
theorem claim_C4_counterexample :
    ∃ (l₁ l₂ : List (Nat × Nat)) (t₁ t₂ : BTree Nat Nat),
      l₁.Perm l₂ ∧ buildTree l₁ = some t₁ ∧ buildTree l₂ = some t₂ ∧
      BTree.find t₁ 37 ≠ BTree.find t₂ 37 := by
  refine ⟨(evensLo ++ (38, 38) :: evensHi) ++ [(78, 78)],
    (evensLo2 ++ (40, 40) :: evensHi2).reverse ++ [(0, 0)],
    evensAscTree, evensDescTree, ?_, evensAscTree_build,
    evensDescTree_build, ?_⟩
  · rw [show (evensLo2 ++ (40, 40) :: evensHi2).reverse ++ [((0 : Nat),
        (0 : Nat))]
      = ((evensLo ++ (38, 38) :: evensHi) ++ [(78, 78)]).reverse from by
      decide]
    exact (List.reverse_perm _).symm
  · have h1 : BTree.find evensAscTree 37 = some 38 := by decide
    have h2 : BTree.find evensDescTree 37 = none := by decide
    rw [h1, h2]
    simp

/-- C4 (amended): insertion order is irrelevant only for the *inserted*
keys: for two orders of the same distinct-key set, both trees return the
associated value for every key of the set. (For keys outside the set the
results can differ, as the counterexample shows.) -/
theorem claim_C4_amended [LinearOrder K] (l₁ l₂ : List (K × V))
    (t₁ t₂ : BTree K V) (hperm : l₁.Perm l₂)
    (hdist : (l₁.map Prod.fst).Nodup)
    (h₁ : buildTree l₁ = some t₁) (h₂ : buildTree l₂ = some t₂) :
    ∀ p ∈ l₁, BTree.find t₁ p.1 = some p.2
      ∧ BTree.find t₂ p.1 = some p.2 := by
  intro p hp
  refine ⟨buildTree_distinct_find l₁ t₁ hdist h₁ p hp, ?_⟩
  refine buildTree_distinct_find l₂ t₂ ?_ h₂ p (hperm.mem_iff.mp hp)
  exact ((hperm.map Prod.fst).nodup_iff).mp hdist

theorem claim_C4_amended_witness :
    ([((1 : Nat), (5 : Nat)), (2, 6)].map Prod.fst).Nodup ∧
    (BTree.find (leafRoot [((1 : Nat), (5 : Nat)), (2, 6)]) 1 = some 5
      ∧ BTree.find (leafRoot [((1 : Nat), (5 : Nat)), (2, 6)]) 1
          = some 5) :=
  ⟨by decide,
    claim_C4_amended [((1 : Nat), (5 : Nat)), (2, 6)] [(2, 6), (1, 5)]
      (leafRoot [((1 : Nat), (5 : Nat)), (2, 6)])
      (leafRoot [((1 : Nat), (5 : Nat)), (2, 6)])
      (List.Perm.swap (2, 6) (1, 5) []) (by decide)
      (buildTree_asc _ (by decide) (by decide))
      (buildTree_desc [((2 : Nat), (6 : Nat)), (1, 5)] (by decide)
        (by decide))
      (1, 5) (by simp)⟩

/-- C3: at a leaf with an occupied slot directly after its explicit
entries, `find` succeeds exactly when the search position is `used` (the
unlabeled overflow slot, returning whatever value sits there) or the key
cell at the position holds the searched key. A reachable tree then
reports a never-inserted key as found: after inserting the even pairs
`0 … 78` ascending, `find 37` returns `38` from the overflow slot. -/
theorem claim_C3 [LinearOrder K] :
    (∀ (fuel : Nat) (key : K) (E : List (K × V)) (w : V) (mpad : Nat)
      (T : List (Option (TreeItem K V))),
      List.Pairwise (fun a b : K × V => a.1 < b.1) E → E ≠ [] →
      findF (fuel + 1)
        (BTree.mk E.length (E.map someFst ++ List.replicate mpad none)
          (E.map leafSlot ++ some (.TreeLeaf w) :: T)) key
        = if h : firstGE key (E.map Prod.fst) < E.length
          then (if (E.get ⟨firstGE key (E.map Prod.fst), h⟩).1 = key
            then some (E.get ⟨firstGE key (E.map Prod.fst), h⟩).2
            else none)
          else some w) ∧
    (∃ (l : List (Nat × Nat)) (t : BTree Nat Nat),
      buildTree l = some t ∧ (37 : Nat) ∉ l.map Prod.fst ∧
      BTree.find t 37 = some 38) := by
  constructor
  · intro fuel key E w mpad T hsort hne
    by_cases hj : firstGE key (E.map Prod.fst) < E.length
    · rw [dif_pos hj]
      obtain ⟨x, E₂, hdec⟩ := bt_split_at (firstGE key (E.map Prod.fst))
        E hj
      obtain ⟨E₁, hE₁⟩ : ∃ l, E.take (firstGE key (E.map Prod.fst)) = l :=
        ⟨_, rfl⟩
      rw [hE₁] at hdec
      have hlen1 : E₁.length = firstGE key (E.map Prod.fst) := by
        rw [← hE₁, List.length_take]
        omega
      have hget? : E.get? (firstGE key (E.map Prod.fst)) = some x := by
        rw [← hlen1]
        conv_lhs => rw [hdec]
        rw [List.get?_append_right (le_refl E₁.length)]
        simp
      have hgeteq : E.get ⟨firstGE key (E.map Prod.fst), hj⟩ = x := by
        have := List.get?_eq_get hj
        rw [hget?] at this
        exact (Option.some_inj.mp this).symm
      rw [hgeteq]
      have hfirstd : firstGE key ((E₁ ++ x :: E₂).map Prod.fst)
          = E₁.length := by
        rw [← hdec, hlen1]
      by_cases hx : x.1 = key
      · rw [if_pos hx]
        have hxe : x = (key, x.2) := by
          rw [← hx]
        rw [hdec, hxe]
        exact findF_leaf_at fuel key x.2 E₁ E₂ mpad
          (some (.TreeLeaf w) :: T)
          (by rw [← hxe]; exact hfirstd)
      · rw [if_neg hx]
        rw [hdec]
        exact findF_leaf_missing fuel key x.1 x.2 E₁ E₂ mpad
          (some (.TreeLeaf w) :: T) hfirstd hx
    · rw [dif_neg hj]
      have hjeq : firstGE key (E.map Prod.fst) = E.length := by
        have := firstGE_le_length key (E.map Prod.fst)
        simp only [List.length_map] at this
        omega
      exact findF_leaf_overflow fuel key w E mpad T hjeq hne
  · refine ⟨(evensLo ++ (38, 38) :: evensHi) ++ [(78, 78)], evensAscTree,
      evensAscTree_build, by decide, by decide⟩

theorem claim_C3_witness :
    (List.Pairwise (fun a b : Nat × Nat => a.1 < b.1) [(1, 10)]
      ∧ ([((1 : Nat), (10 : Nat))] ≠ [])) ∧
    findF 1
      (BTree.mk [((1 : Nat), (10 : Nat))].length
        ([((1 : Nat), (10 : Nat))].map someFst
          ++ List.replicate 38 none)
        ([((1 : Nat), (10 : Nat))].map leafSlot
          ++ some (.TreeLeaf (77 : Nat)) :: List.replicate 38 none)) 5
      = if h : firstGE 5 ([((1 : Nat), (10 : Nat))].map Prod.fst)
          < [((1 : Nat), (10 : Nat))].length
        then (if ([((1 : Nat), (10 : Nat))].get
            ⟨firstGE 5 ([((1 : Nat), (10 : Nat))].map Prod.fst), h⟩).1 = 5
          then some ([((1 : Nat), (10 : Nat))].get
            ⟨firstGE 5 ([((1 : Nat), (10 : Nat))].map Prod.fst), h⟩).2
          else none)
        else some 77 :=
  ⟨⟨by decide, by decide⟩,
    claim_C3.1 0 5 [((1 : Nat), (10 : Nat))] 77 38
      (List.replicate 38 none) (by decide) (by decide)⟩

/-- C5: splitting a full child installs two siblings of exactly
`t - 1 = 19` keys each at `pos` and `pos + 1` and gives the parent
exactly one more key and one more occupied child slot. -/
theorem claim_C5 [LinearOrder K] (ks₁ ks₂ : List K)
    (cs₁ cs₂ : List (BTree K V)) (c : BTree K V) (cksL cksR : List K)
    (m : K) (cnsL cnsR : List (Option (TreeItem K V)))
    (hcfull : c.used = BTREE_KEYS_UBOUND)
    (hck : c.keys = (cksL ++ m :: cksR).map some)
    (hcn : c.nodes = cnsL ++ cnsR)
    (hkL : cksL.length = 19) (hkR : cksR.length = 19)
    (hnL : cnsL.length = 20) (hnR : cnsR.length = 20)
    (hcs1 : cs₁.length = ks₁.length) (hcs2 : cs₂.length = ks₂.length)
    (hu : ks₁.length + ks₂.length ≤ 38) :
    ∃ (p' L R : BTree K V),
      split_child
        (BTree.mk (ks₁.length + ks₂.length)
          ((ks₁ ++ ks₂).map some
            ++ List.replicate (39 - (ks₁.length + ks₂.length)) none)
          ((cs₁ ++ c :: cs₂).map childSlot
            ++ List.replicate (39 - (ks₁.length + ks₂.length)) none))
        ks₁.length = some p' ∧
      p'.used = (ks₁.length + ks₂.length) + 1 ∧
      p'.nodes.getD ks₁.length none = some (.TreeNode L) ∧
      p'.nodes.getD (ks₁.length + 1) none = some (.TreeNode R) ∧
      L.used = BTREE_MIN_DEGREE - 1 ∧ R.used = BTREE_MIN_DEGREE - 1 := by
  have hspec := split_child_spec ks₁ ks₂ cs₁ cs₂ c cksL cksR m cnsL cnsR
    hck hcn hkL hkR hnL hnR hcs1 hcs2 hu
  refine ⟨_,
    BTree.mk 19 (cksL.map some ++ List.replicate 20 none)
      (cnsL ++ List.replicate 20 none),
    BTree.mk 19 (cksR.map some ++ List.replicate 20 none)
      (cnsR ++ List.replicate 20 none), hspec, rfl, ?_, ?_, rfl, rfl⟩
  · rw [BTree.nodes_mk]
    have hre : (cs₁
          ++ BTree.mk 19 (cksL.map some ++ List.replicate 20 none)
              (cnsL ++ List.replicate 20 none)
          :: BTree.mk 19 (cksR.map some ++ List.replicate 20 none)
              (cnsR ++ List.replicate 20 none)
          :: cs₂).map childSlot
        ++ List.replicate (38 - (ks₁.length + ks₂.length)) none
        = cs₁.map childSlot
          ++ childSlot (BTree.mk 19
              (cksL.map some ++ List.replicate 20 none)
              (cnsL ++ List.replicate 20 none))
          :: (childSlot (BTree.mk 19
              (cksR.map some ++ List.replicate 20 none)
              (cnsR ++ List.replicate 20 none))
            :: cs₂.map childSlot
            ++ List.replicate (38 - (ks₁.length + ks₂.length)) none) := by
      simp
    rw [hre]
    have := bt_getD_append_len (cs₁.map childSlot)
      (childSlot (BTree.mk 19 (cksL.map some ++ List.replicate 20 none)
        (cnsL ++ List.replicate 20 none)))
      (childSlot (BTree.mk 19 (cksR.map some ++ List.replicate 20 none)
          (cnsR ++ List.replicate 20 none))
        :: cs₂.map childSlot
        ++ List.replicate (38 - (ks₁.length + ks₂.length)) none) none
    rw [List.length_map, hcs1] at this
    exact this
  · rw [BTree.nodes_mk]
    have hre : (cs₁
          ++ BTree.mk 19 (cksL.map some ++ List.replicate 20 none)
              (cnsL ++ List.replicate 20 none)
          :: BTree.mk 19 (cksR.map some ++ List.replicate 20 none)
              (cnsR ++ List.replicate 20 none)
          :: cs₂).map childSlot
        ++ List.replicate (38 - (ks₁.length + ks₂.length)) none
        = (cs₁.map childSlot
            ++ [childSlot (BTree.mk 19
              (cksL.map some ++ List.replicate 20 none)
              (cnsL ++ List.replicate 20 none))])
          ++ childSlot (BTree.mk 19
              (cksR.map some ++ List.replicate 20 none)
              (cnsR ++ List.replicate 20 none))
          :: (cs₂.map childSlot
            ++ List.replicate (38 - (ks₁.length + ks₂.length)) none) := by
      simp
    rw [hre]
    have := bt_getD_append_len
      (cs₁.map childSlot
        ++ [childSlot (BTree.mk 19 (cksL.map some ++ List.replicate 20 none)
          (cnsL ++ List.replicate 20 none))])
      (childSlot (BTree.mk 19 (cksR.map some ++ List.replicate 20 none)
        (cnsR ++ List.replicate 20 none)))
      (cs₂.map childSlot
        ++ List.replicate (38 - (ks₁.length + ks₂.length)) none) none
    rw [List.length_append, List.length_map, List.length_cons,
      List.length_nil, hcs1] at this
    exact this

theorem claim_C5_witness :
    ∃ (p' L R : BTree Nat Nat),
      split_child
        (BTree.mk (([] : List Nat).length + [(100 : Nat)].length)
          ((([] : List Nat) ++ [(100 : Nat)]).map some
            ++ List.replicate
              (39 - (([] : List Nat).length + [(100 : Nat)].length)) none)
          ((([] : List (BTree Nat Nat))
              ++ BTree.mk 39
                ((List.range 19 ++ (19 : Nat)
                  :: (List.range 19).map (fun i => i + 20)).map some)
                (List.replicate 20 none ++ List.replicate 20 none)
              :: [BTree.new]).map childSlot
            ++ List.replicate
              (39 - (([] : List Nat).length + [(100 : Nat)].length)) none))
        ([] : List Nat).length = some p' ∧
      p'.used = (([] : List Nat).length + [(100 : Nat)].length) + 1 ∧
      p'.nodes.getD ([] : List Nat).length none = some (.TreeNode L) ∧
      p'.nodes.getD (([] : List Nat).length + 1) none
        = some (.TreeNode R) ∧
      L.used = BTREE_MIN_DEGREE - 1 ∧ R.used = BTREE_MIN_DEGREE - 1 :=
  claim_C5 [] [(100 : Nat)] [] [BTree.new]
    (BTree.mk 39
      ((List.range 19 ++ (19 : Nat)
        :: (List.range 19).map (fun i => i + 20)).map some)
      (List.replicate 20 none ++ List.replicate 20 none))
    (List.range 19) ((List.range 19).map (fun i => i + 20)) 19
    (List.replicate 20 none) (List.replicate 20 none)
    (by decide) rfl rfl (by decide) (by decide)
    (by decide) (by decide) (by decide) (by decide) (by decide)

/-- `NodeIn n t`: the node `n` is the root of `t` itself or, recursively,
a node of a child tree stored in one of `t`'s slots. -/
inductive NodeIn : BTree K V → BTree K V → Prop where
  | refl (t : BTree K V) : NodeIn t t
  | child (n c t : BTree K V)
      (hc : some (TreeItem.TreeNode c) ∈ t.nodes)
      (hn : NodeIn n c) : NodeIn n t

/-- Every tree of a well-formed chain is well-formed at the chain's
height. -/
theorem BChain_mem_inv [LinearOrder K] :
    ∀ (ks : List K) (cs : List (BTree K V)) (lb : Option K)
      (ub : Option (K × V)) (es : List (K × V)) (h : Nat),
    BChain ks cs lb ub es h → ∀ c ∈ cs,
    ∃ (lb' : Option K) (ub' : Option (K × V)) (es' : List (K × V)),
      BInv c lb' ub' es' h := by
  intro ks
  induction ks with
  | nil =>
    intro cs lb ub es h hch c hc
    cases hch with
    | last c₀ lb ub es h hinv0 =>
      rcases List.mem_singleton.mp hc with rfl
      exact ⟨lb, ub, es, hinv0⟩
  | cons k ks ih =>
    intro cs lb ub es h hch c hc
    cases hch with
    | cons k v c₀ ks cs lb ub es₁ es₂ h hlk huk hinv0 htail =>
      rcases List.mem_cons.mp hc with rfl | hc'
      · exact ⟨lb, some (k, v), es₁, hinv0⟩
      · exact ih cs (some k) ub es₂ h htail c hc'

/-- A child node stored in a slot of a well-formed tree is itself
well-formed, one level below; a leaf stores no child node at all. -/
theorem BInv_child_inv [LinearOrder K] {h : Nat} {t : BTree K V}
    {lb : Option K} {ub : Option (K × V)} {es : List (K × V)}
    (hinv : BInv t lb ub es h) (c : BTree K V)
    (hc : some (TreeItem.TreeNode c) ∈ t.nodes) :
    ∃ (h' : Nat) (lb' : Option K) (ub' : Option (K × V))
      (es' : List (K × V)), h = h' + 1 ∧ BInv c lb' ub' es' h' := by
  cases hinv with
  | leafNone ps lb hlen hsort hlb =>
    rw [BTree.nodes_mk] at hc
    rcases List.mem_append.mp hc with h1 | h2
    · obtain ⟨p, hp, hpe⟩ := List.mem_map.mp h1
      simp [leafSlot] at hpe
    · exact Option.noConfusion (List.eq_of_mem_replicate h2)
  | leafSome ps lb uk uv hlen hne hsort hlb hlbu hub =>
    rw [BTree.nodes_mk] at hc
    rcases List.mem_append.mp hc with h1 | h2
    · obtain ⟨p, hp, hpe⟩ := List.mem_map.mp h1
      simp [leafSlot] at hpe
    · rcases List.mem_cons.mp h2 with h2a | h2b
      · simp at h2a
      · exact Option.noConfusion (List.eq_of_mem_replicate h2b)
  | leafStale ps lb uk uv w hlen hsort hlb hlbu hub =>
    rw [BTree.nodes_mk] at hc
    rcases List.mem_append.mp hc with h1 | h2
    · obtain ⟨p, hp, hpe⟩ := List.mem_map.mp h1
      simp [leafSlot] at hpe
    · rcases List.mem_cons.mp h2 with h2a | h2b
      · simp at h2a
      · exact Option.noConfusion (List.eq_of_mem_replicate h2b)
  | internal ks cs lb ub es h hne hlen hch =>
    rw [BTree.nodes_mk] at hc
    rcases List.mem_append.mp hc with h1 | h2
    · obtain ⟨c', hc', heq⟩ := List.mem_map.mp h1
      simp only [childSlot, Option.some.injEq] at heq
      injection heq with heq2
      subst heq2
      obtain ⟨lb', ub', es', hcinv⟩ :=
        BChain_mem_inv ks cs lb ub es h hch c' hc'
      exact ⟨h, lb', ub', es', rfl, hcinv⟩
    · exact Option.noConfusion (List.eq_of_mem_replicate h2)

/-- The top node of a well-formed subtree has the (weakened) node shape:
the key cells `[0, used)` hold strictly ascending keys and the cells
beyond are empty; the slots `[0, used)` are occupied and every slot past
`used + 1` is empty. -/
theorem BInv_self_shape [LinearOrder K] {h : Nat} {t : BTree K V}
    {lb : Option K} {ub : Option (K × V)} {es : List (K × V)}
    (hinv : BInv t lb ub es h) :
    ∃ KS : List K, KS.length = t.used ∧
      List.Pairwise (· < ·) KS ∧
      t.keys = KS.map some ++ List.replicate (39 - t.used) none ∧
      (∀ i, i < t.used → (t.nodes.getD i none).isSome = true) ∧
      (∀ i, t.used + 1 ≤ i → t.nodes.getD i none = none) := by
  cases hinv with
  | leafNone ps lb hlen hsort hlb =>
    refine ⟨es.map Prod.fst, by simp, List.pairwise_map.mpr hsort, ?_,
      ?_, ?_⟩
    · rw [BTree.keys_mk, BTree.used_mk, someFst_eq_map]
    · intro i hi
      rw [BTree.used_mk] at hi
      rw [BTree.nodes_mk]
      exact bt_getD_map_isSome leafSlot (fun x => rfl) es _ i hi
    · intro i hi
      rw [BTree.used_mk] at hi
      rw [BTree.nodes_mk]
      refine bt_getD_pad (es.map leafSlot) _ i ?_
      simp
      omega
  | leafSome ps lb uk uv hlen hne hsort hlb hlbu hub =>
    refine ⟨ps.map Prod.fst, by simp, List.pairwise_map.mpr hsort, ?_,
      ?_, ?_⟩
    · rw [BTree.keys_mk, BTree.used_mk, someFst_eq_map]
    · intro i hi
      rw [BTree.used_mk] at hi
      rw [BTree.nodes_mk]
      exact bt_getD_map_isSome leafSlot (fun x => rfl) ps _ i hi
    · intro i hi
      rw [BTree.used_mk] at hi
      rw [BTree.nodes_mk]
      have hsplit : ps.map leafSlot ++ some (TreeItem.TreeLeaf uv)
            :: List.replicate (39 - ps.length) none
          = (ps.map leafSlot ++ [some (TreeItem.TreeLeaf uv)])
            ++ List.replicate (39 - ps.length) none := by
        simp
      rw [hsplit]
      refine bt_getD_pad _ _ i ?_
      simp
      omega
  | leafStale ps lb uk uv w hlen hsort hlb hlbu hub =>
    have hpair : List.Pairwise (fun a b : K × V => a.1 < b.1)
        (ps ++ [(uk, uv)]) := by
      refine List.pairwise_append.mpr ⟨hsort, by simp, ?_⟩
      intro a ha b hb
      rcases List.mem_singleton.mp hb with rfl
      exact hub a ha
    refine ⟨(ps ++ [(uk, uv)]).map Prod.fst, by simp,
      List.pairwise_map.mpr hpair, ?_, ?_, ?_⟩
    · rw [BTree.keys_mk, BTree.used_mk, someFst_eq_map]
    · intro i hi
      rw [BTree.used_mk] at hi
      rw [BTree.nodes_mk]
      exact bt_getD_map_isSome leafSlot (fun x => rfl) (ps ++ [(uk, uv)])
        _ i (by simpa using hi)
    · intro i hi
      rw [BTree.used_mk] at hi
      rw [BTree.nodes_mk]
      have hsplit : (ps ++ [(uk, uv)]).map leafSlot
            ++ some (TreeItem.TreeLeaf w)
            :: List.replicate (39 - (ps.length + 1)) none
          = ((ps ++ [(uk, uv)]).map leafSlot
              ++ [some (TreeItem.TreeLeaf w)])
            ++ List.replicate (39 - (ps.length + 1)) none := by
        simp
      rw [hsplit]
      refine bt_getD_pad _ _ i ?_
      simp
      omega
  | internal ks cs lb ub es h hne hlen hch =>
    have hcs := Chain_length ks cs lb ub es h hch
    refine ⟨ks, by simp, (BChain_keys ks cs lb ub es h hch).1, ?_,
      ?_, ?_⟩
    · rw [BTree.keys_mk, BTree.used_mk]
    · intro i hi
      rw [BTree.used_mk] at hi
      rw [BTree.nodes_mk]
      exact bt_getD_map_isSome childSlot (fun x => rfl) cs _ i
        (by omega)
    · intro i hi
      rw [BTree.used_mk] at hi
      rw [BTree.nodes_mk]
      refine bt_getD_pad _ _ i ?_
      simp
      omega

/-- Every node of a well-formed subtree has the (weakened) node shape. -/
theorem BInv_nodeIn_shape [LinearOrder K] :
    ∀ (h : Nat) (t : BTree K V) (lb : Option K) (ub : Option (K × V))
      (es : List (K × V)), BInv t lb ub es h →
    ∀ n : BTree K V, NodeIn n t →
    ∃ KS : List K, KS.length = n.used ∧
      List.Pairwise (· < ·) KS ∧
      n.keys = KS.map some ++ List.replicate (39 - n.used) none ∧
      (∀ i, i < n.used → (n.nodes.getD i none).isSome = true) ∧
      (∀ i, n.used + 1 ≤ i → n.nodes.getD i none = none) := by
  intro h
  induction h with
  | zero =>
    intro t lb ub es hinv n hn
    cases hn with
    | refl => exact BInv_self_shape hinv
    | child c t' hc hn' =>
      obtain ⟨h', lb', ub', es', hh, hcinv⟩ := BInv_child_inv hinv c hc
      exact absurd hh (Nat.succ_ne_zero h').symm
  | succ h ih =>
    intro t lb ub es hinv n hn
    cases hn with
    | refl => exact BInv_self_shape hinv
    | child c t' hc hn' =>
      obtain ⟨h', lb', ub', es', hh, hcinv⟩ := BInv_child_inv hinv c hc
      have hh' : h' = h := by omega
      subst hh'
      exact ih c lb' ub' es' hcinv n hn'

/-- C6 (counterexample): the claimed slot invariant "slots `[0, used+1)`
are occupied" is false: a plain leaf with one entry has `used = 1` but its
slot `1` (inside `[0, used+1)`) is empty — the overflow slot is only
occupied while a bounding separator's value is parked there. -/
theorem claim_C6_counterexample :
    ∃ (t : BTree Nat Nat),
      buildTree [(1, 1)] = some t ∧ t.used = 1 ∧ 1 < t.used + 1 ∧
      t.nodes.getD 1 none = none := by
  refine ⟨leafRoot [(1, 1)], buildTree_asc _ (by decide) (by decide),
    rfl, by decide, rfl⟩

/-- C6 (amended): every node of every reachable tree satisfies: the key
cells `[0, used)` hold distinct keys in strictly ascending order and the
key cells `[used, 2t-1)` are empty; the slots `[0, used)` are occupied
and the slots `[used+1, 2t)` are empty. The only repair to the original
claim is at the single slot index `used` (inside the claimed occupied
range `[0, used+1)`): that slot is occupied for internal nodes and for
leaves currently parking a bounding separator's value, but is empty for a
plain leaf. -/
theorem claim_C6_amended [LinearOrder K] (t : BTree K V)
    (hr : Reachable t) (n : BTree K V) (hn : NodeIn n t) :
    ∃ KS : List K, KS.length = n.used ∧
      List.Pairwise (· < ·) KS ∧
      n.keys = KS.map some ++ List.replicate (39 - n.used) none ∧
      (∀ i, i < n.used → (n.nodes.getD i none).isSome = true) ∧
      (∀ i, n.used + 1 ≤ i → n.nodes.getD i none = none) := by
  obtain ⟨es, h, hinv⟩ := Reachable_inv t hr
  exact BInv_nodeIn_shape h t none none es hinv n hn

theorem claim_C6_amended_witness :
    (Reachable (leafRoot [((1 : Nat), (1 : Nat))]) ∧
      NodeIn (leafRoot [((1 : Nat), (1 : Nat))])
        (leafRoot [((1 : Nat), (1 : Nat))])) ∧
    ∃ KS : List Nat, KS.length = (leafRoot [((1 : Nat), (1 : Nat))]).used ∧
      List.Pairwise (· < ·) KS ∧
      (leafRoot [((1 : Nat), (1 : Nat))]).keys
        = KS.map some ++ List.replicate
            (39 - (leafRoot [((1 : Nat), (1 : Nat))]).used) none ∧
      (∀ i, i < (leafRoot [((1 : Nat), (1 : Nat))]).used →
        ((leafRoot [((1 : Nat), (1 : Nat))]).nodes.getD i none).isSome
          = true) ∧
      (∀ i, (leafRoot [((1 : Nat), (1 : Nat))]).used + 1 ≤ i →
        (leafRoot [((1 : Nat), (1 : Nat))]).nodes.getD i none = none) := by
  have hreach : Reachable (leafRoot [((1 : Nat), (1 : Nat))]) := by
    refine ⟨[Op.ins 1 1], ?_⟩
    have := buildTree_asc [((1 : Nat), (1 : Nat))] (by decide) (by decide)
    rw [buildTree] at this
    simpa [applyOps, applyOp] using this
  exact ⟨⟨hreach, NodeIn.refl _⟩,
    claim_C6_amended (leafRoot [((1 : Nat), (1 : Nat))]) hreach
      (leafRoot [((1 : Nat), (1 : Nat))]) (NodeIn.refl _)⟩

/-- C8: on a node of the invariant shape, `find_node_pos` computes
`firstGE`, which is exactly the smallest index whose key is `≥ key`
(every key before it is `< key`, the key at it — when it is inside the
occupied range — is `≥ key`), and is `used` when no such index exists. -/
theorem claim_C8 [LinearOrder K] (key : K) (KS : List K)
    (mpad used : Nat) (ns : List (Option (TreeItem K V)))
    (hused : used = KS.length) :
    find_node_pos
        (BTree.mk used (KS.map some ++ List.replicate mpad none) ns) key
      = firstGE key KS ∧
    firstGE key KS ≤ KS.length ∧
    (∀ x ∈ KS.take (firstGE key KS), x < key) ∧
    (∀ x, KS.get? (firstGE key KS) = some x → key ≤ x) := by
  refine ⟨find_node_pos_shape key KS mpad used ns hused,
    firstGE_le_length key KS, firstGE_take_lt key KS, ?_⟩
  intro x hx
  by_cases hlt : firstGE key KS < KS.length
  · exact firstGE_get key KS hlt x hx
  · rw [List.get?_eq_none.mpr (by omega)] at hx
    cases hx

theorem claim_C8_witness :
    ((2 : Nat) = [(3 : Nat), 7].length) ∧
    (find_node_pos
        (BTree.mk 2 ([(3 : Nat), 7].map some ++ List.replicate 37 none)
          (List.replicate 40 none) : BTree Nat Nat) 5
      = firstGE 5 [(3 : Nat), 7] ∧
    firstGE 5 [(3 : Nat), 7] ≤ [(3 : Nat), 7].length ∧
    (∀ x ∈ [(3 : Nat), 7].take (firstGE 5 [(3 : Nat), 7]), x < 5) ∧
    (∀ x, [(3 : Nat), 7].get? (firstGE 5 [(3 : Nat), 7]) = some x →
      5 ≤ x)) :=
  ⟨by decide, claim_C8 5 [(3 : Nat), 7] 37 2 (List.replicate 40 none)
    (by decide)⟩

/-- C9: on reachable trees, `is_empty` is true exactly when every slot of
the root is empty; it is false directly after any successful insert;
`clear` resets `used` to 0, empties every key and slot of the root, makes
`is_empty` true, and makes `find` return `none` for every key. -/
theorem claim_C9 [LinearOrder K] (t : BTree K V) (hr : Reachable t) :
    (t.is_empty = true ↔ ∀ i, t.nodes.getD i none = none) ∧
    (∀ (key : K) (value : V) (t' : BTree K V) (b : Bool),
      BTree.insert t key value = some (t', b) → t'.is_empty = false) ∧
    t.clear.used = 0 ∧
    (∀ i, t.clear.keys.getD i none = none) ∧
    (∀ i, t.clear.nodes.getD i none = none) ∧
    t.clear.is_empty = true ∧
    (∀ key, BTree.find t.clear key = none) := by
  obtain ⟨es, h, hinv⟩ := Reachable_inv t hr
  obtain ⟨hk, hn⟩ := BInv_array_lengths hinv
  have hclear : t.clear = BTree.new := by
    rw [BTree.clear, bt_map_const, bt_map_const, hk, hn]
    rfl
  refine ⟨⟨?_, ?_⟩, ?_, ?_, ?_, ?_, ?_, ?_⟩
  · intro hemp
    refine BInv_empty_shape hinv ?_
    rw [BTree.is_empty] at hemp
    exact Option.isNone_iff_eq_none.mp (by simpa using hemp)
  · intro hall
    rw [BTree.is_empty, hall 0]
    rfl
  · intro key value t' b hins
    obtain ⟨t'', b'', h'', heq, hinv', _⟩ :=
      insert_root_correct key value h t es hinv
    rw [heq] at hins
    obtain ⟨rfl, rfl⟩ : t'' = t' ∧ b'' = b := by
      have := Option.some_inj.mp hins
      exact ⟨congrArg Prod.fst this, congrArg Prod.snd this⟩
    rw [BTree.is_empty]
    exact BInv_nonempty_slot0 hinv'
      (List.ne_nil_of_mem (insertEntry_mem_self key value es))
  · rw [hclear]
    rfl
  · intro i
    rw [hclear, BTree.new, BTree.keys_mk]
    exact bt_getD_replicate _ i
  · intro i
    rw [hclear, BTree.new, BTree.nodes_mk]
    exact bt_getD_replicate _ i
  · rw [hclear]
    rfl
  · intro key
    rw [hclear]
    exact find_new key

theorem claim_C9_witness :
    Reachable (BTree.new : BTree Nat Nat) ∧
    ((BTree.new : BTree Nat Nat).is_empty = true ↔
      ∀ i, (BTree.new : BTree Nat Nat).nodes.getD i none = none) := by
  have hreach : Reachable (BTree.new : BTree Nat Nat) := ⟨[], rfl⟩
  exact ⟨hreach, (claim_C9 BTree.new hreach).1⟩

/-- C10: on every reachable tree, `insert` returns `some` — the
`fail!`-modelled branches of `split_child` and of the internal arm of
`insert_non_full` never execute. -/
theorem claim_C10 [LinearOrder K] (t : BTree K V) (hr : Reachable t)
    (key : K) (value : V) :
    (BTree.insert t key value).isSome = true := by
  obtain ⟨es, h, hinv⟩ := Reachable_inv t hr
  obtain ⟨t', b, h', heq, _⟩ := insert_root_correct key value h t es hinv
  rw [heq]
  rfl

theorem claim_C10_witness :
    (BTree.insert (BTree.new : BTree Nat Nat) 5 7).isSome = true :=
  claim_C10 BTree.new ⟨[], rfl⟩ 5 7

/-- C7: inserting into a tree whose root is full first wraps the root's
content into a fresh child, splits it, and only then descends: the result
is well-formed at height `h + 1` (exactly one more than before) and its
root holds exactly one key. -/
theorem claim_C7 [LinearOrder K] (key : K) (value : V) (t : BTree K V)
    (es : List (K × V)) (h : Nat) (hinv : BInv t none none es h)
    (hfull : t.used = BTREE_KEYS_UBOUND) :
    ∃ (t' : BTree K V) (b : Bool),
      BTree.insert t key value = some (t', b) ∧
      BInv t' none none (insertEntry es key value) (h + 1) ∧
      t'.used = 1 := by
  have hfull39 : t.used = 39 := hfull
  obtain ⟨cksL, cksR, m, cnsL, cnsR, vm, escL, escR, hck, hcn, hkL, hkR,
    hnL, hnR, hescd, hlbm, hubm, hL, hR⟩ :=
    BInv_split_full h t none none es hinv hfull39
  have hteq : t = BTree.mk 39 ((cksL ++ m :: cksR).map some)
      (cnsL ++ cnsR) := by
    rw [BTree.eta t, hck, hcn, hfull39]
  obtain ⟨T, hTdef⟩ : ∃ x, BTree.mk 1
      ([m].map some ++ List.replicate 38 none)
      (([BTree.mk 19 (cksL.map some ++ List.replicate 20 none)
          (cnsL ++ List.replicate 20 none),
        BTree.mk 19 (cksR.map some ++ List.replicate 20 none)
          (cnsR ++ List.replicate 20 none)]).map childSlot
        ++ List.replicate 38 none) = x := ⟨_, rfl⟩
  have hT : BInv T none none es (h + 1) := by
    have hchain := BChain.cons m vm _ []
      [BTree.mk 19 (cksR.map some ++ List.replicate 20 none)
        (cnsR ++ List.replicate 20 none)]
      none none escL escR h trivial trivial hL
      (BChain.last _ (some m) none escR h hR)
    have hc := BInv.internal [m] _ none none (escL ++ escR) h (by simp)
      (by simp) hchain
    rw [show ([m] : List K).length = 1 from rfl,
      show (39 : Nat) - 1 = 38 from by norm_num, ← hescd, hTdef] at hc
    exact hc
  have hhlt : h + 1 < sizeB T :=
    BInv_height_lt_sizeB (h + 1) T none none es hT
  have hinseq : BTree.insert t key value
      = insert_non_fullF (sizeB T + 1) T key value := by
    rw [hteq, insert_full_root key value cksL cksR m cnsL cnsR hkL hkR
      hnL hnR, hTdef]
  obtain ⟨t'', b'', heqC, hinvC⟩ := insert_non_full_correct key value
    (h + 1) T none none es (sizeB T + 1) hT (by omega)
    (by rw [← hTdef]; simp) trivial trivial
  by_cases hkm : key > m
  · obtain ⟨R', bR, hrecR, _⟩ := insert_non_full_correct key value h
      (BTree.mk 19 (cksR.map some ++ List.replicate 20 none)
        (cnsR ++ List.replicate 20 none))
      (some m) none escR (sizeB T) hR (by omega) (by simp)
      (by exact hkm) trivial
    have happ := internal_insert_nosplit (sizeB T) key value [m]
      [BTree.mk 19 (cksL.map some ++ List.replicate 20 none)
        (cnsL ++ List.replicate 20 none)]
      []
      (BTree.mk 19 (cksR.map some ++ List.replicate 20 none)
        (cnsR ++ List.replicate 20 none))
      R' bR (by simp)
      (by simp [firstGE, not_le.mpr hkm])
      (by simp [BTREE_KEYS_UBOUND, BTREE_MIN_DEGREE])
      hrecR
    simp only [List.length_cons, List.length_nil, Nat.zero_add,
      List.singleton_append,
      show (39 : Nat) - 1 = 38 from by norm_num] at happ
    rw [hTdef] at happ
    rw [happ] at heqC
    have hpair := Option.some_inj.mp heqC
    refine ⟨BTree.mk 1 ([m].map some ++ List.replicate 38 none)
      (([BTree.mk 19 (cksL.map some ++ List.replicate 20 none)
          (cnsL ++ List.replicate 20 none), R']).map childSlot
        ++ List.replicate 38 none), bR, ?_, ?_, rfl⟩
    · rw [hinseq]
      exact happ
    · injection hpair with h1 h2
      rw [← h1] at hinvC
      simpa using hinvC
  · obtain ⟨L', bL, hrecL, _⟩ := insert_non_full_correct key value h
      (BTree.mk 19 (cksL.map some ++ List.replicate 20 none)
        (cnsL ++ List.replicate 20 none))
      none (some (m, vm)) escL (sizeB T) hL (by omega) (by simp)
      trivial (by exact not_lt.mp hkm)
    have happ := internal_insert_nosplit (sizeB T) key value [m]
      []
      [BTree.mk 19 (cksR.map some ++ List.replicate 20 none)
        (cnsR ++ List.replicate 20 none)]
      (BTree.mk 19 (cksL.map some ++ List.replicate 20 none)
        (cnsL ++ List.replicate 20 none))
      L' bL (by simp)
      (by simp [firstGE, not_lt.mp hkm])
      (by simp [BTREE_KEYS_UBOUND, BTREE_MIN_DEGREE])
      hrecL
    simp only [List.length_cons, List.length_nil, Nat.zero_add,
      List.nil_append,
      show (39 : Nat) - 1 = 38 from by norm_num] at happ
    rw [hTdef] at happ
    rw [happ] at heqC
    have hpair := Option.some_inj.mp heqC
    refine ⟨BTree.mk 1 ([m].map some ++ List.replicate 38 none)
      (([L', BTree.mk 19 (cksR.map some ++ List.replicate 20 none)
          (cnsR ++ List.replicate 20 none)]).map childSlot
        ++ List.replicate 38 none), bL, ?_, ?_, rfl⟩
    · rw [hinseq]
      exact happ
    · injection hpair with h1 h2
      rw [← h1] at hinvC
      simpa using hinvC

theorem claim_C7_witness :
    ((leafRoot ((List.range 39).map fun i => ((i : Nat), (i : Nat)))
        : BTree Nat Nat).used = BTREE_KEYS_UBOUND) ∧
    ∃ (t' : BTree Nat Nat) (b : Bool),
      BTree.insert
          (leafRoot ((List.range 39).map fun i => ((i : Nat), (i : Nat))))
          100 5
        = some (t', b) ∧
      BInv t' none none
        (insertEntry ((List.range 39).map fun i => ((i : Nat), (i : Nat)))
          100 5) 1 ∧
      t'.used = 1 :=
  ⟨by decide,
    claim_C7 100 5
      (leafRoot ((List.range 39).map fun i => ((i : Nat), (i : Nat))))
      ((List.range 39).map fun i => ((i : Nat), (i : Nat))) 0
      (leafRoot_BInv _ (by decide) (by decide)) (by decide)⟩
